import Mathlib

/-!
A shallow embedding of `tinyxml2.cpp` (tinyxml2).

The document buffer (`charBuffer`) is a `List Char`; a `char*` into it is an
offset (`Nat`), and a `char*` that may be null is an `Option Nat`.  Bytes are
compared as they are; the one place where the source converts a `char` to
`int`, the table lookup of `PrintString`, reads it as a signed `char`
(`charInt`).  Reading past the end of the list yields the null byte and
writing past the end does nothing.  `TIXMLASSERT` is a macro of
the header and is taken as compiled out.  Loops whose end is not evident from
their shape take fuel; recursion that may not end returns `none` when the
fuel runs out.
-/

namespace tinyxml2

/-! ## Constants (tinyxml2.cpp lines 10-31) -/

/-- The null byte that terminates every C string. -/
def NUL : Char := Char.ofNat 0

/-- Line feed: `LINE_FEED = (char)0x0a`. -/
def LF : Char := Char.ofNat 0x0a

/-- Carriage return: `CARRIAGE_RETURN = (char)0x0d`. -/
def CR : Char := Char.ofNat 0x0d

def SINGLE_QUOTE : Char := '\''

def DOUBLE_QUOTE : Char := '"'

/-- The `struct Entity` of the source: pattern, its length, and the character. -/
structure Entity where
  pattern : List Char
  length : Nat
  value : Char
deriving DecidableEq, Repr

def NUM_ENTITIES : Nat := 5

/-- The table `entities[NUM_ENTITIES]`. -/
def entities : List Entity :=
  [ ⟨"quot".toList, 4, DOUBLE_QUOTE⟩,
    ⟨"amp".toList, 3, '&'⟩,
    ⟨"apos".toList, 4, SINGLE_QUOTE⟩,
    ⟨"lt".toList, 2, '<'⟩,
    ⟨"gt".toList, 2, '>'⟩ ]

/-- The value of a `char` converted to `int`, where `char` is a signed type
of eight bits (as in the x86 and x86-64 ABIs): the bytes from 0x80 on are
negative. -/
def charInt (c : Char) : Int :=
  if c.toNat % 256 < 128 then (c.toNat % 256 : Nat) else ((c.toNat % 256 : Nat) : Int) - 256

/-! ## C strings in a buffer -/

/-- Read of `*p`: the byte at offset `p`, the null byte outside the list. -/
def peek (buf : List Char) (p : Nat) : Char := buf.getD p NUL

/-- The C string that starts at the head of a list: the bytes before the
first null byte. -/
def cstrOf : List Char → List Char
  | [] => []
  | c :: cs => if c = NUL then [] else c :: cstrOf cs

/-- The C string a `char*` at offset `p` points to. -/
def cstr (buf : List Char) (p : Nat) : List Char := cstrOf (buf.drop p)

/-- The test `strncmp( s, pattern, n ) == 0` for a string `s` given by its
bytes and a pattern that holds no null byte: the first `n` bytes agree. -/
def strncmpEq : List Char → List Char → Nat → Bool
  | _, _, 0 => true
  | [], [], _ + 1 => true
  | [], b :: _, _ + 1 => b = NUL
  | a :: _, [], _ + 1 => a = NUL
  | a :: as, b :: bs, n + 1 =>
      if a = b then (if a = NUL then true else strncmpEq as bs n) else false

/-! ## StrPair (tinyxml2.cpp lines 34-96) -/

/-- Modelled from the spec: the flag constants of `StrPair` are declared in
the header, which is not part of the source at hand.  The spec gives the
pending flags as a set of NeedsFlush, NewlineNormalization, EntityDecoding;
the set is a record of three booleans, `flags & X` reads a field,
`flags ^= NEEDS_FLUSH` flips one, `if ( flags )` asks whether any is set and
`flags = 0` clears all. -/
structure StrFlags where
  NEEDS_FLUSH : Bool
  NEEDS_NEWLINE_NORMALIZATION : Bool
  NEEDS_ENTITY_PROCESSING : Bool
deriving DecidableEq, Repr

namespace StrFlags

/-- The value `0`. -/
def zero : StrFlags := ⟨false, false, false⟩

/-- The test `if ( flags )`. -/
def nonzero (f : StrFlags) : Bool :=
  f.NEEDS_FLUSH || f.NEEDS_NEWLINE_NORMALIZATION || f.NEEDS_ENTITY_PROCESSING

/-- The update `flags ^= NEEDS_FLUSH`. -/
def xorFlush (f : StrFlags) : StrFlags := { f with NEEDS_FLUSH := !f.NEEDS_FLUSH }

/-- The value `flags | NEEDS_FLUSH`. -/
def orFlush (f : StrFlags) : StrFlags := { f with NEEDS_FLUSH := true }

end StrFlags

/-- Modelled from the spec: the four modes passed to `StrPair::Set` are
declared in the header.  The spec: AttributeName and CommentText carry no
decoding, RawText and AttributeValue carry newline normalization and entity
decoding. -/
def TEXT_ELEMENT : StrFlags := ⟨false, true, true⟩

/-- Modelled from the spec: see `TEXT_ELEMENT`. -/
def ATTRIBUTE_NAME : StrFlags := StrFlags.zero

/-- Modelled from the spec: see `TEXT_ELEMENT`. -/
def ATTRIBUTE_VALUE : StrFlags := ⟨false, true, true⟩

/-- Modelled from the spec: see `TEXT_ELEMENT`. -/
def COMMENT : StrFlags := StrFlags.zero

/-- A text span: flags and the two pointers `start` and `end` into the
document buffer (both null until `Set` is called). -/
structure StrPair where
  flags : StrFlags
  start : Option Nat
  stop : Option Nat
deriving DecidableEq, Repr

namespace StrPair

/-- Modelled from the spec: the constructor is in the header; a fresh span
has no flags and null pointers. -/
def init : StrPair := ⟨StrFlags.zero, none, none⟩

/-- Modelled from the spec: `Set( start, end, flags )` is in the header; it
stores the pointers and the mode's flags together with NeedsFlush. -/
def Set (start stop : Nat) (flags : StrFlags) : StrPair :=
  ⟨flags.orFlush, some start, some stop⟩

/-- Modelled from the spec: `Empty()` is in the header; a span is empty when
`start == end`. -/
def Empty (s : StrPair) : Bool := s.start == s.stop

/-- The `for` loop over the entity table at lines 68-78: the first entry
whose pattern follows the `&` at `p` and is itself followed by `;`. -/
def findEntity (buf : List Char) (p : Nat) : Option Entity :=
  entities.find? (fun e =>
    strncmpEq (buf.drop (p + 1)) e.pattern e.length && peek buf (p + e.length + 1) == ';')

/-- The `while( p < end )` loop of `GetStr` (lines 44-90), rewriting the
buffer in place; the result is the buffer and the write cursor `q`.  Every
turn moves `p` forward, so `end - p` turns always suffice: that is the first
argument. -/
def GetStr.loop (flags : StrFlags) (stop : Nat) :
    Nat → Nat → Nat → List Char → List Char × Nat
  | 0, _, q, buf => (buf, q)
  | fuel + 1, p, q, buf =>
    if p < stop then
      if flags.NEEDS_NEWLINE_NORMALIZATION && peek buf p == CR then
        if peek buf (p + 1) == LF then
          GetStr.loop flags stop fuel (p + 2) q (buf.set q LF)
        else
          GetStr.loop flags stop fuel (p + 1) q (buf.set q LF)
      else if flags.NEEDS_NEWLINE_NORMALIZATION && peek buf p == LF then
        if peek buf (p + 1) == CR then
          GetStr.loop flags stop fuel (p + 2) q (buf.set q LF)
        else
          GetStr.loop flags stop fuel (p + 1) q (buf.set q LF)
      else if flags.NEEDS_ENTITY_PROCESSING && peek buf p == '&' then
        match findEntity buf p with
        | some e => GetStr.loop flags stop fuel (p + e.length + 2) (q + 1) (buf.set q e.value)
        | none => GetStr.loop flags stop fuel (p + 1) (q + 1) buf
      else
        GetStr.loop flags stop fuel (p + 1) (q + 1) (buf.set q (peek buf p))
    else (buf, q)

/-- The method `StrPair::GetStr`: the buffer after the call, the span after
the call, and the returned pointer `start`.  (A span with NeedsFlush set has
been through `Set`, so its pointers are not null.) -/
def GetStr (buf : List Char) (s : StrPair) : List Char × StrPair × Option Nat :=
  if s.flags.NEEDS_FLUSH then
    match s.start, s.stop with
    | some start, some stop =>
      let buf1 := buf.set stop NUL
      let flags := s.flags.xorFlush
      if flags.nonzero then
        let r := GetStr.loop flags stop (stop - start) start start buf1
        (r.1.set r.2 NUL, { s with flags := StrFlags.zero }, s.start)
      else
        (buf1, { s with flags := StrFlags.zero }, s.start)
    | _, _ => (buf, { s with flags := StrFlags.zero }, s.start)
  else (buf, s, s.start)

/-- The text a caller reads from the pointer `GetStr` returns: the C string
at `start` in the buffer after the call; `none` when the pointer is null. -/
def text (buf : List Char) (s : StrPair) : Option (List Char) :=
  match GetStr buf s with
  | (buf1, _, some p) => some (cstr buf1 p)
  | (_, _, none) => none

end StrPair

/-! ## XMLBase (tinyxml2.cpp lines 99-201) -/

/-- The C library test `isspace` in the C locale. -/
def isspace (c : Char) : Bool :=
  c = ' ' || c = '\t' || c = '\n' || c = Char.ofNat 0x0b || c = Char.ofNat 0x0c || c = '\r'

/-- Modelled from the spec: `IsAlpha` is a helper of the header; the spec
calls the bytes it accepts alphabetic, and gives a meaning to 7-bit bytes
only. -/
def IsAlpha (c : Char) : Bool := c.isAlpha

/-- Modelled from the spec: `IsAlphaNum` is a helper of the header; the spec
calls the bytes it accepts alphanumeric. -/
def IsAlphaNum (c : Char) : Bool := c.isAlphanum

/-- The loop `while( isspace( *p ) ) ++p` over the bytes from `p` on. -/
def SkipWhiteSpace.loop : List Char → Nat → Nat
  | [], p => p
  | c :: cs, p => if isspace c then SkipWhiteSpace.loop cs (p + 1) else p

/-- Modelled from the spec: `SkipWhiteSpace` is a helper of the header; it
moves the pointer over white space. -/
def SkipWhiteSpace (buf : List Char) (p : Nat) : Nat :=
  SkipWhiteSpace.loop (buf.drop p) p

/-- Modelled from the spec: `StringEqual( p, q, nChar )` is a helper of the
header; it tells whether the bytes at `p` start with the `nChar` bytes of
`q`. -/
def StringEqual (buf : List Char) (p : Nat) (q : List Char) (nChar : Nat) : Bool :=
  strncmpEq (buf.drop p) q nChar

/-- The loop `while ( *p )` of `ParseText` over the bytes from `p` on: the
offset of the end tag when it is found, and the returned pointer. -/
def ParseText.loop (endTag : List Char) (length : Nat) : List Char → Nat → Option Nat × Nat
  | [], p => (none, p)
  | c :: cs, p =>
    if c = NUL then (none, p)
    else if c = endTag.headD NUL && strncmpEq (c :: cs) endTag length then (some p, p + length)
    else ParseText.loop endTag length cs (p + 1)

/-- The function `XMLBase::ParseText`: the span (set when the end tag is
found, left as it was otherwise) and the returned pointer. -/
def ParseText (buf : List Char) (p : Nat) (pair : StrPair) (endTag : List Char)
    (strFlags : StrFlags) : StrPair × Nat :=
  let start := p
  let length := (cstrOf endTag).length
  match ParseText.loop endTag length (buf.drop p) p with
  | (some e, r) => (StrPair.Set start e strFlags, r)
  | (none, r) => (pair, r)

/-- The loop of `ParseName` over the bytes from `p` on. -/
def ParseName.loop : List Char → Nat → Nat
  | [], p => p
  | c :: cs, p =>
    if c ≠ NUL && (IsAlphaNum c || c = '_' || c = '-' || c = '.' || c = ':') then
      ParseName.loop cs (p + 1)
    else p

/-- The function `XMLBase::ParseName` on a pointer that is not null: the span
and the returned pointer (`none` for the null pointer). -/
def ParseName (buf : List Char) (p : Nat) (pair : StrPair) : StrPair × Option Nat :=
  let start := p
  if peek buf start = NUL then (pair, none)
  else if !IsAlpha (peek buf p) then (pair, none)
  else
    let p1 := ParseName.loop (buf.drop p) p
    if p1 > start then (StrPair.Set start p1 StrFlags.zero, some p1)
    else (pair, none)

/-! ## The node tree as the parser builds it -/

/-- An attribute: its two spans.  The `next` pointer of the source is the
order of the element's attribute list. -/
structure XMLAttribute where
  name : StrPair
  value : StrPair
deriving DecidableEq, Repr

/-- A node: an element (name, `closing`, the attribute list from
`rootAttribute`, `isTextParent`, the child list from `firstChild`), a text
or a comment.  Texts and comments are never given children. -/
inductive XMLNode where
  | Element (name : StrPair) (closing : Bool) (attributes : List XMLAttribute)
      (isTextParent : Bool) (children : List XMLNode)
  | Text (value : StrPair)
  | Comment (value : StrPair)
deriving Repr

namespace XMLNode

/-- Modelled from the spec: `ToText()` is declared in the header; it is not
null exactly for a text node. -/
def ToText : XMLNode → Bool
  | Text _ => true
  | _ => false

/-- Modelled from the spec: `IsClosingElement()` is declared in the header;
it holds for an element whose `closing` is set. -/
def IsClosingElement : XMLNode → Bool
  | Element _ closing _ _ _ => closing
  | _ => false

end XMLNode

/-- The fields of `XMLNode` that `ParseDeep` and `InsertEndChild` change on
`this`: the child list and `isTextParent`. -/
structure NodeBase where
  isTextParent : Bool
  children : List XMLNode
deriving Repr

/-- The method `XMLNode::InsertEndChild` seen on the child list: the node is
appended and a text child marks the parent (lines 255-279). -/
def NodeBase.InsertEndChild (self : NodeBase) (addThis : XMLNode) : NodeBase :=
  { isTextParent := self.isTextParent || addThis.ToText,
    children := self.children ++ [addThis] }

/-- Modelled from the spec: the error codes are an enumeration of the header;
the spec lists NoError, ErrorParsingElement, ErrorParsingAttribute, and
NoError is zero. -/
def NO_ERROR : Int := 0

/-- Modelled from the spec: see `NO_ERROR`. -/
def ERROR_PARSING_ELEMENT : Int := 1

/-- Modelled from the spec: see `NO_ERROR`. -/
def ERROR_PARSING_ATTRIBUTE : Int := 2

/-- The fields of `XMLDocument` besides its node part: the private buffer
and the error state.  `setErrorCalls` counts the calls of `SetError`. -/
structure XMLDocument where
  charBuffer : List Char
  errorID : Int
  errorStr1 : Option Nat
  errorStr2 : Option Nat
  setErrorCalls : Nat
deriving DecidableEq, Repr

/-- The method `XMLDocument::SetError` (the diagnostic `printf` to the
standard output is left out). -/
def XMLDocument.SetError (doc : XMLDocument) (error : Int) (str1 str2 : Option Nat) :
    XMLDocument :=
  { doc with errorID := error, errorStr1 := str1, errorStr2 := str2,
             setErrorCalls := doc.setErrorCalls + 1 }

/-- The function `XMLBase::Identify`: the returned pointer and the node it
stores in `*node` (`none` when `*node` is left or set null).  `TIXMLASSERT`
is compiled out. -/
def Identify (buf : List Char) (p : Nat) : Option Nat × Option XMLNode :=
  let start := p
  let p := SkipWhiteSpace buf p
  if peek buf p = NUL then (none, none)
  else if StringEqual buf p "<!--".toList 4 then
    (some (p + 4), some (XMLNode.Comment StrPair.init))
  else if StringEqual buf p "<".toList 1 then
    (some (p + 1), some (XMLNode.Element StrPair.init false [] false []))
  else if peek buf p ≠ '<' && IsAlphaNum (peek buf p) then
    (some start, some (XMLNode.Text StrPair.init))
  else (some p, none)

/-- The method `XMLText::ParseDeep`. -/
def XMLText.ParseDeep (buf : List Char) (value : StrPair) (p : Nat) : StrPair × Option Nat :=
  let r := ParseText buf p value "<".toList TEXT_ELEMENT
  if peek buf r.2 ≠ NUL then (r.1, some (r.2 - 1)) else (r.1, none)

/-- The method `XMLComment::ParseDeep`. -/
def XMLComment.ParseDeep (buf : List Char) (value : StrPair) (p : Nat) : StrPair × Option Nat :=
  let r := ParseText buf p value "-->".toList COMMENT
  (r.1, some r.2)

/-- The method `XMLAttribute::ParseDeep` on a fresh attribute. -/
def XMLAttribute.ParseDeep (buf : List Char) (self : XMLAttribute) (p : Nat) :
    XMLAttribute × Option Nat :=
  let r := ParseText buf p self.name "=".toList ATTRIBUTE_NAME
  let self := { self with name := r.1 }
  let p := r.2
  if peek buf p = NUL then (self, none)
  else
    let endTag := [peek buf p, NUL]
    let p := p + 1
    let r := ParseText buf p self.value endTag ATTRIBUTE_VALUE
    let self := { self with value := r.1 }
    if self.value.Empty then (self, none) else (self, some r.2)

/-- The state of an element while it is parsed. -/
structure XMLElement where
  name : StrPair
  closing : Bool
  attributes : List XMLAttribute
  base : NodeBase
deriving Repr

/-- An element as a node of the tree. -/
def XMLElement.toNode (e : XMLElement) : XMLNode :=
  XMLNode.Element e.name e.closing e.attributes e.base.isTextParent e.base.children

/-- The constructor `XMLElement::XMLElement`. -/
def XMLElement.init : XMLElement := ⟨StrPair.init, false, [], ⟨false, []⟩⟩

/-- The method `XMLElement::ParseAttributes`, one turn of its `while` loop
per unit of fuel: the document, the element, `*closedElement` and the
returned pointer; `none` when the fuel runs out. -/
def XMLElement.ParseAttributes.loop (start : Nat) :
    Nat → XMLDocument → XMLElement → Nat → Option (XMLDocument × XMLElement × Bool × Option Nat)
  | 0, _, _, _ => none
  | fuel + 1, doc, self, p =>
    let p := SkipWhiteSpace doc.charBuffer p
    if peek doc.charBuffer p = NUL then
      let g := self.name.GetStr doc.charBuffer
      let doc := { doc with charBuffer := g.1 }
      let self := { self with name := g.2.1 }
      some (doc.SetError ERROR_PARSING_ELEMENT (some start) g.2.2, self, false, none)
    else if IsAlpha (peek doc.charBuffer p) then
      match XMLAttribute.ParseDeep doc.charBuffer ⟨StrPair.init, StrPair.init⟩ p with
      | (_, none) =>
        some (doc.SetError ERROR_PARSING_ATTRIBUTE (some start) none, self, false, none)
      | (attrib, some p1) =>
        XMLElement.ParseAttributes.loop start fuel doc
          { self with attributes := self.attributes ++ [attrib] } p1
    else if peek doc.charBuffer p = '/' && peek doc.charBuffer (p + 1) = '>' then
      if self.closing then
        some (doc.SetError ERROR_PARSING_ELEMENT (some start) (some p), self, false, none)
      else some (doc, self, true, some (p + 2))
    else if peek doc.charBuffer p = '>' then
      some (doc, self, false, some (p + 1))
    else
      some (doc.SetError ERROR_PARSING_ELEMENT (some start) (some p), self, false, none)

/-- The method `XMLElement::ParseAttributes`. -/
def XMLElement.ParseAttributes (fuel : Nat) (doc : XMLDocument) (self : XMLElement)
    (p : Option Nat) : Option (XMLDocument × XMLElement × Bool × Option Nat) :=
  match p with
  | none => some (doc, self, false, none)
  | some p => XMLElement.ParseAttributes.loop p fuel doc self p

mutual

/-- The method `XMLNode::ParseDeep` on `this` given by its `NodeBase`, one
turn of the `while` loop or one nested call per unit of fuel; `none` when the
fuel runs out. -/
def XMLNode.ParseDeep :
    Nat → XMLDocument → NodeBase → Option Nat → Option (XMLDocument × NodeBase × Option Nat)
  | 0, _, _, _ => none
  | _ + 1, doc, self, none => some (doc, self, none)
  | fuel + 1, doc, self, some p =>
    if peek doc.charBuffer p = NUL then some (doc, self, none)
    else
      match Identify doc.charBuffer p with
      | (some p1, some (XMLNode.Comment value)) =>
        let r := XMLComment.ParseDeep doc.charBuffer value p1
        XMLNode.ParseDeep fuel doc (self.InsertEndChild (XMLNode.Comment r.1)) r.2
      | (some p1, some (XMLNode.Text value)) =>
        let r := XMLText.ParseDeep doc.charBuffer value p1
        XMLNode.ParseDeep fuel doc (self.InsertEndChild (XMLNode.Text r.1)) r.2
      | (some p1, some (XMLNode.Element name closing attributes isTextParent children)) =>
        match XMLElement.ParseDeep fuel doc ⟨name, closing, attributes, ⟨isTextParent, children⟩⟩ p1 with
        | none => none
        | some (doc1, node, p2) =>
          if node.toNode.IsClosingElement then some (doc1, self, p2)
          else XMLNode.ParseDeep fuel doc1 (self.InsertEndChild node.toNode) p2
      | (p1, none) => XMLNode.ParseDeep fuel doc self p1
      | (none, some _) => XMLNode.ParseDeep fuel doc self none

/-- The method `XMLElement::ParseDeep`; `none` when the fuel runs out. -/
def XMLElement.ParseDeep :
    Nat → XMLDocument → XMLElement → Nat → Option (XMLDocument × XMLElement × Option Nat)
  | 0, _, _, _ => none
  | fuel + 1, doc, self, p =>
    let p := SkipWhiteSpace doc.charBuffer p
    let self := if peek doc.charBuffer p = '/' then { self with closing := true } else self
    let p := if peek doc.charBuffer p = '/' then p + 1 else p
    let r := ParseName doc.charBuffer p self.name
    let self := { self with name := r.1 }
    if self.name.Empty then some (doc, self, none)
    else
      match XMLElement.ParseAttributes fuel doc self r.2 with
      | none => none
      | some (doc1, self1, _, none) => some (doc1, self1, none)
      | some (doc1, self1, elementClosed, some p1) =>
        if peek doc1.charBuffer p1 = NUL || elementClosed || self1.closing then
          some (doc1, self1, some p1)
        else
          match XMLNode.ParseDeep fuel doc1 self1.base (some p1) with
          | none => none
          | some (doc2, base, p2) => some (doc2, { self1 with base := base }, p2)

end

/-- The document after `Parse`: its node part and its other fields. -/
structure Parsed where
  base : NodeBase
  doc : XMLDocument
  result : Int
deriving Repr

/-- The method `XMLDocument::Parse` on a newly constructed document: the
children are cleared, the error state is reset, the input is copied with its
terminating null byte and parsed in place.  The input `none` is the null
pointer; of a list the C string at its head is read. -/
def XMLDocument.Parse (fuel : Nat) (p : Option (List Char)) : Option Parsed :=
  let doc : XMLDocument := ⟨[], NO_ERROR, none, none, 0⟩
  let base : NodeBase := ⟨false, []⟩
  match p with
  | none => some ⟨base, doc, 1⟩
  | some s =>
    if cstrOf s = [] then some ⟨base, doc, 1⟩
    else
      let doc := { doc with charBuffer := cstrOf s ++ [NUL] }
      match XMLNode.ParseDeep fuel doc base (some 0) with
      | none => none
      | some (doc1, base1, _) => some ⟨base1, doc1, doc1.errorID⟩

/-! ## StringStack (tinyxml2.cpp lines 571-604) -/

/-- Modelled from the spec: `DynArray` is a class of the header; the spec
only says that the streamer keeps ordered stacks.  Here it is a byte array
with a live size: `PushArr( n )` makes room for `n` more bytes and returns
the offset of the first, `PopArr( n )` lowers the size by `n` and leaves the
bytes where they are, `Mem()` is offset zero and `Size()` the live size. -/
structure DynArray where
  mem : List Char
  size : Nat
deriving DecidableEq, Repr

namespace DynArray

def init : DynArray := ⟨[], 0⟩

def PushArr (a : DynArray) (count : Nat) : DynArray × Nat :=
  ({ mem := a.mem ++ List.replicate (a.size + count - a.mem.length) NUL,
     size := a.size + count }, a.size)

def Push (a : DynArray) (t : Char) : DynArray :=
  let r := a.PushArr 1
  { r.1 with mem := r.1.mem.set r.2 t }

def PopArr (a : DynArray) (count : Nat) : DynArray :=
  { a with size := a.size - count }

end DynArray

/-- Writes the bytes `src` into `mem` from offset `p` on. -/
def writeAt : List Char → Nat → List Char → List Char
  | mem, _, [] => mem
  | mem, p, c :: cs => writeAt (mem.set p c) (p + 1) cs

/-- The C library call `strcpy( mem + p, str )`: the string and its
terminating null byte are written. -/
def strcpy (mem : List Char) (p : Nat) (str : List Char) : List Char :=
  writeAt mem p (cstrOf str ++ [NUL])

/-- The class `StringStack`: the byte array and the counter `nPositive`. -/
structure StringStack where
  mem : DynArray
  nPositive : Int
deriving DecidableEq, Repr

namespace StringStack

/-- The constructor: `nPositive = 0; mem.Push( 0 )`. -/
def init : StringStack := ⟨DynArray.init.Push NUL, 0⟩

/-- Modelled from the spec: `NumPositive()` is in the header; it reads the
counter. -/
def NumPositive (s : StringStack) : Int := s.nPositive

/-- The method `StringStack::Push`. -/
def Push (s : StringStack) (str : List Char) : StringStack :=
  let needed := (cstrOf str).length + 1
  let r := s.mem.PushArr needed
  { mem := { r.1 with mem := strcpy r.1.mem r.2 str },
    nPositive := if needed > 1 then s.nPositive + 1 else s.nPositive }

/-- The loop `while( *p ) --p` of `Pop`; at offset zero it stops. -/
def Pop.scan (mem : List Char) : Nat → Nat
  | 0 => 0
  | p + 1 => if peek mem (p + 1) ≠ NUL then Pop.scan mem p else p + 1

/-- The method `StringStack::Pop`: the stack after the call and the string
at the returned pointer `p+1`. -/
def Pop (s : StringStack) : StringStack × List Char :=
  let p := s.mem.size - 2
  let nPositive := if peek s.mem.mem p ≠ NUL then s.nPositive - 1 else s.nPositive
  let p := Pop.scan s.mem.mem p
  let mem := s.mem.PopArr ((cstr s.mem.mem p).length + 1)
  ({ mem := mem, nPositive := nPositive }, cstr s.mem.mem (p + 1))

end StringStack

/-! ## XMLStreamer (tinyxml2.cpp lines 607-742) -/

/-- Modelled from the spec: `ENTITY_RANGE`, the size of the lookup table, is
a constant of the header; the spec asks that every entity value is small
enough to index the table. -/
def ENTITY_RANGE : Nat := 64

/-- The class `XMLStreamer`; `fp` is the list of the bytes written so far. -/
structure XMLStreamer where
  fp : List Char
  depth : Int
  elementJustOpened : Bool
  stack : StringStack
  text : StringStack
  entityFlag : List Bool
deriving DecidableEq, Repr

namespace XMLStreamer

/-- The constructor `XMLStreamer::XMLStreamer`. -/
def init : XMLStreamer :=
  { fp := [], depth := 0, elementJustOpened := false,
    stack := StringStack.init, text := StringStack.init,
    entityFlag := entities.foldl
      (fun flag e => if e.value.toNat < ENTITY_RANGE then flag.set e.value.toNat true else flag)
      (List.replicate ENTITY_RANGE false) }

/-- Appends bytes to the output. -/
def write (s : XMLStreamer) (bytes : List Char) : XMLStreamer :=
  { s with fp := s.fp ++ bytes }

/-- The method `XMLStreamer::PrintSpace`. -/
def PrintSpace (s : XMLStreamer) (depth : Int) : XMLStreamer :=
  s.write (List.replicate depth.toNat "    ".toList).flatten

/-- The text `&pattern;` written for the byte `c` by the `for` loop at lines
644-649 (nothing when no entry has the value `c`). -/
def entityText (c : Char) : List Char :=
  match entities.find? (fun e => e.value = c) with
  | some e => "&".toList ++ cstrOf e.pattern ++ ";".toList
  | none => []

/-- The `while ( *q )` loop of `PrintString` over the bytes from `q` on, with
the cursors `p` and `q` as offsets into `str`: the output and the final
cursors; `none` when `entityFlag` is read at a negative index. -/
def PrintString.loop (entityFlag : List Bool) (str : List Char) :
    List Char → Nat → Nat → List Char → Option (List Char × Nat × Nat)
  | [], p, q, out => some (out, p, q)
  | c :: cs, p, q, out =>
    if c = NUL then some (out, p, q)
    else if charInt c < ENTITY_RANGE then
      if charInt c < 0 then none
      else if entityFlag.getD (charInt c).toNat false then
        let out := out ++ (str.drop p).take (q - p)
        let p := max p q
        PrintString.loop entityFlag str cs (p + 1) (q + 1) (out ++ entityText c)
      else PrintString.loop entityFlag str cs p (q + 1) out
    else PrintString.loop entityFlag str cs p (q + 1) out

/-- The method `XMLStreamer::PrintString` on the string at `p`; `none` when
`entityFlag` is read outside the table. -/
def PrintString (s : XMLStreamer) (str : List Char) : Option XMLStreamer :=
  match PrintString.loop s.entityFlag str str 0 0 [] with
  | none => none
  | some r =>
    let s := s.write r.1
    if r.2.2 > r.2.1 then some (s.write (cstr str r.2.1)) else some s

/-- The method `XMLStreamer::SealElement`. -/
def SealElement (s : XMLStreamer) : XMLStreamer :=
  let s := { s with elementJustOpened := false }
  let s := s.write ">".toList
  if s.text.NumPositive = 0 then s.write "\n".toList else s

/-- The method `XMLStreamer::OpenElement`. -/
def OpenElement (s : XMLStreamer) (name : List Char) (textParent : Bool) : XMLStreamer :=
  let s := if s.elementJustOpened then s.SealElement else s
  let s := if s.text.NumPositive = 0 then s.PrintSpace s.depth else s
  let s := { s with stack := s.stack.Push name }
  let s := { s with text := s.text.Push (if textParent then "T".toList else "".toList) }
  let s := s.write ("<".toList ++ cstrOf name)
  { s with elementJustOpened := true, depth := s.depth + 1 }

/-- The method `XMLStreamer::PushAttribute`. -/
def PushAttribute (s : XMLStreamer) (name value : List Char) : Option XMLStreamer :=
  let s := s.write (" ".toList ++ cstrOf name ++ "=\"".toList)
  match s.PrintString value with
  | none => none
  | some s => some (s.write "\"".toList)

/-- The method `XMLStreamer::CloseElement`. -/
def CloseElement (s : XMLStreamer) : XMLStreamer :=
  let s := { s with depth := s.depth - 1 }
  let r := s.stack.Pop
  let s := { s with stack := r.1 }
  let name := r.2
  let wasPositive := s.text.NumPositive
  let s := { s with text := s.text.Pop.1 }
  let s :=
    if s.elementJustOpened then
      let s := s.write "/>".toList
      if s.text.NumPositive = 0 then s.write "\n".toList else s
    else
      let s := if wasPositive = 0 then s.PrintSpace s.depth else s
      let s := s.write ("</".toList ++ name ++ ">".toList)
      if s.text.NumPositive = 0 then s.write "\n".toList else s
  { s with elementJustOpened := false }

/-- The method `XMLStreamer::PushText`. -/
def PushText (s : XMLStreamer) (text : List Char) : Option XMLStreamer :=
  let s := if s.elementJustOpened then s.SealElement else s
  s.PrintString text

/-- The method `XMLStreamer::PushComment`. -/
def PushComment (s : XMLStreamer) (comment : List Char) : XMLStreamer :=
  let s := if s.elementJustOpened then s.SealElement else s
  let s := s.PrintSpace s.depth
  s.write ("<!--".toList ++ cstrOf comment ++ "-->\n".toList)

end XMLStreamer

/-! ## Printing the tree (tinyxml2.cpp lines 282-287, 320-324, 340-345,
369-374, 485-503, 551-559) -/

/-- What a `Print` method works on: the document buffer, which `GetStr`
rewrites, and the streamer. -/
structure PrintState where
  buf : List Char
  streamer : XMLStreamer
deriving DecidableEq, Repr

/-- A call of `GetStr` during printing: the state and span after the call and
the string at the returned pointer; `none` when the pointer is null, which
the callers dereference. -/
def PrintState.GetStr (st : PrintState) (s : StrPair) :
    Option (PrintState × StrPair × List Char) :=
  match s.GetStr st.buf with
  | (buf1, s1, some p) => some ({ st with buf := buf1 }, s1, cstr buf1 p)
  | (_, _, none) => none

/-- The method `XMLAttribute::Print`: `name.GetStr()` is called before
`value.GetStr()`, and `PushAttribute` reads both strings after both calls. -/
def XMLAttribute.Print (st : PrintState) (a : XMLAttribute) : Option (PrintState × XMLAttribute) :=
  match a.name.GetStr st.buf with
  | (_, _, none) => none
  | (buf1, name1, some pn) =>
    match a.value.GetStr buf1 with
    | (_, _, none) => none
    | (buf2, value1, some pv) =>
      match st.streamer.PushAttribute (cstr buf2 pn) (cstr buf2 pv) with
      | none => none
      | some streamer1 => some ({ buf := buf2, streamer := streamer1 }, ⟨name1, value1⟩)

/-- The loop over the attribute list in `XMLElement::Print`. -/
def XMLAttribute.PrintList : PrintState → List XMLAttribute → Option (PrintState × List XMLAttribute)
  | st, [] => some (st, [])
  | st, a :: as =>
    match XMLAttribute.Print st a with
    | none => none
    | some (st1, a1) =>
      match XMLAttribute.PrintList st1 as with
      | none => none
      | some (st2, as1) => some (st2, a1 :: as1)

mutual

/-- The virtual method `Print` of a node (`XMLElement::Print`,
`XMLText::Print`, `XMLComment::Print`): the state and the node after the
call; `none` when a null string is dereferenced or `PrintString` reads
outside its table.  `Name()` and
`IsTextParent()` are accessors of the header, read as `name.GetStr()` and
the field `isTextParent`. -/
def XMLNode.Print : PrintState → XMLNode → Option (PrintState × XMLNode)
  | st, XMLNode.Text value =>
    match st.GetStr value with
    | none => none
    | some (st1, value1, v) =>
      match st1.streamer.PushText v with
      | none => none
      | some streamer1 => some ({ st1 with streamer := streamer1 }, XMLNode.Text value1)
  | st, XMLNode.Comment value =>
    match st.GetStr value with
    | none => none
    | some (st1, value1, v) =>
      some ({ st1 with streamer := st1.streamer.PushComment v }, XMLNode.Comment value1)
  | st, XMLNode.Element name closing attributes isTextParent children =>
    match st.GetStr name with
    | none => none
    | some (st1, name1, n) =>
      let st2 := { st1 with streamer := st1.streamer.OpenElement n isTextParent }
      match XMLAttribute.PrintList st2 attributes with
      | none => none
      | some (st3, attributes1) =>
        match XMLNode.PrintList st3 children with
        | none => none
        | some (st4, children1) =>
          some ({ st4 with streamer := st4.streamer.CloseElement },
                XMLNode.Element name1 closing attributes1 isTextParent children1)

/-- The loop `for( node = firstChild; node; node = node->next )` calling
`Print` on every child. -/
def XMLNode.PrintList : PrintState → List XMLNode → Option (PrintState × List XMLNode)
  | st, [] => some (st, [])
  | st, n :: ns =>
    match XMLNode.Print st n with
    | none => none
    | some (st1, n1) =>
      match XMLNode.PrintList st1 ns with
      | none => none
      | some (st2, ns1) => some (st2, n1 :: ns1)

end

/-- The method `XMLDocument::Print` with a streamer given: the bytes written,
and the document after the call. -/
def XMLDocument.Print (d : Parsed) (streamer : XMLStreamer) : Option (Parsed × XMLStreamer) :=
  match XMLNode.PrintList ⟨d.doc.charBuffer, streamer⟩ d.base.children with
  | none => none
  | some (st, children1) =>
    some ({ d with base := { d.base with children := children1 },
                   doc := { d.doc with charBuffer := st.buf } }, st.streamer)

/-! ## The decoded content of a parsed tree -/

/-- The decoded content of a tree: for every node its kind and the strings
`GetStr` gives for its spans (`none` for a span whose pointer is null). -/
inductive Content where
  | Element (name : Option (List Char))
      (attributes : List (Option (List Char) × Option (List Char))) (children : List Content)
  | Text (value : Option (List Char))
  | Comment (value : Option (List Char))
deriving Repr

mutual

/-- The content of a node whose spans lie in `buf`. -/
def XMLNode.content (buf : List Char) : XMLNode → Content
  | XMLNode.Text value => Content.Text (value.text buf)
  | XMLNode.Comment value => Content.Comment (value.text buf)
  | XMLNode.Element name _ attributes _ children =>
    Content.Element (name.text buf)
      (attributes.map (fun a => (a.name.text buf, a.value.text buf)))
      (XMLNode.contentList buf children)

/-- The content of a child list. -/
def XMLNode.contentList (buf : List Char) : List XMLNode → List Content
  | [] => []
  | n :: ns => XMLNode.content buf n :: XMLNode.contentList buf ns

end

/-- The content of a parsed document: that of its top-level nodes. -/
def Parsed.content (d : Parsed) : List Content :=
  XMLNode.contentList d.doc.charBuffer d.base.children

/-! ## The child list as pointers (tinyxml2.cpp lines 206-279)

Nodes live at addresses (`Nat`, zero is the null pointer); every field of
`XMLNode` is a map from the address of a node to the value of the field. -/

/-- The memory that holds the `XMLNode` objects, field by field.  `isText`
tells for which nodes `ToText()` is not null. -/
structure Heap where
  parent : Nat → Nat
  isTextParent : Nat → Bool
  firstChild : Nat → Nat
  lastChild : Nat → Nat
  prev : Nat → Nat
  next : Nat → Nat
  isText : Nat → Bool

namespace Heap

/-- The method `XMLNode::Unlink` called on the node at `this`. -/
def Unlink (h : Heap) (this child : Nat) : Heap :=
  let h := if child = h.firstChild this then
      { h with firstChild := Function.update h.firstChild this (h.next (h.firstChild this)) }
    else h
  let h := if child = h.lastChild this then
      { h with lastChild := Function.update h.lastChild this (h.prev (h.lastChild this)) }
    else h
  let h := if h.prev child ≠ 0 then
      { h with next := Function.update h.next (h.prev child) (h.next child) }
    else h
  let h := if h.next child ≠ 0 then
      { h with prev := Function.update h.prev (h.next child) (h.prev child) }
    else h
  { h with parent := Function.update h.parent child 0 }

/-- Modelled from the spec: `SetTextParent()` is in the header; it marks the
node as text-bearing. -/
def SetTextParent (h : Heap) (this : Nat) : Heap :=
  { h with isTextParent := Function.update h.isTextParent this true }

/-- The two branches of `XMLNode::InsertEndChild` (lines 257-274) called on
the node at `this`. -/
def InsertEndChild.link (h : Heap) (this addThis : Nat) : Heap :=
  if h.lastChild this ≠ 0 then
    let h := { h with next := Function.update h.next (h.lastChild this) addThis }
    let h := { h with prev := Function.update h.prev addThis (h.lastChild this) }
    let h := { h with lastChild := Function.update h.lastChild this addThis }
    let h := { h with parent := Function.update h.parent addThis this }
    { h with next := Function.update h.next addThis 0 }
  else
    let h := { h with lastChild := Function.update h.lastChild this addThis }
    let h := { h with firstChild := Function.update h.firstChild this (h.lastChild this) }
    let h := { h with parent := Function.update h.parent addThis this }
    let h := { h with prev := Function.update h.prev addThis 0 }
    { h with next := Function.update h.next addThis 0 }

/-- The method `XMLNode::InsertEndChild` called on the node at `this`. -/
def InsertEndChild (h : Heap) (this addThis : Nat) : Heap :=
  let h := InsertEndChild.link h this addThis
  if h.isText addThis then h.SetTextParent this else h

/-- A call on the node at `this`. -/
inductive Op where
  | InsertEndChild (addThis : Nat)
  | Unlink (child : Nat)
deriving DecidableEq, Repr

/-- One call under its precondition: `InsertEndChild` takes a node that has
no parent, `Unlink` a node whose parent is `this`; `none` otherwise. -/
def step (this : Nat) (h : Heap) : Op → Option Heap
  | Op.InsertEndChild addThis =>
    if addThis ≠ 0 ∧ h.parent addThis = 0 then some (h.InsertEndChild this addThis) else none
  | Op.Unlink child =>
    if child ≠ 0 ∧ h.parent child = this then some (h.Unlink this child) else none

/-- A sequence of calls, each under its precondition. -/
def run (this : Nat) : Heap → List Op → Option Heap
  | h, [] => some h
  | h, op :: ops =>
    match step this h op with
    | none => none
    | some h1 => run this h1 ops

/-- A stretch of the sibling list: `prev` of its first node is `p`, `next` of
its last node is `n`, and in between `next` and `prev` link neighbours. -/
def Linked (h : Heap) : Nat → List Nat → Nat → Prop
  | _, [], _ => True
  | p, a :: rest, n => h.prev a = p ∧ h.next a = rest.headD n ∧ Linked h a rest n

/-- The child list of the node at `this` is the list `l` of addresses: no
address is null or repeated, `firstChild` and `lastChild` are its two ends
(null when it is empty), `next` and `prev` link it from null to null, and
its nodes are exactly those whose parent is `this`. -/
def IsChildList (h : Heap) (this : Nat) (l : List Nat) : Prop :=
  l.Nodup ∧ (∀ a ∈ l, a ≠ 0) ∧
  h.firstChild this = l.headD 0 ∧ h.lastChild this = l.getLastD 0 ∧
  Linked h 0 l 0 ∧ (∀ a, a ≠ 0 → (h.parent a = this ↔ a ∈ l))

/-- The heap in which every field of every node is null. -/
def emptyHeap : Heap := ⟨fun _ => 0, fun _ => false, fun _ => 0, fun _ => 0, fun _ => 0,
  fun _ => 0, fun _ => false⟩

end Heap

/-! ## Source text of names, attributes and entities, for the statements -/

/-- The bytes `ParseName` steps over. -/
def nameChar (c : Char) : Bool :=
  c ≠ NUL && (IsAlphaNum c || c = '_' || c = '-' || c = '.' || c = ':')

/-- The names `ParseName` reads whole: a first byte accepted by `IsAlpha`
and only bytes the loop of `ParseName` steps over.  These are the valid
names of the spec (`isValidName`) that do not start with `_`. -/
def isName : List Char → Bool
  | [] => false
  | c :: cs => IsAlpha c && (c :: cs).all nameChar

/-- The source text of one attribute: `name=QvalueQ` and the white space
behind it. -/
structure AttrSrc where
  name : List Char
  quote : Char
  value : List Char
  ws : List Char
deriving DecidableEq, Repr

/-- The bytes of an attribute in the start tag. -/
def AttrSrc.text (a : AttrSrc) : List Char :=
  a.name ++ '=' :: a.quote :: a.value ++ a.quote :: a.ws

/-- The attribute is written as the claim asks: the name starts with a
letter and holds no `=`, the quote is `"` or `'`, the value is not empty and
holds no quote, the rest is white space, and no byte is the null byte. -/
def AttrSrc.ok (a : AttrSrc) : Bool :=
  (match a.name with
    | [] => false
    | c :: _ => IsAlpha c) &&
  a.name.all (fun c => c ≠ NUL && c ≠ '=') &&
  (a.quote = DOUBLE_QUOTE || a.quote = SINGLE_QUOTE) &&
  !a.value.isEmpty && a.value.all (fun c => c ≠ NUL && c ≠ a.quote) &&
  a.ws.all isspace

/-- The attribute object `XMLAttribute::ParseDeep` builds from the source
text at offset `p`: the name up to `=`, the value between the quotes. -/
def AttrSrc.parsed (p : Nat) (a : AttrSrc) : XMLAttribute :=
  ⟨StrPair.Set p (p + a.name.length) ATTRIBUTE_NAME,
   StrPair.Set (p + a.name.length + 2) (p + a.name.length + 2 + a.value.length) ATTRIBUTE_VALUE⟩

/-- The attribute objects for a run of attributes that starts at `p`. -/
def AttrSrc.parsedList : Nat → List AttrSrc → List XMLAttribute
  | _, [] => []
  | p, a :: as => a.parsed p :: AttrSrc.parsedList (p + a.text.length) as

/-- The bytes of a run of attributes. -/
def AttrSrc.textList : List AttrSrc → List Char
  | [] => []
  | a :: as => a.text ++ AttrSrc.textList as

/-- A valid element name as the spec has it (4.2): the first byte alphabetic
or `_`, the bytes behind it alphanumeric, `_`, `-`, `.` or `:`. -/
def isValidName : List Char → Bool
  | [] => false
  | c :: cs => (c.isAlpha || c = '_') &&
      cs.all (fun x => x.isAlphanum || x = '_' || x = '-' || x = '.' || x = ':')

/-- The entity table as the spec lists it (2, 3): the spelling between `&`
and `;`, and the character. -/
def entityRef : List (List Char × Char) :=
  [("quot".toList, '"'), ("amp".toList, '&'), ("apos".toList, '\''), ("lt".toList, '<'),
   ("gt".toList, '>')]

/-- The decoding the spec asks of an attribute value or a text (4.1), byte by
byte from the left: a line end (CR LF, LF CR, a lone CR or a lone LF) becomes
one LF; `&name;` with a name of the table becomes its character; any other
byte, also an `&` that starts no entity, stays.  The first argument counts
bytes that the step before has used up. -/
def decodeRef.go : Nat → List Char → List Char
  | _, [] => []
  | skip + 1, _ :: cs => decodeRef.go skip cs
  | 0, c :: cs =>
    if c = CR then LF :: decodeRef.go (if cs.head? = some LF then 1 else 0) cs
    else if c = LF then LF :: decodeRef.go (if cs.head? = some CR then 1 else 0) cs
    else if c = '&' then
      match entityRef.find? (fun e => cs.take (e.1.length + 1) == e.1 ++ [';']) with
      | some e => e.2 :: decodeRef.go (e.1.length + 1) cs
      | none => '&' :: decodeRef.go 0 cs
    else c :: decodeRef.go 0 cs

/-- The decoded value of the spec for the written bytes `v`. -/
def decodeRef (v : List Char) : List Char := decodeRef.go 0 v

/-- The entity spelling the spec gives for a reserved character, the
character itself for any other. -/
def escapeChar (c : Char) : List Char :=
  if c = '"' then "&quot;".toList
  else if c = '&' then "&amp;".toList
  else if c = '\'' then "&apos;".toList
  else if c = '<' then "&lt;".toList
  else if c = '>' then "&gt;".toList
  else [c]

/-- The reference encoder: every byte in order, the reserved ones as their
entity spelling. -/
def escapeRef : List Char → List Char
  | [] => []
  | c :: cs => escapeChar c ++ escapeRef cs

/-- The five reserved characters. -/
def isReserved (c : Char) : Bool :=
  c = '"' || c = '&' || c = '\'' || c = '<' || c = '>'

/-- The heap in which every field of every node is null and the node at `t`,
and no other, is a Text node. -/
def Heap.withText (t : Nat) : Heap := { Heap.emptyHeap with isText := fun a => decide (a = t) }

/-- Whether the bytes hold the comment terminator `-->`. -/
def hasCommentEnd : List Char → Bool
  | [] => false
  | c :: cs => (c :: cs).take 3 == ['-', '-', '>'] || hasCommentEnd cs

/-- The attributes `XMLAttribute::ParseDeep` reads whole: as `AttrSrc.ok`
asks, but the delimiter `Q` is any byte other than the null byte (the code
takes whatever byte follows `=`). -/
def AttrSrc.accepted (a : AttrSrc) : Bool :=
  (match a.name with
    | [] => false
    | c :: _ => IsAlpha c) &&
  a.name.all (fun c => c ≠ NUL && c ≠ '=') &&
  a.quote ≠ NUL &&
  !a.value.isEmpty && a.value.all (fun c => c ≠ NUL && c ≠ a.quote) &&
  a.ws.all isspace

/-- The attribute is written with an empty value: `name=QQ` with nothing
between the two delimiters, `Q` any byte other than the null byte; the name
starts with a letter and holds no `=`, white space follows. -/
def AttrSrc.emptyValue (a : AttrSrc) : Bool :=
  (match a.name with
    | [] => false
    | c :: _ => IsAlpha c) &&
  a.name.all (fun c => c ≠ NUL && c ≠ '=') &&
  a.quote ≠ NUL &&
  a.value.isEmpty && a.ws.all isspace

mutual

/-- The positions at which the child loop of `XMLNode::ParseDeep`, and the
loops of the nested calls, take a turn (the pointer `p` handed to
`Identify`), in order.  The branches are those of `XMLNode.ParseDeep`; with
the fuel used up the list ends. -/
def XMLNode.ParseDeep.turns : Nat → XMLDocument → NodeBase → Option Nat → List Nat
  | 0, _, _, _ => []
  | _ + 1, _, _, none => []
  | fuel + 1, doc, self, some p =>
    if peek doc.charBuffer p = NUL then []
    else
      p ::
        (match Identify doc.charBuffer p with
        | (some p1, some (XMLNode.Comment value)) =>
          let r := XMLComment.ParseDeep doc.charBuffer value p1
          XMLNode.ParseDeep.turns fuel doc (self.InsertEndChild (XMLNode.Comment r.1)) r.2
        | (some p1, some (XMLNode.Text value)) =>
          let r := XMLText.ParseDeep doc.charBuffer value p1
          XMLNode.ParseDeep.turns fuel doc (self.InsertEndChild (XMLNode.Text r.1)) r.2
        | (some p1, some (XMLNode.Element name closing attributes isTextParent children)) =>
          XMLElement.ParseDeep.turns fuel doc
              ⟨name, closing, attributes, ⟨isTextParent, children⟩⟩ p1 ++
            (match XMLElement.ParseDeep fuel doc
                ⟨name, closing, attributes, ⟨isTextParent, children⟩⟩ p1 with
            | none => []
            | some (doc1, node, p2) =>
              if node.toNode.IsClosingElement then []
              else XMLNode.ParseDeep.turns fuel doc1 (self.InsertEndChild node.toNode) p2)
        | (p1, none) => XMLNode.ParseDeep.turns fuel doc self p1
        | (none, some _) => [])

/-- The turns of the child loops inside a call of `XMLElement::ParseDeep`;
the branches are those of `XMLElement.ParseDeep`. -/
def XMLElement.ParseDeep.turns : Nat → XMLDocument → XMLElement → Nat → List Nat
  | 0, _, _, _ => []
  | fuel + 1, doc, self, p =>
    let p := SkipWhiteSpace doc.charBuffer p
    let self := if peek doc.charBuffer p = '/' then { self with closing := true } else self
    let p := if peek doc.charBuffer p = '/' then p + 1 else p
    let r := ParseName doc.charBuffer p self.name
    let self := { self with name := r.1 }
    if self.name.Empty then []
    else
      match XMLElement.ParseAttributes fuel doc self r.2 with
      | none => []
      | some (_, _, _, none) => []
      | some (doc1, self1, elementClosed, some p1) =>
        if peek doc1.charBuffer p1 = NUL || elementClosed || self1.closing then []
        else XMLNode.ParseDeep.turns fuel doc1 self1.base (some p1)

end

/-- The turns of the child loops while `Parse` runs on a string that is not
empty. -/
def XMLDocument.Parse.turns (fuel : Nat) (s : List Char) : List Nat :=
  XMLNode.ParseDeep.turns fuel ⟨cstrOf s ++ [NUL], NO_ERROR, none, none, 0⟩ ⟨false, []⟩ (some 0)

/-- The cursors of the `while( p < end )` loop of `GetStr` (lines 44-90): the
pair `(p, q)` of the read and the write cursor at the head of every turn and
at the exit of the loop, in order.  The branches are those of
`StrPair.GetStr.loop`. -/
def StrPair.GetStr.cursors (flags : StrFlags) (stop : Nat) :
    Nat → Nat → Nat → List Char → List (Nat × Nat)
  | 0, p, q, _ => [(p, q)]
  | fuel + 1, p, q, buf =>
    if p < stop then
      (p, q) ::
        (if flags.NEEDS_NEWLINE_NORMALIZATION && peek buf p == CR then
          if peek buf (p + 1) == LF then
            StrPair.GetStr.cursors flags stop fuel (p + 2) q (buf.set q LF)
          else
            StrPair.GetStr.cursors flags stop fuel (p + 1) q (buf.set q LF)
        else if flags.NEEDS_NEWLINE_NORMALIZATION && peek buf p == LF then
          if peek buf (p + 1) == CR then
            StrPair.GetStr.cursors flags stop fuel (p + 2) q (buf.set q LF)
          else
            StrPair.GetStr.cursors flags stop fuel (p + 1) q (buf.set q LF)
        else if flags.NEEDS_ENTITY_PROCESSING && peek buf p == '&' then
          match StrPair.findEntity buf p with
          | some e =>
            StrPair.GetStr.cursors flags stop fuel (p + e.length + 2) (q + 1) (buf.set q e.value)
          | none => StrPair.GetStr.cursors flags stop fuel (p + 1) (q + 1) buf
        else
          StrPair.GetStr.cursors flags stop fuel (p + 1) (q + 1) (buf.set q (peek buf p)))
    else [(p, q)]

/-! # Theorems -/

/-! ## Fuel -/

/-- More fuel does not change a result of the attribute loop. -/
theorem ParseAttributes_loop_mono (start : Nat) :
    ∀ (fuel : Nat) (doc : XMLDocument) (self : XMLElement) (p : Nat) r,
      XMLElement.ParseAttributes.loop start fuel doc self p = some r →
      XMLElement.ParseAttributes.loop start (fuel + 1) doc self p = some r := by
  intro fuel
  induction fuel with
  | zero => intro doc self p r h; simp [XMLElement.ParseAttributes.loop] at h
  | succ n ih =>
    intro doc self p r h
    rw [XMLElement.ParseAttributes.loop] at h
    rw [XMLElement.ParseAttributes.loop]
    dsimp only at h ⊢
    split
    · rw [if_pos (by assumption)] at h; exact h
    · rw [if_neg (by assumption)] at h
      split
      · rw [if_pos (by assumption)] at h
        split
        · rename_i heq; rw [heq] at h; exact h
        · rename_i heq; rw [heq] at h; exact ih _ _ _ _ h
      · rw [if_neg (by assumption)] at h; exact h

/-- More fuel does not change a result of `ParseAttributes`. -/
theorem ParseAttributes_mono (fuel : Nat) (doc : XMLDocument) (self : XMLElement) (p : Option Nat) r
    (h : XMLElement.ParseAttributes fuel doc self p = some r) :
    XMLElement.ParseAttributes (fuel + 1) doc self p = some r := by
  cases p with
  | none => exact h
  | some p => exact ParseAttributes_loop_mono _ _ _ _ _ _ h

/-- More fuel does not change a result of the two `ParseDeep` methods. -/
theorem ParseDeep_mono_aux : ∀ (fuel : Nat),
    (∀ doc self p r, XMLNode.ParseDeep fuel doc self p = some r →
      XMLNode.ParseDeep (fuel + 1) doc self p = some r) ∧
    (∀ doc self p r, XMLElement.ParseDeep fuel doc self p = some r →
      XMLElement.ParseDeep (fuel + 1) doc self p = some r) := by
  intro fuel
  induction fuel with
  | zero =>
    constructor
    · intro doc self p r h; simp [XMLNode.ParseDeep] at h
    · intro doc self p r h; simp [XMLElement.ParseDeep] at h
  | succ n ih =>
    obtain ⟨ihN, ihE⟩ := ih
    constructor
    · intro doc self p r h
      cases p with
      | none => simpa [XMLNode.ParseDeep] using h
      | some p =>
        rw [XMLNode.ParseDeep] at h
        rw [XMLNode.ParseDeep]
        dsimp only at h ⊢
        by_cases hc : peek doc.charBuffer p = NUL
        · rw [if_pos hc] at h ⊢; exact h
        · rw [if_neg hc] at h ⊢
          split at h
          · exact ihN _ _ _ _ h
          · exact ihN _ _ _ _ h
          · split at h
            · simp at h
            · rename_i heq2
              rw [ihE _ _ _ _ heq2]
              dsimp only
              rename_i node _
              by_cases hc2 : node.toNode.IsClosingElement = true
              · rw [if_pos hc2] at h ⊢; exact h
              · rw [if_neg hc2] at h ⊢; exact ihN _ _ _ _ h
          · exact ihN _ _ _ _ h
          · exact ihN _ _ _ _ h
    · intro doc self p r h
      rw [XMLElement.ParseDeep] at h
      rw [XMLElement.ParseDeep]
      dsimp only at h ⊢
      generalize (if peek doc.charBuffer (SkipWhiteSpace doc.charBuffer p) = '/' then
        ({ self with closing := true } : XMLElement) else self) = self0 at h ⊢
      generalize (if peek doc.charBuffer (SkipWhiteSpace doc.charBuffer p) = '/' then
        SkipWhiteSpace doc.charBuffer p + 1 else SkipWhiteSpace doc.charBuffer p) = p0 at h ⊢
      split at h
      · rename_i hc; rw [if_pos hc]; exact h
      · rename_i hc; rw [if_neg hc]
        split at h
        · simp at h
        · rename_i heq; rw [ParseAttributes_mono _ _ _ _ _ heq]; exact h
        · rename_i heq; rw [ParseAttributes_mono _ _ _ _ _ heq]
          dsimp only at h ⊢
          split at h
          · rename_i hc2; rw [if_pos hc2]; exact h
          · rename_i hc2; rw [if_neg hc2]
            split at h
            · simp at h
            · rename_i heq2; rw [ihN _ _ _ _ heq2]; exact h

/-- A result of `XMLNode::ParseDeep` stays the same with any larger fuel. -/
theorem XMLNode.ParseDeep_mono {fuel fuel1 : Nat} (hle : fuel ≤ fuel1) {doc self p r}
    (h : XMLNode.ParseDeep fuel doc self p = some r) :
    XMLNode.ParseDeep fuel1 doc self p = some r := by
  induction hle with
  | refl => exact h
  | step _ ih => exact (ParseDeep_mono_aux _).1 _ _ _ _ ih

/-- A result of `XMLDocument::Parse` stays the same with any larger fuel. -/
theorem XMLDocument.Parse_mono {fuel fuel1 : Nat} (hle : fuel ≤ fuel1) {p d}
    (h : XMLDocument.Parse fuel p = some d) : XMLDocument.Parse fuel1 p = some d := by
  unfold XMLDocument.Parse at h ⊢
  dsimp only at h ⊢
  cases p with
  | none => exact h
  | some s =>
    dsimp only at h ⊢
    split at h
    · rename_i hc; rw [if_pos hc]; exact h
    · rename_i hc; rw [if_neg hc]
      split at h
      · simp at h
      · rename_i heq
        rw [XMLNode.ParseDeep_mono hle heq]
        exact h

/-- Once `Parse` returns with some fuel, it returns the same with more. -/
theorem XMLDocument.Parse_of_le {fuel fuel1 : Nat} (hle : fuel ≤ fuel1) {p : Option (List Char)}
    (h : (XMLDocument.Parse fuel p).isSome = true) :
    XMLDocument.Parse fuel1 p = XMLDocument.Parse fuel p := by
  obtain ⟨d, hd⟩ := Option.isSome_iff_exists.1 h
  rw [hd]
  exact XMLDocument.Parse_mono hle hd

/-- The fuel of the rewrite loop is enough: every turn moves `p` forward, so
with `end - p` units or more the loop ends by its own test `p < end`, and
the result does not depend on the amount. -/
theorem GetStr_loop_fuel (fl : StrFlags) (stop : Nat) : ∀ (f1 f2 p q : Nat) (B : List Char),
    stop - p ≤ f1 → stop - p ≤ f2 →
    StrPair.GetStr.loop fl stop f1 p q B = StrPair.GetStr.loop fl stop f2 p q B
  | 0, 0, _, _, _, _, _ => rfl
  | 0, f2 + 1, p, q, B, h1, _ => by
    rw [StrPair.GetStr.loop, StrPair.GetStr.loop, if_neg (by omega)]
  | f1 + 1, 0, p, q, B, _, h2 => by
    rw [StrPair.GetStr.loop, StrPair.GetStr.loop, if_neg (by omega)]
  | f1 + 1, f2 + 1, p, q, B, h1, h2 => by
    rw [StrPair.GetStr.loop, StrPair.GetStr.loop]
    by_cases hp : p < stop
    · rw [if_pos hp, if_pos hp]
      have ih : ∀ (k : Nat) (q' : Nat) (B' : List Char), 1 ≤ k →
          StrPair.GetStr.loop fl stop f1 (p + k) q' B' =
            StrPair.GetStr.loop fl stop f2 (p + k) q' B' :=
        fun k q' B' hk => GetStr_loop_fuel fl stop f1 f2 (p + k) q' B' (by omega) (by omega)
      split
      · split
        · exact ih 2 _ _ (by omega)
        · exact ih 1 _ _ (by omega)
      · split
        · split
          · exact ih 2 _ _ (by omega)
          · exact ih 1 _ _ (by omega)
        · split
          · split
            · rename_i e _
              have := ih (e.length + 2) (q + 1) (B.set q e.value) (by omega)
              rw [← Nat.add_assoc] at this
              exact this
            · exact ih 1 _ _ (by omega)
          · exact ih 1 _ _ (by omega)
    · rw [if_neg hp, if_neg hp]

/-! ## Claims -/

/-- Claim C1, evaluated at a failing input: `<a>x<!--c--></a>` parses with
NoError into element `a` holding the text `x` and the comment `c`; the
streamer writes the comment behind four spaces inside the text-bearing
element, and parsing what was written, again with NoError, gives the text
`x    ` where the first tree has `x`. -/
theorem roundtrip_comment_after_text (fuel : Nat) (hf : 12 ≤ fuel) :
    (XMLDocument.Parse fuel (some "<a>x<!--c--></a>".toList)).map
        (fun d => (d.result, d.content)) =
      some (NO_ERROR, [Content.Element (some "a".toList) []
        [Content.Text (some "x".toList), Content.Comment (some "c".toList)]]) ∧
    ((XMLDocument.Parse fuel (some "<a>x<!--c--></a>".toList)).bind
        (fun d => XMLDocument.Print d XMLStreamer.init)).map (fun s => s.2.fp) =
      some "<a>x    <!--c-->\n</a>\n".toList ∧
    (XMLDocument.Parse fuel (some "<a>x    <!--c-->\n</a>\n".toList)).map
        (fun d => (d.result, d.content)) =
      some (NO_ERROR, [Content.Element (some "a".toList) []
        [Content.Text (some "x    ".toList), Content.Comment (some "c".toList)]]) := by
  rw [XMLDocument.Parse_of_le hf (by rfl), XMLDocument.Parse_of_le hf (by rfl)]
  exact ⟨by rfl, by rfl, by rfl⟩

/-- Claim C1, the evaluation above at fuel 12. -/
theorem roundtrip_comment_after_text_witness :
    12 ≤ 12 ∧
    (XMLDocument.Parse 12 (some "<a>x<!--c--></a>".toList)).map
        (fun d => (d.result, d.content)) =
      some (NO_ERROR, [Content.Element (some "a".toList) []
        [Content.Text (some "x".toList), Content.Comment (some "c".toList)]]) ∧
    ((XMLDocument.Parse 12 (some "<a>x<!--c--></a>".toList)).bind
        (fun d => XMLDocument.Print d XMLStreamer.init)).map (fun s => s.2.fp) =
      some "<a>x    <!--c-->\n</a>\n".toList ∧
    (XMLDocument.Parse 12 (some "<a>x    <!--c-->\n</a>\n".toList)).map
        (fun d => (d.result, d.content)) =
      some (NO_ERROR, [Content.Element (some "a".toList) []
        [Content.Text (some "x    ".toList), Content.Comment (some "c".toList)]]) :=
  ⟨by decide, roundtrip_comment_after_text 12 (by decide)⟩

/-- Claim C2, evaluated at the failing input of the spec: with newline
normalization enabled (alone, or together with entity decoding as in a text
node) the span `a\r\nb\rc\n\rd` reads as `abcd`: every line ending is
dropped, none is turned into a line feed. -/
theorem newline_normalization_drops_line_ends :
    StrPair.text "a\r\nb\rc\n\rd<".toList (StrPair.Set 0 9 ⟨false, true, false⟩) =
      some "abcd".toList ∧
    StrPair.text "a\r\nb\rc\n\rd<".toList (StrPair.Set 0 9 TEXT_ELEMENT) =
      some "abcd".toList ∧
    "abcd".toList ≠ "a\nb\nc\nd".toList := by
  decide

/-- Claim C3, evaluated at the failing input of the claim: with entity
decoding enabled the span `&amp;&foo;` reads as `&afoo;`, the second `&` is
not copied and the stale byte `a` is left in its place. -/
theorem entity_decoding_loses_unmatched_ampersand :
    StrPair.text "&amp;&foo;<".toList (StrPair.Set 0 10 ⟨false, false, true⟩) =
      some "&afoo;".toList ∧
    "&afoo;".toList ≠ "&&foo;".toList := by
  decide

/-- Claim C5, evaluated at the failing input of the claim: open `a`, open
`b`, text `x`, close, close writes `</b>` for both closes. -/
theorem close_element_repeats_inner_name :
    (((XMLStreamer.init.OpenElement "a".toList false).OpenElement "b".toList true).PushText
        "x".toList).map (fun s => s.CloseElement.CloseElement.fp) =
      some "<a>\n    <b>x</b>\n</b>\n".toList ∧
    (((XMLStreamer.init.OpenElement "a".toList false).OpenElement "b".toList true).PushText
        "x".toList).map (fun s => s.CloseElement.stack.Pop.2) = some "b".toList := by
  decide

/-- Claim C7, evaluated at the failing input of the claim: parsing `<1>`
returns NoError, `SetError` is never called, and an element without a name
is left in the tree; parsing `</1>` returns NoError as well. -/
theorem missing_name_is_not_reported (fuel : Nat) (hf : 3 ≤ fuel) :
    (XMLDocument.Parse fuel (some "<1>".toList)).map
        (fun d => (d.result, d.doc.errorID, d.doc.setErrorCalls, d.content)) =
      some (NO_ERROR, NO_ERROR, 0, [Content.Element none [] []]) ∧
    (XMLDocument.Parse fuel (some "</1>".toList)).map
        (fun d => (d.result, d.doc.errorID, d.doc.setErrorCalls, d.content)) =
      some (NO_ERROR, NO_ERROR, 0, []) := by
  rw [XMLDocument.Parse_of_le hf (by rfl), XMLDocument.Parse_of_le hf (by rfl)]
  exact ⟨by rfl, by rfl⟩

/-- Claim C7, the evaluation above at fuel 3. -/
theorem missing_name_is_not_reported_witness :
    3 ≤ 3 ∧
    (XMLDocument.Parse 3 (some "<1>".toList)).map
        (fun d => (d.result, d.doc.errorID, d.doc.setErrorCalls, d.content)) =
      some (NO_ERROR, NO_ERROR, 0, [Content.Element none [] []]) ∧
    (XMLDocument.Parse 3 (some "</1>".toList)).map
        (fun d => (d.result, d.doc.errorID, d.doc.setErrorCalls, d.content)) =
      some (NO_ERROR, NO_ERROR, 0, []) :=
  ⟨by decide, missing_name_is_not_reported 3 (by decide)⟩

/-- Claim C8 as stated fails: the error code that parsing `<a b=></a>`
leaves in the document is not ErrorParsingAttribute. -/
theorem malformed_attribute_not_attribute_error :
    ¬ ((XMLDocument.Parse 12 (some "<a b=></a>".toList)).map (fun d => d.doc.errorID) =
      some ERROR_PARSING_ATTRIBUTE) := by
  decide

/-- Claim C8, amended: parsing `<a b=></a>` fails with ErrorParsingElement
after one call of `SetError`: the `>` behind `=` is taken as the delimiter,
attribute `b` gets the value `</a`, and the tag then runs out of input. -/
theorem malformed_attribute_is_element_error (fuel : Nat) (hf : 12 ≤ fuel) :
    (XMLDocument.Parse fuel (some "<a b=></a>".toList)).map
        (fun d => (d.result, d.doc.errorID, d.doc.setErrorCalls, d.content)) =
      some (ERROR_PARSING_ELEMENT, ERROR_PARSING_ELEMENT, 1,
        [Content.Element (some "a".toList) [(some "b".toList, some "</a".toList)] []]) ∧
    ERROR_PARSING_ELEMENT ≠ NO_ERROR := by
  rw [XMLDocument.Parse_of_le hf (by rfl)]
  exact ⟨by rfl, by decide⟩

/-- Claim C8, the amended statement at fuel 12. -/
theorem malformed_attribute_is_element_error_witness :
    12 ≤ 12 ∧
    (XMLDocument.Parse 12 (some "<a b=></a>".toList)).map
        (fun d => (d.result, d.doc.errorID, d.doc.setErrorCalls, d.content)) =
      some (ERROR_PARSING_ELEMENT, ERROR_PARSING_ELEMENT, 1,
        [Content.Element (some "a".toList) [(some "b".toList, some "</a".toList)] []]) ∧
    ERROR_PARSING_ELEMENT ≠ NO_ERROR :=
  ⟨by decide, malformed_attribute_is_element_error 12 (by decide)⟩

/-! ## The child list (claim C6) -/

namespace Heap

/-- The head of an append. -/
theorem headD_append (A B : List Nat) (n : Nat) : (A ++ B).headD n = A.headD (B.headD n) := by
  cases A <;> rfl

/-- A linked stretch splits where the list splits. -/
theorem Linked_append (h : Heap) (A B : List Nat) (p n : Nat) :
    Linked h p (A ++ B) n ↔ Linked h p A (B.headD n) ∧ Linked h (A.getLastD p) B n := by
  induction A generalizing p with
  | nil => simp [Linked]
  | cons a A ih =>
    have e : (a :: A ++ B) = a :: (A ++ B) := rfl
    rw [e]
    simp only [Linked, ih a, headD_append, List.getLastD_cons]
    tauto

/-- A stretch stays linked when the heap changes outside of it. -/
theorem Linked_frame {h h' : Heap} : ∀ (l : List Nat) (p n : Nat),
    Linked h p l n → (∀ a ∈ l, h'.prev a = h.prev a) → (∀ a ∈ l, h'.next a = h.next a) →
    Linked h' p l n
  | [], _, _, _, _, _ => trivial
  | a :: rest, p, n, hl, hp, hn => by
    obtain ⟨h1, h2, h3⟩ := hl
    refine ⟨?_, ?_, ?_⟩
    · rw [hp a (List.mem_cons_self _ _)]; exact h1
    · rw [hn a (List.mem_cons_self _ _)]; exact h2
    · exact Linked_frame rest a n h3 (fun b hb => hp b (List.mem_cons_of_mem _ hb))
        (fun b hb => hn b (List.mem_cons_of_mem _ hb))

/-- Redirecting `next` of the last node of a stretch. -/
theorem Linked_set_last {h h' : Heap} (z n' : Nat) : ∀ (l : List Nat) (p n : Nat),
    Linked h p l n → l.Nodup → l.getLast? = some z →
    (∀ a ∈ l, h'.prev a = h.prev a) → (∀ a ∈ l, a ≠ z → h'.next a = h.next a) →
    h'.next z = n' → Linked h' p l n'
  | [], _, _, _, _, hz, _, _, _ => by simp at hz
  | [a], p, n, hl, _, hz, hp, _, hz' => by
    simp at hz
    subst hz
    exact ⟨by rw [hp a (List.mem_cons_self _ _)]; exact hl.1, hz', trivial⟩
  | a :: b :: rest, p, n, hl, hnd, hz, hp, hn, hz' => by
    obtain ⟨h1, h2, h3⟩ := hl
    have hz2 : (b :: rest).getLast? = some z := by simpa [List.getLast?_cons_cons] using hz
    have hzmem : z ∈ b :: rest := List.mem_of_getLast?_eq_some hz2
    have haz : a ≠ z := by
      rintro rfl
      exact (List.nodup_cons.1 hnd).1 hzmem
    refine ⟨?_, ?_, ?_⟩
    · rw [hp a (List.mem_cons_self _ _)]; exact h1
    · rw [hn a (List.mem_cons_self _ _) haz]; exact h2
    · exact Linked_set_last z n' (b :: rest) a n h3 (List.nodup_cons.1 hnd).2 hz2
        (fun c hc => hp c (List.mem_cons_of_mem _ hc))
        (fun c hc => hn c (List.mem_cons_of_mem _ hc)) hz'

/-- The link fields of `InsertEndChild` do not depend on the final
`SetTextParent`. -/
theorem IsChildList_SetTextParent_iff (h : Heap) (this x : Nat) (l : List Nat) :
    IsChildList (h.SetTextParent x) this l ↔ IsChildList h this l := by
  have hL : ∀ (l : List Nat) (p n : Nat), Linked (h.SetTextParent x) p l n ↔ Linked h p l n := by
    intro l
    induction l with
    | nil => intro p n; simp [Linked]
    | cons a rest ih => intro p n; simp only [Linked, ih]; rfl
  simp only [IsChildList, hL]
  rfl

/-- The method `InsertEndChild` appends the node to the child list. -/
theorem IsChildList_InsertEndChild {h : Heap} {this : Nat} {l : List Nat}
    (hl : IsChildList h this l) (hthis : this ≠ 0) {a : Nat} (ha : a ≠ 0)
    (hp : h.parent a = 0) : IsChildList (h.InsertEndChild this a) this (l ++ [a]) := by
  obtain ⟨hnd, hnz, hfirst, hlast, hlink, hpar⟩ := hl
  have hanot : a ∉ l := by
    intro hmem
    have := (hpar a ha).2 hmem
    rw [hp] at this
    exact hthis this.symm
  have key : IsChildList (InsertEndChild.link h this a) this (l ++ [a]) := by
    unfold InsertEndChild.link
    rcases List.eq_nil_or_concat l with rfl | ⟨A, z, hAz⟩
    all_goals try (rw [List.concat_eq_append] at hAz; subst hAz)
    · -- the list was empty
      have hlast0 : h.lastChild this = 0 := by simpa using hlast
      rw [if_neg (by simp [hlast0])]
      refine ⟨by simp, by simpa using ha, by simp, by simp, by simp [Linked], ?_⟩
      intro b hb
      by_cases hba : b = a
      · subst hba; simp
      · simp [Function.update_noteq hba, hba]
        exact fun hpb => by simpa using (hpar b hb).1 hpb
    · -- the list ends in `z`
      have hz0 : z ≠ 0 := hnz z (by simp)
      have hlastz : h.lastChild this = z := by simpa using hlast
      have haz : a ≠ z := fun e => hanot (by simp [e])
      rw [if_pos (by simp [hlastz, hz0])]
      refine ⟨?_, ?_, ?_, ?_, ?_, ?_⟩
      · exact List.Nodup.append hnd (List.nodup_singleton a)
          (by simpa [List.disjoint_singleton] using hanot)
      · intro b hb
        rcases List.mem_append.1 hb with hb | hb
        · exact hnz b hb
        · simpa [List.mem_singleton.1 hb] using ha
      · dsimp only
        rw [hfirst]
        simp [headD_append]
      · simp
      · rw [Linked_append]
        constructor
        · refine Linked_set_last z a (A ++ [z]) 0 0 hlink hnd (by simp) ?_ ?_ ?_
          · intro b hb
            have hba : b ≠ a := fun e => hanot (e ▸ hb)
            simp [Function.update_noteq hba]
          · intro b hb hbz
            have hba : b ≠ a := fun e => hanot (e ▸ hb)
            simp [Function.update_noteq hba, hlastz, Function.update_noteq hbz]
          · simp [hlastz, Function.update_noteq haz.symm]
        · simp [Linked, hlastz]
      · intro b hb
        by_cases hba : b = a
        · subst hba; simp
        · simp [Function.update_noteq hba, hba]
          simpa using hpar b hb
  unfold InsertEndChild
  dsimp only
  split
  · rw [IsChildList_SetTextParent_iff]; exact key
  · exact key

/-- The field `firstChild` after `Unlink`. -/
theorem Unlink_firstChild (h : Heap) (this c : Nat) :
    (h.Unlink this c).firstChild =
      if c = h.firstChild this then
        Function.update h.firstChild this (h.next (h.firstChild this))
      else h.firstChild := by
  unfold Unlink; dsimp only; split_ifs <;> rfl

/-- The field `lastChild` after `Unlink`. -/
theorem Unlink_lastChild (h : Heap) (this c : Nat) :
    (h.Unlink this c).lastChild =
      if c = h.lastChild this then
        Function.update h.lastChild this (h.prev (h.lastChild this))
      else h.lastChild := by
  unfold Unlink; dsimp only; split_ifs <;> rfl

/-- The field `next` after `Unlink`. -/
theorem Unlink_next (h : Heap) (this c : Nat) :
    (h.Unlink this c).next =
      if h.prev c ≠ 0 then Function.update h.next (h.prev c) (h.next c) else h.next := by
  unfold Unlink; dsimp only; split_ifs <;> rfl

/-- The field `prev` after `Unlink`. -/
theorem Unlink_prev (h : Heap) (this c : Nat) :
    (h.Unlink this c).prev =
      if h.next c ≠ 0 then Function.update h.prev (h.next c) (h.prev c) else h.prev := by
  have e : ∀ x, Function.update h.next x (h.next c) c = h.next c := by
    intro x
    by_cases hx : c = x
    · subst hx; simp
    · simp [Function.update_noteq hx]
  unfold Unlink; dsimp only; split_ifs <;> simp_all

/-- The field `parent` after `Unlink`. -/
theorem Unlink_parent (h : Heap) (this c : Nat) :
    (h.Unlink this c).parent = Function.update h.parent c 0 := by
  unfold Unlink; dsimp only; split_ifs <;> rfl

/-- A last element that is not the default is in the list. -/
theorem getLastD_mem_of_ne {A : List Nat} {d : Nat} (hne : A.getLastD d ≠ d) :
    A.getLastD d ∈ A := by
  rcases List.eq_nil_or_concat A with rfl | ⟨A', y, rfl⟩
  · simp at hne
  · simp

/-- A head that is not the default is in the list. -/
theorem headD_mem_of_ne {B : List Nat} {d : Nat} (hne : B.headD d ≠ d) : B.headD d ∈ B := by
  cases B with
  | nil => simp at hne
  | cons b B' => simp

/-- The method `Unlink` takes the node out of the child list. -/
theorem IsChildList_Unlink {h : Heap} {this : Nat} (hthis : this ≠ 0) {A B : List Nat} {c : Nat}
    (hl : IsChildList h this (A ++ c :: B)) :
    IsChildList (h.Unlink this c) this (A ++ B) := by
  obtain ⟨hnd, hnz, hfirst, hlast, hlink, hpar⟩ := hl
  have hc0 : c ≠ 0 := hnz c (by simp)
  have hndA : A.Nodup := (List.nodup_append.1 hnd).1
  have hndcB : (c :: B).Nodup := (List.nodup_append.1 hnd).2.1
  have hcB : c ∉ B := (List.nodup_cons.1 hndcB).1
  have hndB : B.Nodup := (List.nodup_cons.1 hndcB).2
  have hdisj : ∀ x, x ∈ A → x ∈ c :: B → False := fun x hx hx' =>
    (List.nodup_append.1 hnd).2.2 hx hx'
  have hcA : c ∉ A := fun hx => hdisj c hx (by simp)
  rw [Linked_append] at hlink
  obtain ⟨hlA, hpc, hnc, hlB⟩ := hlink
  simp only [List.headD_cons] at hlA
  have hfirst' : h.firstChild this = A.headD c := by rw [hfirst, headD_append]; rfl
  have hlast' : h.lastChild this = B.getLastD c := by
    rw [hlast, List.getLastD_eq_getLast?, List.getLast?_append]
    simp [List.getLastD_eq_getLast?, List.getLast?_cons]
  have hnext' : ∀ x, x ∉ A → (h.Unlink this c).next x = h.next x := by
    intro x hx
    rw [Unlink_next]
    split_ifs with hz
    · rw [hpc] at hz ⊢
      have hmem := getLastD_mem_of_ne hz
      have hxe : x ≠ A.getLastD 0 := fun e => hx (by rw [e]; exact hmem)
      exact Function.update_noteq hxe _ _
    · rfl
  have hprev' : ∀ x, x ∉ B → (h.Unlink this c).prev x = h.prev x := by
    intro x hx
    rw [Unlink_prev]
    split_ifs with hz
    · rw [hnc] at hz ⊢
      have hmem := headD_mem_of_ne hz
      have hxe : x ≠ B.headD 0 := fun e => hx (by rw [e]; exact hmem)
      exact Function.update_noteq hxe _ _
    · rfl
  refine ⟨?_, ?_, ?_, ?_, ?_, ?_⟩
  · exact List.Nodup.append hndA hndB (fun x hx hx' => hdisj x hx (List.mem_cons_of_mem _ hx'))
  · intro x hx
    rcases List.mem_append.1 hx with hx | hx
    · exact hnz x (by simp [hx])
    · exact hnz x (by simp [hx])
  · rw [Unlink_firstChild, hfirst']
    cases A with
    | nil => simp [hnc]
    | cons a A' =>
      have hca : c ≠ a := fun e => hcA (by simp [e])
      simp [hca, hfirst']
  · rw [Unlink_lastChild, hlast']
    rcases List.eq_nil_or_concat B with rfl | ⟨B', z, hB⟩
    · simp [hpc]
    · rw [List.concat_eq_append] at hB
      subst hB
      have hcz : c ≠ z := fun e => hcB (by simp [e])
      simp [hcz, hlast']
  · rw [Linked_append]
    constructor
    · rcases List.eq_nil_or_concat A with rfl | ⟨A', y, hA⟩
      · trivial
      · rw [List.concat_eq_append] at hA
        subst hA
        have hpcy : h.prev c = y := by simpa using hpc
        have hy0 : y ≠ 0 := hnz y (by simp)
        refine Linked_set_last y (B.headD 0) (A' ++ [y]) 0 c hlA hndA (by simp) ?_ ?_ ?_
        · intro x hx
          exact hprev' x (fun hxB => hdisj x hx (List.mem_cons_of_mem _ hxB))
        · intro x _ hxy
          rw [Unlink_next, hpcy, if_pos hy0]
          exact Function.update_noteq hxy _ _
        · rw [Unlink_next, hpcy, if_pos hy0, hnc]
          simp
    · cases B with
      | nil => trivial
      | cons b B' =>
        have hncb : h.next c = b := by simpa using hnc
        have hb0 : b ≠ 0 := hnz b (by simp)
        have hbA : b ∉ A := fun hx => hdisj b hx (by simp)
        obtain ⟨_, hb2, hb3⟩ := hlB
        refine ⟨?_, ?_, ?_⟩
        · rw [Unlink_prev, hncb, if_pos hb0, hpc]
          simp
        · rw [hnext' b hbA]; exact hb2
        · refine Linked_frame B' b 0 hb3 ?_ ?_
          · intro x hx
            have hxb : x ≠ b := fun e => (List.nodup_cons.1 hndB).1 (e ▸ hx)
            rw [Unlink_prev, hncb, if_pos hb0]
            exact Function.update_noteq hxb _ _
          · intro x hx
            exact hnext' x (fun hxA => hdisj x hxA (by simp [hx]))
  · intro x hx
    rw [Unlink_parent]
    by_cases hxc : x = c
    · subst hxc
      simp [hcA, hcB]
      exact fun e => hthis e.symm
    · simp [Function.update_noteq hxc]
      have := hpar x hx
      simpa [hxc] using this

/-- What `Linked` says node by node: `next` of the node at index `i` is the
node at index `i+1` (`n` behind the last), `prev` is the node at index `i-1`
(`p` before the first). -/
theorem Linked_getD {h : Heap} : ∀ (l : List Nat) (p n : Nat), Linked h p l n →
    ∀ i, i < l.length →
      h.next (l.getD i 0) = (if i + 1 < l.length then l.getD (i + 1) 0 else n) ∧
      h.prev (l.getD i 0) = (if i = 0 then p else l.getD (i - 1) 0)
  | [], _, _, _, i, hi => by simp at hi
  | a :: rest, p, n, hl, i, hi => by
    obtain ⟨h1, h2, h3⟩ := hl
    cases i with
    | zero =>
      cases rest with
      | nil => simpa using ⟨h2, h1⟩
      | cons b r => simpa using ⟨h2, h1⟩
    | succ j =>
      have hj : j < rest.length := by simpa using hi
      have ih := Linked_getD rest a n h3 j hj
      constructor
      · simpa using ih.1
      · cases j with
        | zero => simpa using ih.2
        | succ k => simpa using ih.2

/-- Every sequence of calls under their preconditions keeps a child list. -/
theorem run_IsChildList {this : Nat} (hthis : this ≠ 0) : ∀ (ops : List Op) (h h' : Heap)
    (l : List Nat), IsChildList h this l → run this h ops = some h' →
    ∃ l', IsChildList h' this l'
  | [], h, h', l, hl, hrun => by
    simp only [run, Option.some.injEq] at hrun
    subst hrun
    exact ⟨l, hl⟩
  | op :: ops, h, h', l, hl, hrun => by
    simp only [run] at hrun
    cases op with
    | InsertEndChild a =>
      simp only [step] at hrun
      split_ifs at hrun with hc
      exact run_IsChildList hthis ops _ h' _ (IsChildList_InsertEndChild hl hthis hc.1 hc.2) hrun
    | Unlink c =>
      simp only [step] at hrun
      split_ifs at hrun with hc
      have hmem : c ∈ l := (hl.2.2.2.2.2 c hc.1).1 hc.2
      obtain ⟨A, B, rfl⟩ := List.append_of_mem hmem
      exact run_IsChildList hthis ops _ h' _ (IsChildList_Unlink hthis hl) hrun

/-- Claim C6: on a node `this` that starts without children (both ends
null, no node names it as parent), after every sequence of `InsertEndChild`
calls on nodes without a parent and `Unlink` calls on its own children,
`firstChild` is null exactly when `lastChild` is, and there is a list `l` of
distinct non-null nodes that starts at `firstChild`, ends at `lastChild`, is
linked by `next` from each node to the one behind it and to null at the end,
by `prev` the other way round, and holds exactly the nodes whose parent is
`this`. -/
theorem child_list_invariants (this : Nat) (hthis : this ≠ 0) (h0 : Heap)
    (hfirst : h0.firstChild this = 0) (hlast : h0.lastChild this = 0)
    (hnone : ∀ a, a ≠ 0 → h0.parent a ≠ this) (ops : List Op) (h : Heap)
    (hrun : run this h0 ops = some h) :
    (h.firstChild this = 0 ↔ h.lastChild this = 0) ∧
    ∃ l : List Nat, IsChildList h this l ∧
      (∀ i, i < l.length →
        h.next (l.getD i 0) = (if i + 1 < l.length then l.getD (i + 1) 0 else 0) ∧
        h.prev (l.getD i 0) = (if i = 0 then 0 else l.getD (i - 1) 0)) := by
  have h0l : IsChildList h0 this [] :=
    ⟨List.nodup_nil, by simp, by simpa using hfirst, by simpa using hlast, trivial,
      fun a ha => by simpa using hnone a ha⟩
  obtain ⟨l, hl⟩ := run_IsChildList hthis ops h0 h [] h0l hrun
  refine ⟨?_, l, hl, Linked_getD l 0 0 hl.2.2.2.2.1⟩
  obtain ⟨_, hnz, hf, hla, _, _⟩ := hl
  rw [hf, hla]
  rcases List.eq_nil_or_concat l with rfl | ⟨A, z, hA⟩
  · simp
  · rw [List.concat_eq_append] at hA
    subst hA
    have hz : z ≠ 0 := hnz z (by simp)
    have hhead : (A ++ [z]).headD 0 ≠ 0 := by
      cases A with
      | nil => simpa using hz
      | cons a A' => simpa using hnz a (by simp)
    have hlastz : (A ++ [z]).getLastD 0 ≠ 0 := by simpa using hz
    exact ⟨fun e => absurd e hhead, fun e => absurd e hlastz⟩

/-- Claim C6 at a concrete run: on node 1 insert 2, insert 3, unlink 2,
insert 2 again. -/
theorem child_list_invariants_witness :
    (1 : Nat) ≠ 0 ∧ emptyHeap.firstChild 1 = 0 ∧ emptyHeap.lastChild 1 = 0 ∧
    (∀ a, a ≠ 0 → emptyHeap.parent a ≠ 1) ∧
    run 1 emptyHeap [Op.InsertEndChild 2, Op.InsertEndChild 3, Op.Unlink 2, Op.InsertEndChild 2] =
      some ((((emptyHeap.InsertEndChild 1 2).InsertEndChild 1 3).Unlink 1 2).InsertEndChild 1 2) ∧
    (((((emptyHeap.InsertEndChild 1 2).InsertEndChild 1 3).Unlink 1 2).InsertEndChild 1 2).firstChild 1 = 0 ↔
      ((((emptyHeap.InsertEndChild 1 2).InsertEndChild 1 3).Unlink 1 2).InsertEndChild 1 2).lastChild 1 = 0) ∧
    ∃ l : List Nat,
      IsChildList ((((emptyHeap.InsertEndChild 1 2).InsertEndChild 1 3).Unlink 1 2).InsertEndChild 1 2) 1 l ∧
      (∀ i, i < l.length →
        ((((emptyHeap.InsertEndChild 1 2).InsertEndChild 1 3).Unlink 1 2).InsertEndChild 1 2).next (l.getD i 0) =
          (if i + 1 < l.length then l.getD (i + 1) 0 else 0) ∧
        ((((emptyHeap.InsertEndChild 1 2).InsertEndChild 1 3).Unlink 1 2).InsertEndChild 1 2).prev (l.getD i 0) =
          (if i = 0 then 0 else l.getD (i - 1) 0)) :=
  ⟨by decide, rfl, rfl, fun _ _ => Nat.zero_ne_one, rfl,
    child_list_invariants 1 (by decide) emptyHeap rfl rfl (fun _ _ => Nat.zero_ne_one)
      [Op.InsertEndChild 2, Op.InsertEndChild 3, Op.Unlink 2, Op.InsertEndChild 2] _ rfl⟩

end Heap

/-! ## Reading the buffer (claims C9 and C10) -/

theorem peek_eq_head (buf : List Char) (p : Nat) : peek buf p = (buf.drop p).headD NUL := by
  unfold peek
  rw [List.getD_eq_getElem?_getD, List.headD_eq_head?_getD, List.head?_drop]

theorem peek_of_drop {b : List Char} {p : Nat} {c : Char} {r : List Char}
    (h : b.drop p = c :: r) : peek b p = c := by
  rw [peek_eq_head, h]; rfl

theorem peek_of_drop_nil {buf : List Char} {p : Nat} (h : buf.drop p = []) : peek buf p = NUL := by
  rw [peek_eq_head, h]; rfl

theorem drop_add_of_drop {b : List Char} {p : Nat} (a : List Char) {r : List Char}
    (h : b.drop p = a ++ r) : b.drop (p + a.length) = r := by
  rw [← List.drop_drop, h, List.drop_left]

theorem drop_succ_of_drop {b : List Char} {p : Nat} {c : Char} {r : List Char}
    (h : b.drop p = c :: r) : b.drop (p + 1) = r :=
  drop_add_of_drop [c] h

theorem SkipWhiteSpace_loop_eq (ws : List Char) (hws : ∀ x ∈ ws, isspace x = true)
    (r : List Char) (hr : ∀ c r', r = c :: r' → isspace c = false) (p : Nat) :
    SkipWhiteSpace.loop (ws ++ r) p = p + ws.length := by
  induction ws generalizing p with
  | nil =>
    cases r with
    | nil => rfl
    | cons c r' => simp [SkipWhiteSpace.loop, hr c r' rfl]
  | cons w ws ih =>
    have hw : isspace w = true := hws w (List.mem_cons_self _ _)
    have e : (w :: ws ++ r) = w :: (ws ++ r) := rfl
    rw [e, SkipWhiteSpace.loop, if_pos hw, ih (fun x hx => hws x (List.mem_cons_of_mem _ hx))]
    simp; omega

/-- White space followed by a byte that is none is skipped exactly. -/
theorem SkipWhiteSpace_of_drop {b : List Char} {p : Nat} (ws : List Char) {c : Char}
    {r : List Char} (h : b.drop p = ws ++ c :: r) (hws : ∀ x ∈ ws, isspace x = true)
    (hc : isspace c = false) : SkipWhiteSpace b p = p + ws.length := by
  unfold SkipWhiteSpace
  rw [h]
  exact SkipWhiteSpace_loop_eq ws hws (c :: r) (by intro c' r' e; cases e; exact hc) p

/-- At a byte that is no white space nothing is skipped. -/
theorem SkipWhiteSpace_of_drop_cons {b : List Char} {p : Nat} {c : Char} {r : List Char}
    (h : b.drop p = c :: r) (hc : isspace c = false) : SkipWhiteSpace b p = p := by
  simpa using SkipWhiteSpace_of_drop (b := b) [] h (by simp) hc

theorem ParseName_loop_eq (n : List Char) (hn : ∀ x ∈ n, nameChar x = true)
    (r : List Char) (hr : ∀ c r', r = c :: r' → nameChar c = false) (p : Nat) :
    ParseName.loop (n ++ r) p = p + n.length := by
  induction n generalizing p with
  | nil =>
    cases r with
    | nil => rfl
    | cons c r' =>
      have := hr c r' rfl
      unfold nameChar at this
      simp only [List.nil_append, ParseName.loop, this]
      simp
  | cons w ws ih =>
    have hw : nameChar w = true := hn w (List.mem_cons_self _ _)
    unfold nameChar at hw
    have e : (w :: ws ++ r) = w :: (ws ++ r) := rfl
    rw [e, ParseName.loop, if_pos hw, ih (fun x hx => hn x (List.mem_cons_of_mem _ hx))]
    simp; omega

theorem isName_ne_nil {n : List Char} (h : isName n = true) : n ≠ [] := by
  rintro rfl; simp [isName] at h

theorem isName_length_pos {n : List Char} (h : isName n = true) : 0 < n.length :=
  List.length_pos.2 (isName_ne_nil h)

theorem isName_nameChar {n : List Char} (h : isName n = true) : ∀ x ∈ n, nameChar x = true := by
  cases n with
  | nil => simp
  | cons c cs =>
    simp only [isName, Bool.and_eq_true, List.all_eq_true] at h
    exact h.2

theorem isName_head {n : List Char} (h : isName n = true) :
    ∃ c cs, n = c :: cs ∧ IsAlpha c = true := by
  cases n with
  | nil => simp [isName] at h
  | cons c cs =>
    simp only [isName, Bool.and_eq_true] at h
    exact ⟨c, cs, rfl, h.1⟩

theorem isAlpha_ne_nul {c : Char} (h : c.isAlpha = true) : c ≠ NUL := by
  rintro rfl; revert h; decide

/-- The names `ParseName` reads whole are the valid names of the spec that do
not start with `_`. -/
theorem isName_iff_valid (n : List Char) :
    isName n = true ↔ isValidName n = true ∧ n.head? ≠ some '_' := by
  cases n with
  | nil => simp [isName, isValidName]
  | cons c cs =>
    simp only [isName, isValidName, IsAlpha, Bool.and_eq_true, List.all_eq_true, List.mem_cons,
      Bool.or_eq_true, decide_eq_true_eq, List.head?_cons, ne_eq, Option.some.injEq]
    constructor
    · rintro ⟨hc, hall⟩
      refine ⟨⟨Or.inl hc, fun x hx => ?_⟩, ?_⟩
      · have := hall x (Or.inr hx)
        simp only [nameChar, IsAlphaNum, Bool.and_eq_true, Bool.or_eq_true,
          decide_eq_true_eq] at this
        exact this.2
      · rintro rfl; revert hc; decide
    · rintro ⟨⟨hc, hall⟩, hne⟩
      have hc' : c.isAlpha = true := by
        rcases hc with h | h
        · exact h
        · exact absurd h hne
      refine ⟨hc', fun x hx => ?_⟩
      simp only [nameChar, IsAlphaNum, Bool.and_eq_true, Bool.or_eq_true, decide_eq_true_eq]
      rcases hx with rfl | hx
      · refine ⟨by simpa using isAlpha_ne_nul hc', Or.inl (Or.inl (Or.inl (Or.inl ?_)))⟩
        simp [Char.isAlphanum, hc']
      · have h := hall x hx
        refine ⟨?_, h⟩
        have : x ≠ NUL := by
          rintro rfl
          revert h
          decide
        simpa using this

theorem isName_of_valid {n : List Char} (h : isValidName n = true) (hu : n.head? ≠ some '_') :
    isName n = true := (isName_iff_valid n).2 ⟨h, hu⟩

/-- A name followed by a byte that `ParseName` does not step over is read
whole. -/
theorem ParseName_of_drop {b : List Char} {p : Nat} {n : List Char} {c : Char}
    {r : List Char} (h : b.drop p = n ++ c :: r) (hn : isName n = true)
    (hc : nameChar c = false) (pair : StrPair) :
    ParseName b p pair = (StrPair.Set p (p + n.length) StrFlags.zero, some (p + n.length)) := by
  obtain ⟨a, as, rfl, ha⟩ := isName_head hn
  have hpk : peek b p = a := peek_of_drop (r := as ++ c :: r) (by simpa using h)
  have hnc := isName_nameChar hn
  have ha0 : a ≠ NUL := by
    have := hnc a (List.mem_cons_self _ _)
    unfold nameChar at this
    simp only [Bool.and_eq_true, decide_eq_true_eq] at this
    simpa using this.1
  unfold ParseName
  simp only [hpk, ha0, ha, if_false, Bool.not_true]
  rw [h, ParseName_loop_eq _ hnc (c :: r) (by intro c' r' e; cases e; exact hc)]
  simp

theorem strncmpEq_single (t : Char) (ht : t ≠ NUL) (cs tr : List Char) :
    strncmpEq (t :: cs) (t :: tr) 1 = true := by
  simp [strncmpEq, ht]

theorem ParseText_loop_single (t : Char) (ht : t ≠ NUL) (tr : List Char) (v : List Char)
    (hv : ∀ x ∈ v, x ≠ NUL ∧ x ≠ t) (r : List Char) (p : Nat) :
    ParseText.loop (t :: tr) 1 (v ++ t :: r) p = (some (p + v.length), p + v.length + 1) := by
  induction v generalizing p with
  | nil =>
    simp [ParseText.loop, ht, strncmpEq_single t ht]
  | cons a v ih =>
    have ha := hv a (List.mem_cons_self _ _)
    have e : (a :: v ++ t :: r) = a :: (v ++ t :: r) := rfl
    rw [e, ParseText.loop, if_neg ha.1, if_neg (by simp [ha.2]),
      ih (fun x hx => hv x (List.mem_cons_of_mem _ hx))]
    simp; omega

/-- `ParseText` with an end tag of one byte: the text up to the first such
byte becomes the span and the pointer moves behind that byte. -/
theorem ParseText_single {b : List Char} {p : Nat} (t : Char) (ht : t ≠ NUL)
    (tr : List Char) (htr : cstrOf (t :: tr) = [t]) {v r : List Char}
    (h : b.drop p = v ++ t :: r) (hv : ∀ x ∈ v, x ≠ NUL ∧ x ≠ t) (pair : StrPair)
    (strFlags : StrFlags) :
    ParseText b p pair (t :: tr) strFlags =
      (StrPair.Set p (p + v.length) strFlags, p + v.length + 1) := by
  unfold ParseText
  simp only [htr, List.length_singleton]
  rw [h, ParseText_loop_single t ht tr v hv r p]

theorem AttrSrc.ok_iff (a : AttrSrc) : a.ok = true ↔
    (∃ c cs, a.name = c :: cs ∧ IsAlpha c = true) ∧ (∀ x ∈ a.name, x ≠ NUL ∧ x ≠ '=') ∧
    (a.quote = DOUBLE_QUOTE ∨ a.quote = SINGLE_QUOTE) ∧ a.value ≠ [] ∧
    (∀ x ∈ a.value, x ≠ NUL ∧ x ≠ a.quote) ∧ (∀ x ∈ a.ws, isspace x = true) := by
  unfold AttrSrc.ok
  cases hn : a.name with
  | nil => simp
  | cons c cs =>
    simp only [Bool.and_eq_true, List.all_eq_true, Bool.or_eq_true, decide_eq_true_eq,
      Bool.not_eq_true', List.isEmpty_eq_false, ne_eq, Bool.and_eq_true, Bool.not_eq_true',
      decide_eq_false_iff_not, List.cons.injEq, exists_and_left, exists_eq', and_true,
      List.isEmpty_iff]
    constructor
    · rintro ⟨⟨⟨⟨⟨h1, h2⟩, h3⟩, h4⟩, h5⟩, h6⟩
      refine ⟨⟨c, ?_⟩, fun x hx => ?_, h3, ?_, fun x hx => ?_, h6⟩
      · simpa using h1
      · simpa using h2 x hx
      · simpa using h4
      · simpa using h5 x hx
    · rintro ⟨⟨c', hc'⟩, h2, h3, h4, h5, h6⟩
      refine ⟨⟨⟨⟨⟨?_, fun x hx => ?_⟩, h3⟩, ?_⟩, fun x hx => ?_⟩, h6⟩
      · obtain ⟨cs', ⟨hcc, _⟩, hc2⟩ := hc'
        rw [hcc]; exact hc2
      · simpa using h2 x hx
      · simpa using h4
      · simpa using h5 x hx

theorem AttrSrc.accepted_iff (a : AttrSrc) : a.accepted = true ↔
    (∃ c cs, a.name = c :: cs ∧ IsAlpha c = true) ∧ (∀ x ∈ a.name, x ≠ NUL ∧ x ≠ '=') ∧
    a.quote ≠ NUL ∧ a.value ≠ [] ∧
    (∀ x ∈ a.value, x ≠ NUL ∧ x ≠ a.quote) ∧ (∀ x ∈ a.ws, isspace x = true) := by
  unfold AttrSrc.accepted
  cases hn : a.name with
  | nil => simp
  | cons c cs =>
    simp only [Bool.and_eq_true, List.all_eq_true, decide_eq_true_eq,
      Bool.not_eq_true', List.isEmpty_eq_false, ne_eq, decide_not, Bool.not_eq_true',
      decide_eq_false_iff_not, List.cons.injEq, exists_and_left, List.isEmpty_iff]
    constructor
    · rintro ⟨⟨⟨⟨⟨h1, h2⟩, h3⟩, h4⟩, h5⟩, h6⟩
      exact ⟨⟨c, cs, ⟨rfl, rfl⟩, h1⟩, h2, h3, h4, h5, h6⟩
    · rintro ⟨⟨c', cs', ⟨hc1, _⟩, hc2⟩, h2, h3, h4, h5, h6⟩
      subst hc1
      exact ⟨⟨⟨⟨⟨hc2, h2⟩, h3⟩, h4⟩, h5⟩, h6⟩

/-- An attribute written with one of the two quotes is one the code reads
whole. -/
theorem AttrSrc.accepted_of_ok {a : AttrSrc} (ha : a.ok = true) : a.accepted = true := by
  obtain ⟨h1, h2, hq, h4, h5, h6⟩ := (AttrSrc.ok_iff a).1 ha
  refine (AttrSrc.accepted_iff a).2 ⟨h1, h2, ?_, h4, h5, h6⟩
  rcases hq with e | e <;> rw [e] <;> decide

theorem isspace_false_of_IsAlpha {c : Char} (h : IsAlpha c = true) : isspace c = false := by
  by_contra hs
  have hs' : isspace c = true := by simpa using hs
  unfold isspace at hs'
  simp only [Bool.or_eq_true, decide_eq_true_eq] at hs'
  rcases hs' with ((((rfl | rfl) | rfl) | rfl) | rfl) | rfl <;> revert h <;> decide

theorem AttrSrc.text_length (a : AttrSrc) :
    a.text.length = a.name.length + a.value.length + a.ws.length + 3 := by
  simp [AttrSrc.text]; omega

/-- `XMLAttribute::ParseDeep` on a well-written attribute reads the name up
to `=` and the value between the quotes, and returns the pointer behind the
closing quote. -/
theorem XMLAttribute.ParseDeep_of_drop {buf : List Char} {p : Nat} {a : AttrSrc}
    {rest : List Char} (h : buf.drop p = a.text ++ rest) (ha : a.accepted = true) :
    XMLAttribute.ParseDeep buf ⟨StrPair.init, StrPair.init⟩ p =
      (a.parsed p, some (p + a.name.length + a.value.length + 3)) := by
  obtain ⟨_, hname, hq0, hvne, hval, _⟩ := (AttrSrc.accepted_iff a).1 ha
  have h1 : buf.drop p = a.name ++ '=' :: (a.quote :: (a.value ++ a.quote :: (a.ws ++ rest))) := by
    rw [h]; simp [AttrSrc.text]
  have h2 : buf.drop (p + a.name.length + 1) = a.quote :: (a.value ++ a.quote :: (a.ws ++ rest)) :=
    drop_succ_of_drop (drop_add_of_drop a.name h1)
  have h3 : buf.drop (p + a.name.length + 1 + 1) = a.value ++ a.quote :: (a.ws ++ rest) :=
    drop_succ_of_drop h2
  have e1 := ParseText_single (b := buf) (p := p) '=' (by decide) [] (by decide) h1 hname
    StrPair.init ATTRIBUTE_NAME
  have e2 := ParseText_single (b := buf) a.quote hq0 [NUL]
    (by simp [cstrOf, hq0]) h3 hval StrPair.init ATTRIBUTE_VALUE
  have hlen : 0 < a.value.length := List.length_pos.2 hvne
  unfold XMLAttribute.ParseDeep
  have e0 : "=".toList = ['='] := rfl
  simp only [e0, e1, peek_of_drop h2, hq0, if_false, e2, StrPair.Empty, StrPair.Set]
  have hne : ¬ (p + a.name.length + 1 + 1 = p + a.name.length + 1 + 1 + a.value.length) := by omega
  simp [hne, AttrSrc.parsed, StrPair.Set]
  omega

theorem AttrSrc.head_of_accepted {a : AttrSrc} (ha : a.accepted = true) (rest : List Char) :
    ∃ c r, a.text ++ rest = c :: r ∧ IsAlpha c = true := by
  obtain ⟨⟨c, cs, hn, hc⟩, _⟩ := (AttrSrc.accepted_iff a).1 ha
  exact ⟨c, cs ++ '=' :: a.quote :: a.value ++ a.quote :: a.ws ++ rest, by simp [AttrSrc.text, hn], hc⟩

/-- The loop of `ParseAttributes` on a run of well-written attributes that
ends in `>` or `/>`: every attribute is appended in order, and the pointer
behind the end of the tag is returned. -/
theorem ParseAttributes_loop_of_drop (start : Nat) : ∀ (as : List AttrSrc) (fuel : Nat)
    (doc : XMLDocument) (self : XMLElement) (p : Nat) (ws0 term rest : List Char),
    as.length < fuel →
    doc.charBuffer.drop p = ws0 ++ (AttrSrc.textList as ++ (term ++ rest)) →
    (∀ x ∈ ws0, isspace x = true) → (∀ a ∈ as, a.ok = true) →
    (term = ['>'] ∨ (term = ['/', '>'] ∧ self.closing = false)) →
    XMLElement.ParseAttributes.loop start fuel doc self p =
      some (doc,
        { self with attributes := self.attributes ++ AttrSrc.parsedList (p + ws0.length) as },
        decide (term = ['/', '>']),
        some (p + ws0.length + (AttrSrc.textList as).length + term.length))
  | [], 0, _, _, _, _, _, _, hf, _, _, _, _ => by simp at hf
  | [], fuel + 1, doc, self, p, ws0, term, rest, _, hdrop, hws, _, hterm => by
    rw [XMLElement.ParseAttributes.loop]
    dsimp only
    rcases hterm with rfl | ⟨rfl, hcl⟩
    · have hd : doc.charBuffer.drop p = ws0 ++ '>' :: rest := by simpa [AttrSrc.textList] using hdrop
      have hs := SkipWhiteSpace_of_drop ws0 hd hws (by decide)
      have hd2 := drop_add_of_drop ws0 hd
      rw [hs]
      simp only [peek_of_drop hd2]
      simp [AttrSrc.parsedList, AttrSrc.textList, IsAlpha, NUL]
    · have hd : doc.charBuffer.drop p = ws0 ++ '/' :: '>' :: rest := by
        simpa [AttrSrc.textList] using hdrop
      have hs := SkipWhiteSpace_of_drop ws0 hd hws (by decide)
      have hd2 := drop_add_of_drop ws0 hd
      have hd3 := drop_succ_of_drop hd2
      rw [hs]
      simp only [peek_of_drop hd2, peek_of_drop hd3]
      simp [AttrSrc.parsedList, AttrSrc.textList, IsAlpha, NUL, hcl]
      cases self
      simp_all
  | a :: as, 0, _, _, _, _, _, _, hf, _, _, _, _ => by simp at hf
  | a :: as, fuel + 1, doc, self, p, ws0, term, rest, hf, hdrop, hws, hok, hterm => by
    have ha : a.ok = true := hok a (List.mem_cons_self _ _)
    obtain ⟨_, _, _, _, _, hwsa⟩ := (AttrSrc.ok_iff a).1 ha
    obtain ⟨c, r, hcr, hc⟩ := AttrSrc.head_of_accepted (AttrSrc.accepted_of_ok ha)
      (AttrSrc.textList as ++ (term ++ rest))
    have hd : doc.charBuffer.drop p = ws0 ++ c :: r := by
      rw [hdrop, ← hcr]; simp [AttrSrc.textList]
    have hs := SkipWhiteSpace_of_drop ws0 hd hws (isspace_false_of_IsAlpha hc)
    have hd2 : doc.charBuffer.drop (p + ws0.length) = a.text ++ (AttrSrc.textList as ++ (term ++ rest)) := by
      rw [hcr]; exact drop_add_of_drop ws0 hd
    have hc0 : c ≠ NUL := by
      rintro rfl; revert hc; decide
    have hat := XMLAttribute.ParseDeep_of_drop hd2 (AttrSrc.accepted_of_ok ha)
    have hd3 : doc.charBuffer.drop (p + ws0.length + a.name.length + a.value.length + 3) =
        a.ws ++ (AttrSrc.textList as ++ (term ++ rest)) := by
      have e : a.text ++ (AttrSrc.textList as ++ (term ++ rest)) =
          (a.name ++ '=' :: a.quote :: a.value ++ [a.quote]) ++
            (a.ws ++ (AttrSrc.textList as ++ (term ++ rest))) := by
        simp [AttrSrc.text]
      rw [e] at hd2
      have := drop_add_of_drop _ hd2
      rw [← this]
      congr 1
      simp; omega
    have ih := ParseAttributes_loop_of_drop start as fuel doc
      { self with attributes := self.attributes ++ [a.parsed (p + ws0.length)] }
      (p + ws0.length + a.name.length + a.value.length + 3) a.ws term rest
      (by simpa using hf) hd3 hwsa (fun b hb => hok b (List.mem_cons_of_mem _ hb)) hterm
    rw [XMLElement.ParseAttributes.loop]
    dsimp only
    rw [hs]
    rw [peek_of_drop (hcr ▸ hd2), if_neg hc0, if_pos hc, hat]
    dsimp only
    have hA : p + ws0.length + a.name.length + a.value.length + 3 + a.ws.length =
        p + ws0.length + a.text.length := by rw [AttrSrc.text_length]; omega
    rw [hA] at ih
    rw [ih]
    have hB : p + ws0.length + a.text.length + (AttrSrc.textList as).length + term.length =
        p + ws0.length + (AttrSrc.textList (a :: as)).length + term.length := by
      simp only [AttrSrc.textList, List.length_append]; omega
    rw [hB]
    simp only [AttrSrc.parsedList, List.append_assoc, List.singleton_append]

theorem nameChar_false_of_isspace {c : Char} (h : isspace c = true) : nameChar c = false := by
  unfold isspace at h
  simp only [Bool.or_eq_true, decide_eq_true_eq] at h
  rcases h with ((((rfl | rfl) | rfl) | rfl) | rfl) | rfl <;> decide

theorem isspace_false_of_nameChar {c : Char} (h : nameChar c = true) : isspace c = false := by
  by_contra hs
  have hs' : isspace c = true := by simpa using hs
  rw [nameChar_false_of_isspace hs'] at h
  exact Bool.false_ne_true h

/-- The fresh element `Identify` makes. -/
theorem XMLElement.init_toNode :
    XMLNode.Element StrPair.init false [] false [] = XMLElement.init.toNode := rfl

/-- `Identify` at `<` that does not start a comment: an element, and the
pointer behind `<`. -/
theorem Identify_element {buf : List Char} {p : Nat} (ws : List Char) {c : Char}
    {r : List Char} (h : buf.drop p = ws ++ '<' :: c :: r) (hws : ∀ x ∈ ws, isspace x = true)
    (hc : c ≠ '!') :
    Identify buf p =
      (some (p + ws.length + 1), some (XMLNode.Element StrPair.init false [] false [])) := by
  have hs := SkipWhiteSpace_of_drop ws h hws (by decide)
  have hd := drop_add_of_drop ws h
  unfold Identify
  simp only [hs, peek_of_drop hd, StringEqual, hd]
  have e1 : strncmpEq ('<' :: c :: r) "<!--".toList 4 = false := by
    have : "<!--".toList = ['<', '!', '-', '-'] := rfl
    rw [this]
    simp [strncmpEq, hc, NUL]
  have e2 : strncmpEq ('<' :: c :: r) "<".toList 1 = true := by
    have : "<".toList = ['<'] := rfl
    rw [this]
    simp [strncmpEq, NUL]
  rw [e1, e2]
  simp [NUL]

/-- The first steps of `XMLElement::ParseDeep` on a start tag: the name is
read, then the attributes, up to the end of the tag. -/
theorem XMLElement.ParseDeep_startTag {f : Nat} {doc : XMLDocument} {p : Nat}
    {n ws0 term rest : List Char} {as : List AttrSrc}
    (h : doc.charBuffer.drop p = n ++ (ws0 ++ (AttrSrc.textList as ++ (term ++ rest))))
    (hn : isName n = true) (hws : ∀ x ∈ ws0, isspace x = true) (hsep : as = [] ∨ ws0 ≠ [])
    (hok : ∀ a ∈ as, a.ok = true) (hf : as.length < f)
    (hterm : term = ['>'] ∨ term = ['/', '>']) :
    XMLElement.ParseDeep (f + 1) doc XMLElement.init p =
      let self1 : XMLElement :=
        { name := StrPair.Set p (p + n.length) StrFlags.zero, closing := false,
          attributes := AttrSrc.parsedList (p + n.length + ws0.length) as,
          base := ⟨false, []⟩ }
      let p1 := p + n.length + ws0.length + (AttrSrc.textList as).length + term.length
      if peek doc.charBuffer p1 = NUL || decide (term = ['/', '>']) then
        some (doc, self1, some p1)
      else
        match XMLNode.ParseDeep f doc self1.base (some p1) with
        | none => none
        | some (doc2, base, p2) => some (doc2, { self1 with base := base }, p2) := by
  obtain ⟨a, as', rfl, ha⟩ := isName_head hn
  have hnc := isName_nameChar hn
  have hsp : isspace a = false := isspace_false_of_nameChar (hnc a (List.mem_cons_self _ _))
  have hd0 : doc.charBuffer.drop p = a :: (as' ++ (ws0 ++ (AttrSrc.textList as ++ (term ++ rest)))) := by
    simpa using h
  have hs := SkipWhiteSpace_of_drop_cons hd0 hsp
  have ha1 : a ≠ '/' := by
    rintro rfl; revert ha; decide
  -- the byte behind the name
  have hnext : ∃ c r, ws0 ++ (AttrSrc.textList as ++ (term ++ rest)) = c :: r ∧ nameChar c = false := by
    cases ws0 with
    | cons w ws' =>
      exact ⟨w, _, rfl, nameChar_false_of_isspace (hws w (List.mem_cons_self _ _))⟩
    | nil =>
      have has : as = [] := by
        rcases hsep with e | e
        · exact e
        · exact absurd rfl e
      subst has
      rcases hterm with rfl | rfl
      · exact ⟨'>', rest, rfl, by decide⟩
      · exact ⟨'/', '>' :: rest, rfl, by decide⟩
  obtain ⟨c, r, hcr, hc⟩ := hnext
  have hpn := ParseName_of_drop (b := doc.charBuffer) (p := p) (n := a :: as') (c := c) (r := r)
    (by rw [h, hcr]) hn hc StrPair.init
  have hdn : doc.charBuffer.drop (p + (a :: as').length) =
      ws0 ++ (AttrSrc.textList as ++ (term ++ rest)) := drop_add_of_drop _ h
  have hloop := ParseAttributes_loop_of_drop (p + (a :: as').length) as f doc
    { name := StrPair.Set p (p + (a :: as').length) StrFlags.zero, closing := false,
      attributes := [], base := ⟨false, []⟩ }
    (p + (a :: as').length) ws0 term rest hf hdn hws hok
    (by rcases hterm with e | e
        · exact Or.inl e
        · exact Or.inr ⟨e, rfl⟩)
  rw [XMLElement.ParseDeep]
  dsimp only
  rw [hs]
  simp only [peek_of_drop hd0, ha1, if_false]
  have hinit : XMLElement.init.name = StrPair.init := rfl
  rw [hinit, hpn]
  have hne : (StrPair.Set p (p + (a :: as').length) StrFlags.zero).Empty = false := by
    simp [StrPair.Empty, StrPair.Set]
  simp only [hne, XMLElement.ParseAttributes, XMLElement.init]
  rw [hloop]
  simp

/-- `XMLElement::ParseDeep` on a closing tag `/name>`: the name is read,
`closing` is set and the pointer behind `>` is returned. -/
theorem XMLElement.ParseDeep_closingTag {f : Nat} {doc : XMLDocument} {p : Nat}
    {n ws1 rest : List Char}
    (h : doc.charBuffer.drop p = '/' :: (n ++ (ws1 ++ '>' :: rest)))
    (hn : isName n = true) (hws : ∀ x ∈ ws1, isspace x = true) :
    XMLElement.ParseDeep (f + 2) doc XMLElement.init p =
      some (doc,
        { name := StrPair.Set (p + 1) (p + 1 + n.length) StrFlags.zero, closing := true,
          attributes := [], base := ⟨false, []⟩ },
        some (p + 1 + n.length + ws1.length + 1)) := by
  have hs := SkipWhiteSpace_of_drop_cons h (by decide)
  have hd1 : doc.charBuffer.drop (p + 1) = n ++ (ws1 ++ '>' :: rest) := drop_succ_of_drop h
  have hnext : ∃ c r, ws1 ++ '>' :: rest = c :: r ∧ nameChar c = false := by
    cases ws1 with
    | cons w ws' =>
      exact ⟨w, _, rfl, nameChar_false_of_isspace (hws w (List.mem_cons_self _ _))⟩
    | nil => exact ⟨'>', rest, rfl, by decide⟩
  obtain ⟨c, r, hcr, hc⟩ := hnext
  have hpn := ParseName_of_drop (b := doc.charBuffer) (p := p + 1) (n := n) (c := c) (r := r)
    (by rw [hd1, hcr]) hn hc StrPair.init
  have hdn : doc.charBuffer.drop (p + 1 + n.length) =
      ws1 ++ (AttrSrc.textList [] ++ (['>'] ++ rest)) := by
    simpa [AttrSrc.textList] using drop_add_of_drop n hd1
  have hloop := ParseAttributes_loop_of_drop (p + 1 + n.length) [] (f + 1) doc
    { name := StrPair.Set (p + 1) (p + 1 + n.length) StrFlags.zero, closing := true,
      attributes := [], base := ⟨false, []⟩ }
    (p + 1 + n.length) ws1 ['>'] rest (by simp) hdn hws (by simp) (Or.inl rfl)
  have hlen := isName_length_pos hn
  rw [XMLElement.ParseDeep]
  dsimp only
  rw [hs]
  simp only [peek_of_drop h, if_true]
  have hinit : ({ XMLElement.init with closing := true } : XMLElement).name = StrPair.init := rfl
  rw [hinit, hpn]
  have hne : (StrPair.Set (p + 1) (p + 1 + n.length) StrFlags.zero).Empty = false := by
    simp [StrPair.Empty, StrPair.Set]
    exact isName_ne_nil hn
  simp only [hne, XMLElement.ParseAttributes, XMLElement.init]
  rw [hloop]
  simp [AttrSrc.parsedList, AttrSrc.textList]

/-- One turn of the child loop at a closing tag: nothing is inserted and the
pointer behind the tag is returned. -/
theorem XMLNode.ParseDeep_at_closingTag {f : Nat} {doc : XMLDocument} {s : NodeBase}
    {p : Nat} {ws n ws1 rest : List Char}
    (h : doc.charBuffer.drop p = ws ++ '<' :: '/' :: (n ++ (ws1 ++ '>' :: rest)))
    (hws0 : ∀ x ∈ ws, isspace x = true)
    (hn : isName n = true) (hws : ∀ x ∈ ws1, isspace x = true) :
    XMLNode.ParseDeep (f + 3) doc s (some p) =
      some (doc, s, some (p + ws.length + 1 + 1 + n.length + ws1.length + 1)) := by
  have hne : peek doc.charBuffer p ≠ NUL := by
    cases ws with
    | nil => rw [peek_of_drop h]; decide
    | cons w ws' =>
      rw [peek_of_drop (c := w) (by simpa using h)]
      have := hws0 w (List.mem_cons_self _ _)
      rintro rfl
      revert this; decide
  have hid := Identify_element ws h hws0 (by decide)
  have hd1 : doc.charBuffer.drop (p + ws.length + 1) = '/' :: (n ++ (ws1 ++ '>' :: rest)) :=
    drop_succ_of_drop (drop_add_of_drop ws h)
  rw [XMLNode.ParseDeep, if_neg hne, hid]
  dsimp only
  have := XMLElement.ParseDeep_closingTag (f := f) hd1 hn hws
  rw [XMLElement.init] at this
  rw [this]
  simp [XMLElement.toNode, XMLNode.IsClosingElement]

/-- The child loop ends where the buffer ends. -/
theorem XMLNode.ParseDeep_end {fuel : Nat} {doc : XMLDocument} {self : NodeBase} {p : Nat}
    (h : peek doc.charBuffer p = NUL) :
    XMLNode.ParseDeep (fuel + 1) doc self (some p) = some (doc, self, none) := by
  rw [XMLNode.ParseDeep, if_pos h]

/-- One turn of the child loop at a start tag that ends in `>` and is
followed by more input: the children are parsed by a nested call, the
element is appended, and the loop goes on. -/
theorem XMLNode.ParseDeep_at_startTag {f : Nat} {doc : XMLDocument} {s : NodeBase}
    {p : Nat} {ws n ws0 rest : List Char} {l : List AttrSrc} {c : Char}
    (h : doc.charBuffer.drop p =
      ws ++ '<' :: (n ++ (ws0 ++ (AttrSrc.textList l ++ ('>' :: c :: rest)))))
    (hwsp : ∀ x ∈ ws, isspace x = true)
    (hn : isName n = true) (hws : ∀ x ∈ ws0, isspace x = true) (hsep : l = [] ∨ ws0 ≠ [])
    (hok : ∀ a ∈ l, a.ok = true) (hf : l.length < f) (hc : c ≠ NUL) :
    XMLNode.ParseDeep (f + 2) doc s (some p) =
      match XMLNode.ParseDeep f doc ⟨false, []⟩
          (some (p + ws.length + 1 + n.length + ws0.length + (AttrSrc.textList l).length + 1)) with
      | none => none
      | some (doc2, base, p2) =>
        XMLNode.ParseDeep (f + 1) doc2
          (s.InsertEndChild
            (XMLNode.Element (StrPair.Set (p + ws.length + 1) (p + ws.length + 1 + n.length) StrFlags.zero)
              false (AttrSrc.parsedList (p + ws.length + 1 + n.length + ws0.length) l)
              base.isTextParent base.children)) p2 := by
  have hne : peek doc.charBuffer p ≠ NUL := by
    cases ws with
    | nil => rw [peek_of_drop h]; decide
    | cons w ws' =>
      rw [peek_of_drop (c := w) (by simpa using h)]
      have := hwsp w (List.mem_cons_self _ _)
      rintro rfl
      revert this; decide
  obtain ⟨a, as', rfl, ha⟩ := isName_head hn
  have ha1 : a ≠ '!' := by rintro rfl; revert ha; decide
  have hid := Identify_element (c := a) ws (by simpa using h) hwsp ha1
  have hd1 : doc.charBuffer.drop (p + ws.length + 1) =
      (a :: as') ++ (ws0 ++ (AttrSrc.textList l ++ (['>'] ++ c :: rest))) :=
    drop_succ_of_drop (drop_add_of_drop ws h)
  have hst := XMLElement.ParseDeep_startTag (f := f) hd1 hn hws hsep hok hf (Or.inl rfl)
  have hd2 : doc.charBuffer.drop
      (p + ws.length + 1 + (a :: as').length + ws0.length + (AttrSrc.textList l).length +
        ['>'].length) = c :: rest := by
    have e : (a :: as') ++ (ws0 ++ (AttrSrc.textList l ++ (['>'] ++ c :: rest))) =
        ((a :: as') ++ ws0 ++ AttrSrc.textList l ++ ['>']) ++ c :: rest := by simp
    rw [e] at hd1
    have := drop_add_of_drop _ hd1
    rw [← this]
    congr 1
    simp; omega
  rw [XMLNode.ParseDeep, if_neg hne, hid]
  dsimp only
  rw [XMLElement.init] at hst
  rw [hst]
  dsimp only
  rw [peek_of_drop hd2]
  simp only [hc, decide_False, Bool.or_false, List.length_singleton]
  have hfalse : (decide (['>'] = ['/', '>'])) = false := by decide
  simp only [hfalse, Bool.false_eq_true, if_false]
  cases hch : XMLNode.ParseDeep f doc ⟨false, []⟩
      (some (p + ws.length + 1 + (a :: as').length + ws0.length + (AttrSrc.textList l).length + 1)) with
  | none => rfl
  | some r =>
    obtain ⟨doc2, base, p2⟩ := r
    simp [XMLElement.toNode, XMLNode.IsClosingElement]

/-! ## Mismatched closing tags (claim C10) -/

theorem cstrOf_append_nul (v r : List Char) (hv : ∀ x ∈ v, x ≠ NUL) :
    cstrOf (v ++ NUL :: r) = v := by
  induction v with
  | nil => simp [cstrOf]
  | cons a v ih =>
    have ha := hv a (List.mem_cons_self _ _)
    have e : (a :: v ++ NUL :: r) = a :: (v ++ NUL :: r) := rfl
    rw [e, cstrOf, if_neg ha, ih (fun x hx => hv x (List.mem_cons_of_mem _ hx))]

theorem cstrOf_of_no_nul (v : List Char) (hv : ∀ x ∈ v, x ≠ NUL) : cstrOf v = v := by
  induction v with
  | nil => rfl
  | cons a v ih =>
    rw [cstrOf, if_neg (hv a (List.mem_cons_self _ _)),
      ih (fun x hx => hv x (List.mem_cons_of_mem _ hx))]

/-- Writing the byte at `s + |v|` where `v` are the bytes from `s` on. -/
theorem drop_set_end {buf : List Char} {s : Nat} {v : List Char} {c : Char} {r : List Char}
    (h : buf.drop s = v ++ c :: r) (x : Char) :
    (buf.set (s + v.length) x).drop s = v ++ x :: r := by
  rw [List.drop_set, if_neg (by omega), h]
  have : s + v.length - s = v.length := by omega
  rw [this, List.set_append_right _ _ (le_refl _)]
  simp

/-- A span without pending decoding reads as the bytes it covers. -/
theorem StrPair.text_plain {b : List Char} {s : Nat} {v : List Char} {c : Char}
    {r : List Char} (h : b.drop s = v ++ c :: r) (hv : ∀ x ∈ v, x ≠ NUL) :
    StrPair.text b (StrPair.Set s (s + v.length) StrFlags.zero) = some v := by
  simp only [StrPair.text, StrPair.GetStr, StrPair.Set, StrFlags.orFlush, StrFlags.zero,
    StrFlags.xorFlush, StrFlags.nonzero]
  simp only [Bool.not_true, Bool.or_self, Bool.false_eq_true, if_false, if_true, cstr]
  rw [drop_set_end h, cstrOf_append_nul v r hv]

theorem isName_no_nul {n : List Char} (hn : isName n = true) : ∀ x ∈ n, x ≠ NUL := by
  intro x hx
  have := isName_nameChar hn x hx
  unfold nameChar at this
  simp only [Bool.and_eq_true, decide_eq_true_eq] at this
  simpa using this.1

/-- Claim C10, evaluated at a failing input: `_a`, `b` and `c` are valid
element names, and parsing `<_a><b></c></_a>` returns NoError, without a call
of `SetError`, with a single top-level element that has no name and no
child; the instance of the spec, `<a><b></c></a>`, gives element `a` with the
childless child `b`. -/
theorem underscore_name_breaks_nesting :
    isValidName "_a".toList = true ∧ isValidName "b".toList = true ∧
    isValidName "c".toList = true ∧
    (XMLDocument.Parse 7 (some "<_a><b></c></_a>".toList)).map
        (fun d => (d.result, d.doc.setErrorCalls, d.content)) =
      some (NO_ERROR, 0, [Content.Element none [] []]) ∧
    ¬ ((XMLDocument.Parse 7 (some "<_a><b></c></_a>".toList)).map (fun d => d.content) =
      some [Content.Element (some "_a".toList) [] [Content.Element (some "b".toList) [] []]]) ∧
    (XMLDocument.Parse 7 (some "<a><b></c></a>".toList)).map
        (fun d => (d.result, d.doc.setErrorCalls, d.content)) =
      some (NO_ERROR, 0,
        [Content.Element (some "a".toList) [] [Content.Element (some "b".toList) [] []]]) := by
  have e : (XMLDocument.Parse 7 (some "<_a><b></c></_a>".toList)).map (fun d => d.content) =
      some [Content.Element none [] []] := by rfl
  refine ⟨by decide, by decide, by decide, by rfl, ?_, by rfl⟩
  rw [e]
  intro h
  simp at h

/-- Mismatched closing tags where the names are read: for all valid element
names `n1`, `n2`, `n3` that do not start with `_`, parsing
`<n1><n2></n3></n1>` returns NoError without a call of `SetError`, and the
tree is one top-level element `n1` whose only child is the childless element
`n2`; no closing-tag element is kept. -/
theorem mismatched_closing_tag_accepted (n1 n2 n3 : List Char)
    (h1v : isValidName n1 = true) (h1u : n1.head? ≠ some '_')
    (h2v : isValidName n2 = true) (h2u : n2.head? ≠ some '_')
    (h3v : isValidName n3 = true) (h3u : n3.head? ≠ some '_') (fuel : Nat) (hf : 7 ≤ fuel) :
    ∃ d, XMLDocument.Parse fuel (some ("<".toList ++ n1 ++ "><".toList ++ n2 ++ "></".toList ++
        n3 ++ "></".toList ++ n1 ++ ">".toList)) = some d ∧
      d.result = NO_ERROR ∧ d.doc.errorID = NO_ERROR ∧ d.doc.setErrorCalls = 0 ∧
      d.base.children =
        [XMLNode.Element (StrPair.Set 1 (1 + n1.length) StrFlags.zero) false [] false
          [XMLNode.Element (StrPair.Set (n1.length + 3) (n1.length + 3 + n2.length) StrFlags.zero)
            false [] false []]] ∧
      d.content = [Content.Element (some n1) [] [Content.Element (some n2) [] []]] := by
  have h1 : isName n1 = true := isName_of_valid h1v h1u
  have h2 : isName n2 = true := isName_of_valid h2v h2u
  have h3 : isName n3 = true := isName_of_valid h3v h3u
  -- the buffer and what follows each position
  let t4 : List Char := '/' :: (n1 ++ ([] ++ '>' :: [NUL]))
  let t3 : List Char := '/' :: (n3 ++ ([] ++ '>' :: '<' :: t4))
  let t2 : List Char := n2 ++ ([] ++ (AttrSrc.textList [] ++ ('>' :: '<' :: t3)))
  let buf : List Char := '<' :: (n1 ++ ([] ++ (AttrSrc.textList [] ++ ('>' :: '<' :: t2))))
  have hinput : ("<".toList ++ n1 ++ "><".toList ++ n2 ++ "></".toList ++
        n3 ++ "></".toList ++ n1 ++ ">".toList) ++ [NUL] = buf := by
    simp [buf, t2, t3, t4, AttrSrc.textList]
  have hnonul : ∀ x ∈ ("<".toList ++ n1 ++ "><".toList ++ n2 ++ "></".toList ++
        n3 ++ "></".toList ++ n1 ++ ">".toList), x ≠ NUL := by
    intro x hx
    simp only [List.mem_append, String.toList] at hx
    have d1 := isName_no_nul h1 x
    have d2 := isName_no_nul h2 x
    have d3 := isName_no_nul h3 x
    rcases hx with (((((((hx | hx) | hx) | hx) | hx) | hx) | hx) | hx) | hx
    all_goals first
      | exact d1 hx
      | exact d2 hx
      | exact d3 hx
      | (simp at hx; rcases hx with rfl | rfl | rfl <;> decide)
  let doc : XMLDocument := ⟨buf, NO_ERROR, none, none, 0⟩
  -- positions
  have hd0 : doc.charBuffer.drop 0 =
      [] ++ '<' :: (n1 ++ ([] ++ (AttrSrc.textList [] ++ ('>' :: '<' :: t2)))) := rfl
  have hd3 : doc.charBuffer.drop (1 + n1.length + 1) =
      [] ++ '<' :: (n2 ++ ([] ++ (AttrSrc.textList [] ++ ('>' :: '<' :: t3)))) := by
    have := drop_add_of_drop (b := doc.charBuffer) (p := 0) ('<' :: n1 ++ ['>'])
      (r := '<' :: t2) (by simp [doc, buf, AttrSrc.textList])
    rw [← this]; congr 1; simp; omega
  have hd6 : doc.charBuffer.drop (1 + n1.length + 1 + 1 + n2.length + 1) =
      [] ++ '<' :: '/' :: (n3 ++ ([] ++ '>' :: '<' :: t4)) := by
    have := drop_add_of_drop (b := doc.charBuffer) (p := 1 + n1.length + 1) ('<' :: n2 ++ ['>'])
      (r := '<' :: t3) (by rw [hd3]; simp [AttrSrc.textList])
    rw [← this]; congr 1; simp; omega
  have hd10 : doc.charBuffer.drop (1 + n1.length + 1 + 1 + n2.length + 1 + 1 + 1 + n3.length + 1) =
      [] ++ '<' :: '/' :: (n1 ++ ([] ++ '>' :: [NUL])) := by
    have := drop_add_of_drop (b := doc.charBuffer) (p := 1 + n1.length + 1 + 1 + n2.length + 1)
      ('<' :: '/' :: n3 ++ ['>']) (r := '<' :: t4) (by rw [hd6]; simp)
    rw [← this]; congr 1; simp; omega
  have hd14 : doc.charBuffer.drop
      (1 + n1.length + 1 + 1 + n2.length + 1 + 1 + 1 + n3.length + 1 + 1 + 1 + n1.length + 1) =
      [NUL] := by
    have := drop_add_of_drop (b := doc.charBuffer)
      (p := 1 + n1.length + 1 + 1 + n2.length + 1 + 1 + 1 + n3.length + 1)
      ('<' :: '/' :: n1 ++ ['>']) (r := [NUL]) (by rw [hd10]; simp)
    rw [← this]; congr 1; simp; omega
  -- the innermost loop: children of n2, ended by the closing tag of n3
  have e2 : XMLNode.ParseDeep 3 doc ⟨false, []⟩ (some (1 + n1.length + 1 + 1 + n2.length + 1)) =
      some (doc, ⟨false, []⟩,
        some (1 + n1.length + 1 + 1 + n2.length + 1 + 1 + 1 + n3.length + 1)) := by
    have := XMLNode.ParseDeep_at_closingTag (f := 0) (s := ⟨false, []⟩) hd6 (by simp) h3 (by simp)
    simpa using this
  -- the loop over the children of n1
  have e1 : XMLNode.ParseDeep 5 doc ⟨false, []⟩ (some (1 + n1.length + 1)) =
      some (doc, ⟨false, [XMLNode.Element
          (StrPair.Set (1 + n1.length + 1 + 1) (1 + n1.length + 1 + 1 + n2.length) StrFlags.zero)
          false [] false []]⟩,
        some (1 + n1.length + 1 + 1 + n2.length + 1 + 1 + 1 + n3.length + 1 + 1 + 1 + n1.length + 1)) := by
    have := XMLNode.ParseDeep_at_startTag (f := 3) (s := ⟨false, []⟩) (l := []) hd3 (by simp) h2
      (by simp) (Or.inl rfl) (by simp) (by simp) (by decide)
    simp only [List.length_nil, AttrSrc.textList, Nat.add_zero] at this
    rw [this, e2]
    dsimp only
    have := XMLNode.ParseDeep_at_closingTag (f := 1)
      (s := NodeBase.InsertEndChild ⟨false, []⟩ (XMLNode.Element
          (StrPair.Set (1 + n1.length + 1 + 1) (1 + n1.length + 1 + 1 + n2.length) StrFlags.zero)
          false (AttrSrc.parsedList (1 + n1.length + 1 + 1 + n2.length) []) false []))
      hd10 (by simp) h1 (by simp)
    simp only [List.length_nil, Nat.add_zero] at this
    rw [this]
    simp [NodeBase.InsertEndChild, AttrSrc.parsedList, XMLNode.ToText]
  -- the top-level loop
  have e0 : XMLNode.ParseDeep 7 doc ⟨false, []⟩ (some 0) =
      some (doc, ⟨false, [XMLNode.Element (StrPair.Set 1 (1 + n1.length) StrFlags.zero) false []
          false [XMLNode.Element
            (StrPair.Set (1 + n1.length + 1 + 1) (1 + n1.length + 1 + 1 + n2.length) StrFlags.zero)
            false [] false []]]⟩, none) := by
    have := XMLNode.ParseDeep_at_startTag (f := 5) (s := ⟨false, []⟩) (l := []) hd0 (by simp) h1
      (by simp) (Or.inl rfl) (by simp) (by simp) (by decide)
    simp only [List.length_nil, AttrSrc.textList, Nat.add_zero, Nat.zero_add] at this
    rw [this, e1]
    dsimp only
    rw [XMLNode.ParseDeep_end (peek_of_drop hd14)]
    simp [NodeBase.InsertEndChild, AttrSrc.parsedList, XMLNode.ToText]
  have hparse : XMLDocument.Parse 7 (some ("<".toList ++ n1 ++ "><".toList ++ n2 ++
      "></".toList ++ n3 ++ "></".toList ++ n1 ++ ">".toList)) =
      some ⟨⟨false, [XMLNode.Element (StrPair.Set 1 (1 + n1.length) StrFlags.zero) false []
          false [XMLNode.Element
            (StrPair.Set (1 + n1.length + 1 + 1) (1 + n1.length + 1 + 1 + n2.length) StrFlags.zero)
            false [] false []]]⟩, doc, NO_ERROR⟩ := by
    unfold XMLDocument.Parse
    dsimp only
    rw [cstrOf_of_no_nul _ hnonul, if_neg (by simp), hinput]
    have := e0
    simp only [doc] at this
    rw [this]
  have hn1 : StrPair.text buf (StrPair.Set 1 (1 + n1.length) StrFlags.zero) = some n1 :=
    StrPair.text_plain (b := buf) (s := 1) (c := '>') (r := '<' :: t2)
      (by simp [buf, AttrSrc.textList]) (isName_no_nul h1)
  have hn2 : StrPair.text buf
      (StrPair.Set (1 + n1.length + 1 + 1) (1 + n1.length + 1 + 1 + n2.length) StrFlags.zero) =
      some n2 := by
    refine StrPair.text_plain (b := buf) (c := '>') (r := '<' :: t3) ?_ (isName_no_nul h2)
    have := drop_succ_of_drop (drop_add_of_drop (b := doc.charBuffer) [] hd3)
    simpa [AttrSrc.textList] using this
  refine ⟨_, XMLDocument.Parse_mono hf hparse, rfl, rfl, rfl, ?_, ?_⟩
  · have e : 1 + n1.length + 1 + 1 = n1.length + 3 := by omega
    simp only [e]
  · simp only [Parsed.content, XMLNode.contentList, XMLNode.content, List.map_nil, hn1, hn2]

/-- The statement above at the instance of the spec, `<a><b></c></a>`, with
fuel 7. -/
theorem mismatched_closing_tag_accepted_witness :
    isValidName "a".toList = true ∧ "a".toList.head? ≠ some '_' ∧
    isValidName "b".toList = true ∧ "b".toList.head? ≠ some '_' ∧
    isValidName "c".toList = true ∧ "c".toList.head? ≠ some '_' ∧ 7 ≤ 7 ∧
    ∃ d, XMLDocument.Parse 7 (some ("<".toList ++ "a".toList ++ "><".toList ++ "b".toList ++
        "></".toList ++ "c".toList ++ "></".toList ++ "a".toList ++ ">".toList)) = some d ∧
      d.result = NO_ERROR ∧ d.doc.errorID = NO_ERROR ∧ d.doc.setErrorCalls = 0 ∧
      d.base.children =
        [XMLNode.Element (StrPair.Set 1 (1 + "a".toList.length) StrFlags.zero) false [] false
          [XMLNode.Element (StrPair.Set ("a".toList.length + 3)
            ("a".toList.length + 3 + "b".toList.length) StrFlags.zero) false [] false []]] ∧
      d.content = [Content.Element (some "a".toList) [] [Content.Element (some "b".toList) [] []]] :=
  ⟨by decide, by decide, by decide, by decide, by decide, by decide, by decide,
    mismatched_closing_tag_accepted "a".toList "b".toList "c".toList (by decide) (by decide)
      (by decide) (by decide) (by decide) (by decide) 7 (by decide)⟩

/-! ## `GetStr` stays inside its span -/

theorem peek_append_mid (pre X post : List Char) (i : Nat) (hi : i < X.length) :
    peek (pre ++ X ++ post) (pre.length + i) = peek X i := by
  unfold peek
  rw [List.append_assoc, List.getD_append_right _ _ _ _ (by omega)]
  simp only [Nat.add_sub_cancel_left]
  rw [List.getD_append _ _ _ _ hi]

theorem set_append_mid (pre X post : List Char) (i : Nat) (x : Char) (hi : i < X.length) :
    (pre ++ X ++ post).set (pre.length + i) x = pre ++ X.set i x ++ post := by
  rw [List.append_assoc, List.set_append_right _ _ (by omega)]
  simp only [Nat.add_sub_cancel_left]
  rw [List.set_append_left _ _ hi, List.append_assoc]

theorem drop_append_mid (pre X post : List Char) (i : Nat) (hi : i ≤ X.length) :
    (pre ++ X ++ post).drop (pre.length + i) = X.drop i ++ post := by
  rw [List.append_assoc, ← List.drop_drop, List.drop_left, List.drop_append_of_le_length hi]

/-- Comparing with a pattern never looks behind a null byte. -/
theorem strncmpEq_append : ∀ (Y post pat : List Char) (k : Nat),
    (∀ x ∈ pat, x ≠ NUL) → k ≤ pat.length → Y.getLast? = some NUL →
    strncmpEq (Y ++ post) pat k = strncmpEq Y pat k ∧ (strncmpEq Y pat k = true → k < Y.length)
  | [], _, _, _, _, _, hY => by simp at hY
  | a :: Y, post, pat, 0, _, _, _ => by simp [strncmpEq]
  | a :: Y, post, [], k + 1, _, hk, _ => by simp at hk
  | [a], post, b :: bs, k + 1, hpat, _, hY => by
    have ha : a = NUL := by simpa using hY
    have hb : b ≠ NUL := hpat b (List.mem_cons_self _ _)
    subst ha
    have hne : ¬ (NUL = b) := fun e => hb e.symm
    simp [strncmpEq, hne]
  | a :: a' :: Y, post, b :: bs, k + 1, hpat, hk, hY => by
    have hb : b ≠ NUL := hpat b (List.mem_cons_self _ _)
    have hY' : (a' :: Y).getLast? = some NUL := by simpa [List.getLast?_cons_cons] using hY
    have ih := strncmpEq_append (a' :: Y) post bs k
      (fun x hx => hpat x (List.mem_cons_of_mem _ hx)) (by simpa using hk) hY'
    have e : (a :: a' :: Y ++ post) = a :: (a' :: Y ++ post) := rfl
    rw [e]
    by_cases hab : a = b
    · subst hab
      simp only [strncmpEq, if_true, if_neg hb]
      constructor
      · exact ih.1
      · intro h
        have := ih.2 h
        simp at this ⊢
        omega
    · simp [strncmpEq, hab]

theorem find?_congr' {α : Type} (l : List α) (f g : α → Bool) (h : ∀ x ∈ l, f x = g x) :
    l.find? f = l.find? g := by
  induction l with
  | nil => rfl
  | cons a l ih =>
    simp only [List.find?, h a (List.mem_cons_self _ _)]
    rw [ih (fun x hx => h x (List.mem_cons_of_mem _ hx))]

theorem entities_patterns : ∀ e ∈ entities, (∀ x ∈ e.pattern, x ≠ NUL) ∧ e.length ≤ e.pattern.length := by
  decide

/-- The search of the entity table sees only the bytes of the span. -/
theorem findEntity_local (pre post X : List Char) (n p : Nat) (hlen : X.length = n + 1)
    (hnul : peek X n = NUL) (hp : p < n) :
    StrPair.findEntity (pre ++ X ++ post) (pre.length + p) = StrPair.findEntity X p := by
  unfold StrPair.findEntity
  apply find?_congr'
  intro e he
  obtain ⟨hpat, hk⟩ := entities_patterns e he
  have hdrop : (pre ++ X ++ post).drop (pre.length + p + 1) = X.drop (p + 1) ++ post := by
    rw [Nat.add_assoc]; exact drop_append_mid pre X post (p + 1) (by omega)
  have hlast : (X.drop (p + 1)).getLast? = some NUL := by
    rw [List.getLast?_drop, if_neg (by omega)]
    rw [List.getLast?_eq_getElem?, hlen]
    simp only [Nat.add_sub_cancel]
    unfold peek at hnul
    rw [List.getD_eq_getElem?_getD] at hnul
    have hn : n < X.length := by omega
    rw [List.getElem?_eq_getElem hn] at hnul ⊢
    simpa using hnul
  obtain ⟨h1, h2⟩ := strncmpEq_append (X.drop (p + 1)) post e.pattern e.length hpat hk hlast
  rw [hdrop, h1]
  cases hs : strncmpEq (X.drop (p + 1)) e.pattern e.length with
  | false => simp
  | true =>
    have := h2 hs
    simp only [List.length_drop] at this
    have e2 : pre.length + p + e.length + 1 = pre.length + (p + e.length + 1) := by omega
    rw [e2, peek_append_mid pre X post _ (by omega)]

theorem peek_set_ne (X : List Char) (i j : Nat) (x : Char) (h : i ≠ j) :
    peek (X.set i x) j = peek X j := by
  unfold peek
  rw [List.getD_eq_getElem?_getD, List.getD_eq_getElem?_getD, List.getElem?_set_ne h]

theorem peek_eq_nul_of_le (X : List Char) (i : Nat) (h : X.length ≤ i) : peek X i = NUL := by
  unfold peek
  rw [List.getD_eq_getElem?_getD, List.getElem?_eq_none h]
  rfl

/-- The rewrite loop of `GetStr` reads and writes only inside the span and
its terminating null byte: run on a buffer `pre ++ X ++ post`, where `X` is
the span with its null byte, it does to `X` what it does to `X` alone. -/
theorem GetStr_loop_local (fl : StrFlags) (pre post : List Char) (n : Nat) :
    ∀ (fuel p q : Nat) (X : List Char), X.length = n + 1 → peek X n = NUL → q ≤ p → p ≤ n →
    StrPair.GetStr.loop fl (pre.length + n) fuel (pre.length + p) (pre.length + q)
        (pre ++ X ++ post) =
      (pre ++ (StrPair.GetStr.loop fl n fuel p q X).1 ++ post,
        pre.length + (StrPair.GetStr.loop fl n fuel p q X).2) ∧
    (StrPair.GetStr.loop fl n fuel p q X).2 ≤ n ∧
    (StrPair.GetStr.loop fl n fuel p q X).1.length = n + 1
  | 0, p, q, X, hlen, _, hqp, hpn => by
    simp only [StrPair.GetStr.loop]
    exact ⟨trivial, by omega, hlen⟩
  | fuel + 1, p, q, X, hlen, hnul, hqp, hpn => by
    rw [StrPair.GetStr.loop, StrPair.GetStr.loop]
    by_cases hp : p < n
    · have hp' : pre.length + p < pre.length + n := by omega
      rw [if_pos hp, if_pos hp']
      have hq : q < X.length := by omega
      have hr0 : peek (pre ++ X ++ post) (pre.length + p) = peek X p :=
        peek_append_mid pre X post p (by omega)
      have hr1 : peek (pre ++ X ++ post) (pre.length + p + 1) = peek X (p + 1) := by
        rw [Nat.add_assoc]; exact peek_append_mid pre X post (p + 1) (by omega)
      have hfe := findEntity_local pre post X n p hlen hnul hp
      have hset : ∀ x, (pre ++ X ++ post).set (pre.length + q) x = pre ++ X.set q x ++ post :=
        fun x => set_append_mid pre X post q x hq
      have hlen' : ∀ x, (X.set q x).length = n + 1 := fun x => by simpa using hlen
      have hnul' : ∀ x, peek (X.set q x) n = NUL := fun x => by
        rw [peek_set_ne _ _ _ _ (by omega)]; exact hnul
      have hnext : ∀ c, c ≠ NUL → peek X (p + 1) = c → p + 2 ≤ n := by
        intro c hc hpk
        by_contra hcon
        have : p + 1 = n := by omega
        rw [this, hnul] at hpk
        exact hc hpk.symm
      rw [hr0, hr1, hfe]
      simp only [hset]
      have e1 : pre.length + p + 1 = pre.length + (p + 1) := by omega
      have e2 : pre.length + p + 2 = pre.length + (p + 2) := by omega
      have e3 : pre.length + q + 1 = pre.length + (q + 1) := by omega
      rw [e1, e2, e3]
      split
      · split
        · rename_i _ h2
          exact GetStr_loop_local fl pre post n fuel (p + 2) q _ (hlen' _) (hnul' _) (by omega)
            (hnext LF (by decide) (by simpa using h2))
        · exact GetStr_loop_local fl pre post n fuel (p + 1) q _ (hlen' _) (hnul' _) (by omega)
            (by omega)
      · split
        · split
          · rename_i _ _ h2
            exact GetStr_loop_local fl pre post n fuel (p + 2) q _ (hlen' _) (hnul' _) (by omega)
              (hnext CR (by decide) (by simpa using h2))
          · exact GetStr_loop_local fl pre post n fuel (p + 1) q _ (hlen' _) (hnul' _) (by omega)
              (by omega)
        · split
          · cases hfind : StrPair.findEntity X p with
            | none =>
              dsimp only
              exact GetStr_loop_local fl pre post n fuel (p + 1) (q + 1) X hlen hnul (by omega)
                (by omega)
            | some e =>
              dsimp only
              have e4 : pre.length + p + e.length + 2 = pre.length + (p + e.length + 2) := by omega
              rw [e4]
              have hsemi : peek X (p + e.length + 1) = ';' := by
                unfold StrPair.findEntity at hfind
                have := List.find?_some hfind
                simp only [Bool.and_eq_true, beq_iff_eq] at this
                exact this.2
              have hb : p + e.length + 1 < n := by
                by_contra hcon
                rcases Nat.lt_or_ge (p + e.length + 1) (n + 1) with h | h
                · have : p + e.length + 1 = n := by omega
                  rw [this, hnul] at hsemi
                  revert hsemi; decide
                · rw [peek_eq_nul_of_le X _ (by omega)] at hsemi
                  revert hsemi; decide
              exact GetStr_loop_local fl pre post n fuel (p + e.length + 2) (q + 1) _ (hlen' _)
                (hnul' _) (by omega) (by omega)
          · exact GetStr_loop_local fl pre post n fuel (p + 1) (q + 1) _ (hlen' _) (hnul' _)
              (by omega) (by omega)
    · have hp' : ¬ pre.length + p < pre.length + n := by omega
      rw [if_neg hp, if_neg hp']
      exact ⟨rfl, by omega, hlen⟩

theorem cstrOf_append_of_mem (A B : List Char) (h : NUL ∈ A) : cstrOf (A ++ B) = cstrOf A := by
  induction A with
  | nil => simp at h
  | cons a A ih =>
    have e : (a :: A ++ B) = a :: (A ++ B) := rfl
    rw [e, cstrOf, cstrOf]
    by_cases ha : a = NUL
    · rw [if_pos ha, if_pos ha]
    · rw [if_neg ha, if_neg ha]
      have : NUL ∈ A := by
        rcases List.mem_cons.1 h with h | h
        · exact absurd h.symm ha
        · exact h
      rw [ih this]

theorem mem_set_self (X : List Char) (i : Nat) (x : Char) (h : i < X.length) : x ∈ X.set i x := by
  rw [List.mem_iff_getElem]
  exact ⟨i, by simpa using h, by simp⟩

/-- The buffer after `GetStr` on a span that was just set. -/
theorem StrPair.GetStr_Set (buf : List Char) (s e : Nat) (flags : StrFlags) :
    StrPair.GetStr buf (StrPair.Set s e flags) =
      ((if flags.orFlush.xorFlush.nonzero then
          ((StrPair.GetStr.loop flags.orFlush.xorFlush e (e - s) s s (buf.set e NUL)).1.set
            (StrPair.GetStr.loop flags.orFlush.xorFlush e (e - s) s s (buf.set e NUL)).2 NUL)
        else buf.set e NUL),
       { StrPair.Set s e flags with flags := StrFlags.zero }, some s) := by
  simp only [StrPair.GetStr, StrPair.Set, StrFlags.orFlush, if_true]
  split <;> rfl

/-- The text of a span that was just set. -/
theorem StrPair.text_Set (buf : List Char) (s e : Nat) (flags : StrFlags) :
    StrPair.text buf (StrPair.Set s e flags) =
      some (cstr (if flags.orFlush.xorFlush.nonzero then
          ((StrPair.GetStr.loop flags.orFlush.xorFlush e (e - s) s s (buf.set e NUL)).1.set
            (StrPair.GetStr.loop flags.orFlush.xorFlush e (e - s) s s (buf.set e NUL)).2 NUL)
        else buf.set e NUL) s) := by
  rw [StrPair.text, StrPair.GetStr_Set]

/-- The text of a span depends on the bytes of the span only: it is the text
of the same bytes in a buffer of their own. -/
theorem StrPair.text_local {buf : List Char} {s : Nat} {v : List Char} {c : Char}
    {r : List Char} (h : buf.drop s = v ++ c :: r) (flags : StrFlags) :
    StrPair.text buf (StrPair.Set s (s + v.length) flags) =
      StrPair.text (v ++ [NUL]) (StrPair.Set 0 v.length flags) := by
  have hs : s ≤ buf.length := by
    by_contra hcon
    rw [List.drop_eq_nil_of_le (by omega)] at h
    simp at h
  have hbuf : buf = buf.take s ++ (v ++ [c]) ++ r := by
    conv_lhs => rw [← List.take_append_drop s buf, h]
    simp
  have hpre : (buf.take s).length = s := by simp [hs]
  generalize buf.take s = pre at hbuf hpre
  subst hbuf
  subst hpre
  have hset1 : (pre ++ (v ++ [c]) ++ r).set (pre.length + v.length) NUL = pre ++ (v ++ [NUL]) ++ r := by
    rw [set_append_mid pre (v ++ [c]) r v.length NUL (by simp)]
    congr 2
    rw [List.set_append_right _ _ (le_refl _)]
    simp
  have hset2 : (v ++ [NUL]).set v.length NUL = v ++ [NUL] := by
    rw [List.set_append_right _ _ (le_refl _)]
    simp
  have hpk : peek (v ++ [NUL]) v.length = NUL := by
    unfold peek
    rw [List.getD_append_right _ _ _ _ (le_refl _)]
    simp
  rw [StrPair.text_Set, StrPair.text_Set, hset1, hset2]
  by_cases hnz : flags.orFlush.xorFlush.nonzero = true
  · -- some flag is pending: the loop runs
    rw [if_pos hnz, if_pos hnz]
    have hl := GetStr_loop_local flags.orFlush.xorFlush
      pre r v.length v.length 0 0 (v ++ [NUL]) (by simp) hpk (le_refl _) (Nat.zero_le _)
    obtain ⟨h1, h2, h3⟩ := hl
    simp only [Nat.add_zero] at h1
    simp only [Nat.add_sub_cancel_left, Nat.sub_zero, h1]
    rw [set_append_mid pre _ r _ NUL (by omega)]
    simp only [cstr]
    rw [List.append_assoc, List.drop_left, List.drop_zero]
    exact congrArg some (cstrOf_append_of_mem _ _ (mem_set_self _ _ _ (by omega)))
  · rw [if_neg hnz, if_neg hnz]
    simp only [cstr]
    rw [List.append_assoc, List.drop_left, List.drop_zero]
    exact congrArg some (cstrOf_append_of_mem _ _ (by simp))

/-! ## Encoding and decoding entities (claim C4) -/

theorem entityFlag_cases : ∀ n, n < ENTITY_RANGE →
    (XMLStreamer.init.entityFlag.getD n false = true ↔
      (n = 34 ∨ n = 38 ∨ n = 39 ∨ n = 60 ∨ n = 62)) := by
  decide

theorem char_eq_of_toNat {c : Char} {n : Nat} (h : c.toNat = n) : c = Char.ofNat n := by
  rw [← h, Char.ofNat_toNat]

/-- The table lookup of `PrintString` answers whether the byte is one of the
five reserved characters. -/
theorem flagged_iff (c : Char) :
    (decide (c.toNat < ENTITY_RANGE) && XMLStreamer.init.entityFlag.getD c.toNat false) =
      isReserved c := by
  by_cases hlt : c.toNat < ENTITY_RANGE
  · have h := entityFlag_cases c.toNat hlt
    cases hf : XMLStreamer.init.entityFlag.getD c.toNat false with
    | true =>
      rcases h.1 hf with e | e | e | e | e
      all_goals
        have hce := char_eq_of_toNat e
        subst hce
        rfl
    | false =>
      have hn : ¬ (c.toNat = 34 ∨ c.toNat = 38 ∨ c.toNat = 39 ∨ c.toNat = 60 ∨ c.toNat = 62) :=
        fun hh => by rw [h.2 hh] at hf; exact Bool.noConfusion hf
      simp only [hlt, decide_True, Bool.true_and]
      symm
      unfold isReserved
      simp only [Bool.or_eq_false_iff, decide_eq_false_iff_not]
      refine ⟨⟨⟨⟨?_, ?_⟩, ?_⟩, ?_⟩, ?_⟩ <;> (rintro rfl; exact hn (by decide))
  · simp only [hlt, decide_False, Bool.false_and]
    symm
    unfold isReserved
    simp only [Bool.or_eq_false_iff, decide_eq_false_iff_not]
    refine ⟨⟨⟨⟨?_, ?_⟩, ?_⟩, ?_⟩, ?_⟩ <;> (rintro rfl; exact hlt (by decide))

theorem entityText_of_reserved {c : Char} (h : isReserved c = true) :
    XMLStreamer.entityText c = escapeChar c := by
  unfold isReserved at h
  simp only [Bool.or_eq_true, decide_eq_true_eq] at h
  rcases h with (((rfl | rfl) | rfl) | rfl) | rfl <;> rfl

theorem escapeChar_of_not_reserved {c : Char} (h : isReserved c = false) : escapeChar c = [c] := by
  unfold isReserved at h
  simp only [Bool.or_eq_false_iff, decide_eq_false_iff_not] at h
  obtain ⟨⟨⟨⟨h1, h2⟩, h3⟩, h4⟩, h5⟩ := h
  simp [escapeChar, h1, h2, h3, h4, h5]

theorem take_succ_of_drop {str : List Char} {p q : Nat} {c : Char} {cs : List Char}
    (h : str.drop q = c :: cs) (hpq : p ≤ q) :
    (str.drop p).take (q + 1 - p) = (str.drop p).take (q - p) ++ [c] := by
  have hd : (str.drop p).drop (q - p) = c :: cs := by
    rw [List.drop_drop]
    have : p + (q - p) = q := by omega
    rw [this, h]
  have e : q + 1 - p = (q - p) + 1 := by omega
  rw [e, List.take_succ]
  congr 1
  rw [← List.head?_drop, hd]
  rfl

theorem charInt_of_lt {c : Char} (h : c.toNat < 128) : charInt c = (c.toNat : Int) := by
  unfold charInt
  have e : c.toNat % 256 = c.toNat := Nat.mod_eq_of_lt (by omega)
  rw [e, if_pos h]

/-- One turn of the loop of `PrintString` at a 7-bit byte other than the null
byte. -/
theorem PrintString_loop_step (str : List Char) {c : Char} (cs : List Char) (p q : Nat)
    (out : List Char) (hc : c ≠ NUL) (h7 : c.toNat < 128) :
    XMLStreamer.PrintString.loop XMLStreamer.init.entityFlag str (c :: cs) p q out =
      if isReserved c then
        XMLStreamer.PrintString.loop XMLStreamer.init.entityFlag str cs (max p q + 1) (q + 1)
          (out ++ (str.drop p).take (q - p) ++ XMLStreamer.entityText c)
      else XMLStreamer.PrintString.loop XMLStreamer.init.entityFlag str cs p (q + 1) out := by
  rw [XMLStreamer.PrintString.loop, if_neg hc, charInt_of_lt h7]
  have hnn : ¬ ((c.toNat : Int) < 0) := by omega
  rw [if_neg hnn, Int.toNat_ofNat]
  have hf := flagged_iff c
  by_cases hlt : c.toNat < ENTITY_RANGE
  · rw [if_pos (by exact_mod_cast hlt)]
    simp only [hlt, decide_True, Bool.true_and] at hf
    rw [hf]
  · rw [if_neg (by exact_mod_cast hlt)]
    simp only [hlt, decide_False, Bool.false_and] at hf
    rw [← hf]
    simp

/-- The loop of `PrintString` over 7-bit bytes returns, and what is written,
together with the bytes still held back between the cursors, is the reference
encoding. -/
theorem PrintString_loop_eq (str : List Char) : ∀ (rest : List Char) (p q : Nat)
    (out : List Char), str.drop q = rest → p ≤ q → (∀ x ∈ rest, x ≠ NUL ∧ x.toNat < 128) →
    ∃ r, XMLStreamer.PrintString.loop XMLStreamer.init.entityFlag str rest p q out = some r ∧
      r.1 ++ str.drop r.2.1 = out ++ (str.drop p).take (q - p) ++ escapeRef rest ∧
      str.length ≤ r.2.2
  | [], p, q, out, h, hpq, _ => by
    refine ⟨(out, p, q), rfl, ?_, List.drop_eq_nil_iff.1 h⟩
    have hq : str.length ≤ q := List.drop_eq_nil_iff.1 h
    simp only [escapeRef, List.append_nil]
    congr 1
    rw [List.take_of_length_le (by simp; omega)]
  | c :: cs, p, q, out, h, hpq, hn => by
    have hc := hn c (List.mem_cons_self _ _)
    have hd1 : str.drop (q + 1) = cs := drop_succ_of_drop h
    rw [PrintString_loop_step str cs p q out hc.1 hc.2]
    cases hr : isReserved c with
    | true =>
      simp only [if_true]
      have hmax : max p q = q := Nat.max_eq_right hpq
      rw [hmax]
      obtain ⟨r, hr1, hr2, hr3⟩ := PrintString_loop_eq str cs (q + 1) (q + 1)
        (out ++ (str.drop p).take (q - p) ++ XMLStreamer.entityText c) hd1 (le_refl _)
        (fun x hx => hn x (List.mem_cons_of_mem _ hx))
      refine ⟨r, hr1, ?_, hr3⟩
      rw [hr2, entityText_of_reserved hr]
      simp [escapeRef]
    | false =>
      simp only [Bool.false_eq_true, if_false]
      obtain ⟨r, hr1, hr2, hr3⟩ := PrintString_loop_eq str cs p (q + 1) out hd1 (by omega)
        (fun x hx => hn x (List.mem_cons_of_mem _ hx))
      refine ⟨r, hr1, ?_, hr3⟩
      rw [hr2, take_succ_of_drop h hpq, escapeRef, escapeChar_of_not_reserved hr]
      simp

/-- `PrintString` on a string of 7-bit bytes returns and appends the reference
encoding of the string. -/
theorem PrintString_eq (st : XMLStreamer) (hflag : st.entityFlag = XMLStreamer.init.entityFlag)
    (s : List Char) (hs : ∀ x ∈ s, x ≠ NUL ∧ x.toNat < 128) :
    (st.PrintString s).map (fun r => r.fp) = some (st.fp ++ escapeRef s) := by
  obtain ⟨r, hr, h1, h2⟩ := PrintString_loop_eq s s 0 0 [] rfl (le_refl _) hs
  simp only [List.drop_zero, Nat.sub_self, List.take_zero, List.append_nil, List.nil_append] at h1
  unfold XMLStreamer.PrintString
  rw [hflag, hr]
  dsimp only
  split
  · simp only [XMLStreamer.write, cstr, Option.map_some']
    rw [cstrOf_of_no_nul _ (fun x hx => (hs x (List.mem_of_mem_drop hx)).1), List.append_assoc, h1]
  · rename_i hle
    simp only [XMLStreamer.write, Option.map_some']
    have hnil : s.drop r.2.1 = [] := List.drop_eq_nil_iff.2 (by omega)
    rw [hnil, List.append_nil] at h1
    rw [h1]

theorem entities_eq : entities =
    [⟨['q', 'u', 'o', 't'], 4, '"'⟩, ⟨['a', 'm', 'p'], 3, '&'⟩, ⟨['a', 'p', 'o', 's'], 4, '\''⟩,
     ⟨['l', 't'], 2, '<'⟩, ⟨['g', 't'], 2, '>'⟩] := rfl

/-- At the entity spelling of a reserved character the search of the table
finds the entry of that character. -/
theorem findEntity_of_escape {B : List Char} {p : Nat} {c : Char} {rest : List Char}
    (hr : isReserved c = true) (h : B.drop p = escapeChar c ++ rest) :
    ∃ e, StrPair.findEntity B p = some e ∧ e.value = c ∧ e.length + 2 = (escapeChar c).length := by
  unfold isReserved at hr
  simp only [Bool.or_eq_true, decide_eq_true_eq] at hr
  unfold StrPair.findEntity
  rw [entities_eq]
  rcases hr with (((rfl | rfl) | rfl) | rfl) | rfl
  · have h' : B.drop p = '&' :: 'q' :: 'u' :: 'o' :: 't' :: ';' :: rest := h
    have hd1 := drop_succ_of_drop h'
    have hk : peek B (p + 4 + 1) = ';' :=
      peek_of_drop (drop_add_of_drop ['&', 'q', 'u', 'o', 't'] (r := ';' :: rest) h')
    refine ⟨⟨['q', 'u', 'o', 't'], 4, '"'⟩, ?_, rfl, rfl⟩
    simp [List.find?, hd1, hk, strncmpEq, NUL]
  · have h' : B.drop p = '&' :: 'a' :: 'm' :: 'p' :: ';' :: rest := h
    have hd1 := drop_succ_of_drop h'
    have hk : peek B (p + 3 + 1) = ';' :=
      peek_of_drop (drop_add_of_drop ['&', 'a', 'm', 'p'] (r := ';' :: rest) h')
    refine ⟨⟨['a', 'm', 'p'], 3, '&'⟩, ?_, rfl, rfl⟩
    simp [List.find?, hd1, hk, strncmpEq, NUL]
  · have h' : B.drop p = '&' :: 'a' :: 'p' :: 'o' :: 's' :: ';' :: rest := h
    have hd1 := drop_succ_of_drop h'
    have hk : peek B (p + 4 + 1) = ';' :=
      peek_of_drop (drop_add_of_drop ['&', 'a', 'p', 'o', 's'] (r := ';' :: rest) h')
    refine ⟨⟨['a', 'p', 'o', 's'], 4, '\''⟩, ?_, rfl, rfl⟩
    simp [List.find?, hd1, hk, strncmpEq, NUL]
  · have h' : B.drop p = '&' :: 'l' :: 't' :: ';' :: rest := h
    have hd1 := drop_succ_of_drop h'
    have hk : peek B (p + 2 + 1) = ';' :=
      peek_of_drop (drop_add_of_drop ['&', 'l', 't'] (r := ';' :: rest) h')
    refine ⟨⟨['l', 't'], 2, '<'⟩, ?_, rfl, rfl⟩
    simp [List.find?, hd1, hk, strncmpEq, NUL]
  · have h' : B.drop p = '&' :: 'g' :: 't' :: ';' :: rest := h
    have hd1 := drop_succ_of_drop h'
    have hk : peek B (p + 2 + 1) = ';' :=
      peek_of_drop (drop_add_of_drop ['&', 'g', 't'] (r := ';' :: rest) h')
    refine ⟨⟨['g', 't'], 2, '>'⟩, ?_, rfl, rfl⟩
    simp [List.find?, hd1, hk, strncmpEq, NUL]

theorem escapeChar_head {c : Char} (hr : isReserved c = true) :
    ∃ t, escapeChar c = '&' :: t := by
  unfold isReserved at hr
  simp only [Bool.or_eq_true, decide_eq_true_eq] at hr
  rcases hr with (((rfl | rfl) | rfl) | rfl) | rfl <;> exact ⟨_, rfl⟩

/-- One turn of the rewrite loop at the encoding of a byte `c` that is no
line end: `c` is written and the read cursor moves over the encoding. -/
theorem GetStr_loop_step_escape (fl : StrFlags) (hfl : fl.NEEDS_ENTITY_PROCESSING = true)
    {B : List Char} {p q stop fuel : Nat} {c : Char} {rest : List Char}
    (hcr : c ≠ CR) (hlf : c ≠ LF) (h : B.drop p = escapeChar c ++ rest) (hp : p < stop) :
    StrPair.GetStr.loop fl stop (fuel + 1) p q B =
      StrPair.GetStr.loop fl stop fuel (p + (escapeChar c).length) (q + 1) (B.set q c) := by
  rw [StrPair.GetStr.loop, if_pos hp]
  cases hr : isReserved c with
  | true =>
    obtain ⟨t, ht⟩ := escapeChar_head hr
    have hpk : peek B p = '&' := peek_of_drop (by rw [h, ht]; rfl)
    obtain ⟨e, he, hv, hl⟩ := findEntity_of_escape hr h
    have h1 : ('&' == CR) = false := by decide
    have h2 : ('&' == LF) = false := by decide
    simp only [hpk, h1, h2, Bool.and_false, Bool.false_eq_true, if_false, hfl, beq_self_eq_true,
      Bool.and_self, if_true, he, hv]
    rw [← hl, Nat.add_assoc]
  | false =>
    have hesc := escapeChar_of_not_reserved hr
    have hpk : peek B p = c := peek_of_drop (by rw [h, hesc]; rfl)
    have hamp : c ≠ '&' := by
      rintro rfl; revert hr; decide
    have h1 : (c == CR) = false := by simpa using hcr
    have h2 : (c == LF) = false := by simpa using hlf
    have h3 : (c == '&') = false := by simpa using hamp
    simp only [hpk, hesc, List.length_singleton, h1, h2, h3, Bool.and_false,
      Bool.false_eq_true, if_false]

theorem escapeChar_length_pos (c : Char) : 0 < (escapeChar c).length := by
  unfold escapeChar
  split_ifs <;> simp [String.toList]

theorem length_le_escapeRef : ∀ s : List Char, s.length ≤ (escapeRef s).length
  | [] => le_refl _
  | c :: cs => by
    have := length_le_escapeRef cs
    have := escapeChar_length_pos c
    simp only [escapeRef, List.length_cons, List.length_append]
    omega

theorem take_succ_set (B : List Char) (q : Nat) (c : Char) (hq : q < B.length) :
    (B.set q c).take (q + 1) = B.take q ++ [c] := by
  rw [List.set_eq_take_append_cons_drop, if_pos hq]
  rw [List.take_append_eq_append_take]
  simp [List.length_take, Nat.min_eq_left (Nat.le_of_lt hq)]

/-- The rewrite loop over the reference encoding of `s2`: it writes `s2` at
the write cursor. -/
theorem GetStr_loop_escape (fl : StrFlags) (hfl : fl.NEEDS_ENTITY_PROCESSING = true) :
    ∀ (s2 : List Char) (fuel p q : Nat) (B tail : List Char),
    (∀ c ∈ s2, c ≠ CR ∧ c ≠ LF) → B.drop p = escapeRef s2 ++ tail → tail ≠ [] → q ≤ p →
    (escapeRef s2).length ≤ fuel →
    (StrPair.GetStr.loop fl (p + (escapeRef s2).length) fuel p q B).2 = q + s2.length ∧
    (StrPair.GetStr.loop fl (p + (escapeRef s2).length) fuel p q B).1.length = B.length ∧
    (StrPair.GetStr.loop fl (p + (escapeRef s2).length) fuel p q B).1.take (q + s2.length) =
      B.take q ++ s2
  | [], fuel, p, q, B, tail, _, _, _, _, _ => by
    have : StrPair.GetStr.loop fl (p + (escapeRef []).length) fuel p q B = (B, q) := by
      cases fuel with
      | zero => rfl
      | succ f => rw [StrPair.GetStr.loop, if_neg (by simp [escapeRef])]
    rw [this]
    simp
  | c :: s2, 0, p, q, B, tail, _, _, _, _, hf => by
    have := escapeChar_length_pos c
    simp only [escapeRef, List.length_append] at hf
    omega
  | c :: s2, fuel + 1, p, q, B, tail, hs, h, htail, hqp, hf => by
    have hc := hs c (List.mem_cons_self _ _)
    have hpos := escapeChar_length_pos c
    have h' : B.drop p = escapeChar c ++ (escapeRef s2 ++ tail) := by
      rw [h]; simp [escapeRef]
    have hlen : (escapeRef (c :: s2)).length = (escapeChar c).length + (escapeRef s2).length := by
      simp [escapeRef]
    have hpB : p < B.length := by
      by_contra hcon
      rw [List.drop_eq_nil_of_le (by omega)] at h'
      have := congrArg List.length h'
      simp at this
      omega
    rw [GetStr_loop_step_escape fl hfl hc.1 hc.2 h' (by omega)]
    have hd : (B.set q c).drop (p + (escapeChar c).length) = escapeRef s2 ++ tail := by
      rw [List.drop_set, if_pos (by omega)]
      exact drop_add_of_drop _ h'
    have hstop : p + (escapeRef (c :: s2)).length =
        p + (escapeChar c).length + (escapeRef s2).length := by omega
    rw [hstop]
    obtain ⟨i1, i2, i3⟩ := GetStr_loop_escape fl hfl s2 fuel (p + (escapeChar c).length) (q + 1)
      (B.set q c) tail (fun x hx => hs x (List.mem_cons_of_mem _ hx)) hd htail (by omega)
      (by omega)
    refine ⟨?_, ?_, ?_⟩
    · rw [i1]; simp; omega
    · rw [i2]; simp
    · have e : q + (c :: s2).length = q + 1 + s2.length := by simp; omega
      rw [e, i3, take_succ_set B q c (by omega)]
      simp

/-- A span that holds the reference encoding of `s` reads as `s`. -/
theorem StrPair.text_escapeRef (s : List Char) (hs : ∀ c ∈ s, c ≠ NUL ∧ c ≠ CR ∧ c ≠ LF)
    (flags : StrFlags) (hfl : flags.NEEDS_ENTITY_PROCESSING = true)
    {buf : List Char} {start : Nat} {c : Char} {rest : List Char}
    (hbuf : buf.drop start = escapeRef s ++ c :: rest) :
    StrPair.text buf (StrPair.Set start (start + (escapeRef s).length) flags) = some s := by
  rw [StrPair.text_local hbuf, StrPair.text_Set]
  have hnz : flags.orFlush.xorFlush.nonzero = true := by
    simp [StrFlags.nonzero, StrFlags.orFlush, StrFlags.xorFlush, hfl]
  have hset : (escapeRef s ++ [NUL]).set (escapeRef s).length NUL = escapeRef s ++ [NUL] := by
    rw [List.set_append_right _ _ (le_refl _)]
    simp
  rw [if_pos hnz, hset]
  obtain ⟨i1, i2, i3⟩ := GetStr_loop_escape flags.orFlush.xorFlush hfl s (escapeRef s).length 0 0
    (escapeRef s ++ [NUL]) [NUL] (fun x hx => (hs x hx).2) rfl (by simp) (le_refl _) (le_refl _)
  simp only [Nat.zero_add, Nat.sub_zero, List.take_zero, List.nil_append] at i1 i2 i3 ⊢
  rw [i1]
  have hle := length_le_escapeRef s
  generalize (StrPair.GetStr.loop flags.orFlush.xorFlush (escapeRef s).length (escapeRef s).length 0 0
    (escapeRef s ++ [NUL])).1 = R at i2 i3
  have hR : R = s ++ R.drop s.length := by
    conv_lhs => rw [← List.take_append_drop s.length R, i3]
  have hRlen : s.length < R.length := by rw [i2]; simp; omega
  simp only [cstr, List.drop_zero]
  rw [hR, List.set_append_right _ _ (le_refl _)]
  simp only [Nat.sub_self]
  have hdne : ∃ x xs, R.drop s.length = x :: xs := by
    cases hd : R.drop s.length with
    | nil =>
      have := List.drop_eq_nil_iff.1 hd
      omega
    | cons x xs => exact ⟨x, xs, rfl⟩
  obtain ⟨x, xs, hx⟩ := hdne
  rw [hx, List.set_cons_zero, cstrOf_append_nul s xs (fun y hy => (hs y hy).1)]

/-- Claim C4: for every value `s` of 7-bit bytes other than the null byte,
CR and LF, `PrintString` returns and appends to the output the bytes of `s` in
order with each of the five reserved characters written as its `&name;` form,
and a span that holds exactly these written bytes (followed by any one byte,
in any buffer), read by `GetStr` with entity decoding pending, gives back
`s`. -/
theorem entity_round_trip (s : List Char)
    (hs : ∀ c ∈ s, c ≠ NUL ∧ c.toNat < 128 ∧ c ≠ CR ∧ c ≠ LF)
    (st : XMLStreamer) (hst : st.entityFlag = XMLStreamer.init.entityFlag)
    (flags : StrFlags) (hfl : flags.NEEDS_ENTITY_PROCESSING = true) :
    (st.PrintString s).map (fun r => r.fp) = some (st.fp ++ escapeRef s) ∧
    ∀ st1, st.PrintString s = some st1 →
      ∀ (buf : List Char) (start : Nat) (c : Char) (rest : List Char),
        buf.drop start = st1.fp.drop st.fp.length ++ c :: rest →
        StrPair.text buf (StrPair.Set start (start + (st1.fp.drop st.fp.length).length) flags) =
          some s := by
  have h1 := PrintString_eq st hst s (fun x hx => ⟨(hs x hx).1, (hs x hx).2.1⟩)
  refine ⟨h1, ?_⟩
  intro st1 hst1 buf start c rest hbuf
  rw [hst1, Option.map_some', Option.some.injEq] at h1
  rw [h1, List.drop_left] at hbuf ⊢
  exact StrPair.text_escapeRef s (fun x hx => ⟨(hs x hx).1, (hs x hx).2.2.1, (hs x hx).2.2.2⟩)
    flags hfl hbuf

/-- Claim C4 at the value `a<b & "c"'`, printed by a fresh streamer and read
back as the text of an element. -/
theorem entity_round_trip_witness :
    (∀ c ∈ "a<b & \"c\"'".toList, c ≠ NUL ∧ c.toNat < 128 ∧ c ≠ CR ∧ c ≠ LF) ∧
    XMLStreamer.init.entityFlag = XMLStreamer.init.entityFlag ∧
    TEXT_ELEMENT.NEEDS_ENTITY_PROCESSING = true ∧
    (XMLStreamer.init.PrintString "a<b & \"c\"'".toList).map (fun r => r.fp) =
      some (XMLStreamer.init.fp ++ escapeRef "a<b & \"c\"'".toList) ∧
    ∀ st1, XMLStreamer.init.PrintString "a<b & \"c\"'".toList = some st1 →
      ∀ (buf : List Char) (start : Nat) (c : Char) (rest : List Char),
        buf.drop start = st1.fp.drop XMLStreamer.init.fp.length ++ c :: rest →
        StrPair.text buf (StrPair.Set start
          (start + (st1.fp.drop XMLStreamer.init.fp.length).length) TEXT_ELEMENT) =
          some "a<b & \"c\"'".toList :=
  ⟨by decide, rfl, rfl,
    entity_round_trip "a<b & \"c\"'".toList (by decide) XMLStreamer.init rfl TEXT_ELEMENT rfl⟩

/-! ## Plain values -/

/-- One turn of the rewrite loop at a byte that is no `&` and no line end:
the byte is copied. -/
theorem GetStr_loop_step_copy (fl : StrFlags) {B : List Char} {p q stop fuel : Nat} {c : Char}
    {rest : List Char} (hamp : c ≠ '&') (hcr : c ≠ CR) (hlf : c ≠ LF)
    (h : B.drop p = c :: rest) (hp : p < stop) :
    StrPair.GetStr.loop fl stop (fuel + 1) p q B =
      StrPair.GetStr.loop fl stop fuel (p + 1) (q + 1) (B.set q c) := by
  rw [StrPair.GetStr.loop, if_pos hp]
  have hpk : peek B p = c := peek_of_drop h
  have h1 : (c == CR) = false := by simpa using hcr
  have h2 : (c == LF) = false := by simpa using hlf
  have h3 : (c == '&') = false := by simpa using hamp
  simp only [hpk, h1, h2, h3, Bool.and_false, Bool.false_eq_true, if_false]

/-- The rewrite loop over bytes without `&` and line ends copies them. -/
theorem GetStr_loop_plain (fl : StrFlags) :
    ∀ (v : List Char) (fuel p q : Nat) (B tail : List Char),
    (∀ c ∈ v, c ≠ '&' ∧ c ≠ CR ∧ c ≠ LF) → B.drop p = v ++ tail → tail ≠ [] → q ≤ p →
    v.length ≤ fuel →
    (StrPair.GetStr.loop fl (p + v.length) fuel p q B).2 = q + v.length ∧
    (StrPair.GetStr.loop fl (p + v.length) fuel p q B).1.length = B.length ∧
    (StrPair.GetStr.loop fl (p + v.length) fuel p q B).1.take (q + v.length) = B.take q ++ v
  | [], fuel, p, q, B, tail, _, _, _, _, _ => by
    have : StrPair.GetStr.loop fl (p + ([] : List Char).length) fuel p q B = (B, q) := by
      cases fuel with
      | zero => rfl
      | succ f => rw [StrPair.GetStr.loop, if_neg (by simp)]
    rw [this]
    simp
  | c :: v, 0, p, q, B, tail, _, _, _, _, hf => by simp at hf
  | c :: v, fuel + 1, p, q, B, tail, hs, h, htail, hqp, hf => by
    have hc := hs c (List.mem_cons_self _ _)
    have h' : B.drop p = c :: (v ++ tail) := by rw [h]; rfl
    have hpB : p < B.length := by
      by_contra hcon
      rw [List.drop_eq_nil_of_le (by omega)] at h'
      exact List.noConfusion h'
    rw [GetStr_loop_step_copy fl hc.1 hc.2.1 hc.2.2 h' (by simp)]
    have hd : (B.set q c).drop (p + 1) = v ++ tail := by
      rw [List.drop_set, if_pos (by omega)]
      exact drop_succ_of_drop h'
    have hstop : p + (c :: v).length = p + 1 + v.length := by simp; omega
    rw [hstop]
    obtain ⟨i1, i2, i3⟩ := GetStr_loop_plain fl v fuel (p + 1) (q + 1) (B.set q c) tail
      (fun x hx => hs x (List.mem_cons_of_mem _ hx)) hd htail (by omega) (by simpa using hf)
    refine ⟨?_, ?_, ?_⟩
    · rw [i1]; simp; omega
    · rw [i2]; simp
    · have e : q + (c :: v).length = q + 1 + v.length := by simp; omega
      rw [e, i3, take_succ_set B q c (by omega)]
      simp

/-- A span of bytes without a null byte, `&` and line ends, alone in a
buffer, reads as these bytes. -/
theorem text_alone_plain (flags : StrFlags) (v : List Char)
    (hv : ∀ c ∈ v, c ≠ NUL ∧ c ≠ '&' ∧ c ≠ CR ∧ c ≠ LF) :
    StrPair.text (v ++ [NUL]) (StrPair.Set 0 v.length flags) = some v := by
  rw [StrPair.text_Set]
  have hset : (v ++ [NUL]).set v.length NUL = v ++ [NUL] := by
    rw [List.set_append_right _ _ (le_refl _)]
    simp
  rw [hset]
  by_cases hnz : flags.orFlush.xorFlush.nonzero = true
  · rw [if_pos hnz]
    obtain ⟨i1, i2, i3⟩ := GetStr_loop_plain flags.orFlush.xorFlush v v.length 0 0
      (v ++ [NUL]) [NUL] (fun x hx => (hv x hx).2) rfl (by simp) (le_refl _) (le_refl _)
    simp only [Nat.zero_add, Nat.sub_zero, List.take_zero, List.nil_append] at i1 i2 i3 ⊢
    rw [i1]
    generalize (StrPair.GetStr.loop flags.orFlush.xorFlush v.length v.length 0 0 (v ++ [NUL])).1 = R
      at i2 i3
    have hR : R = v ++ R.drop v.length := by
      conv_lhs => rw [← List.take_append_drop v.length R, i3]
    have hdne : ∃ x xs, R.drop v.length = x :: xs := by
      cases hd : R.drop v.length with
      | nil =>
        have := List.drop_eq_nil_iff.1 hd
        rw [i2] at this
        simp at this
      | cons x xs => exact ⟨x, xs, rfl⟩
    obtain ⟨x, xs, hx⟩ := hdne
    simp only [cstr, List.drop_zero]
    rw [hR, List.set_append_right _ _ (le_refl _)]
    simp only [Nat.sub_self]
    rw [hx, List.set_cons_zero, cstrOf_append_nul v xs (fun y hy => (hv y hy).1)]
  · rw [if_neg hnz]
    simp only [cstr, List.drop_zero]
    rw [cstrOf_append_nul v [] (fun y hy => (hv y hy).1)]

/-- The decoding of the spec keeps bytes that are no `&` and no line end. -/
theorem decodeRef_plain : ∀ (v : List Char), (∀ c ∈ v, c ≠ '&' ∧ c ≠ CR ∧ c ≠ LF) →
    decodeRef v = v
  | [], _ => rfl
  | c :: cs, h => by
    have hc := h c (List.mem_cons_self _ _)
    have ih := decodeRef_plain cs (fun x hx => h x (List.mem_cons_of_mem _ hx))
    unfold decodeRef at ih ⊢
    rw [decodeRef.go, if_neg hc.2.1, if_neg hc.2.2, if_neg hc.1, ih]

/-! ## Attributes (claim C9) -/

/-- The attribute objects built from a run of well-written attributes whose
values hold no `&` and no line end read as the written names and as the
decoded values of the spec, in order. -/
theorem AttrSrc.parsedList_text (buf : List Char) : ∀ (as : List AttrSrc) (q : Nat)
    (tail : List Char), buf.drop q = AttrSrc.textList as ++ tail → (∀ a ∈ as, a.ok = true) →
    (∀ a ∈ as, ∀ c ∈ a.value, c ≠ '&' ∧ c ≠ CR ∧ c ≠ LF) →
    (AttrSrc.parsedList q as).map (fun a => (a.name.text buf, a.value.text buf)) =
      as.map (fun a => (some a.name, some (decodeRef a.value)))
  | [], _, _, _, _, _ => rfl
  | a :: as, q, tail, h, hok, hplain => by
    have ha : a.ok = true := hok a (List.mem_cons_self _ _)
    obtain ⟨_, hname, _, _, hval, _⟩ := (AttrSrc.ok_iff a).1 ha
    have hpl := hplain a (List.mem_cons_self _ _)
    have h1 : buf.drop q =
        a.name ++ '=' :: (a.quote :: (a.value ++ a.quote :: (a.ws ++ (AttrSrc.textList as ++ tail)))) := by
      rw [h]; simp [AttrSrc.textList, AttrSrc.text]
    have h2 : buf.drop (q + a.name.length + 2) =
        a.value ++ a.quote :: (a.ws ++ (AttrSrc.textList as ++ tail)) :=
      drop_succ_of_drop (drop_succ_of_drop (drop_add_of_drop a.name h1))
    have h3 : buf.drop (q + a.text.length) = AttrSrc.textList as ++ tail := by
      apply drop_add_of_drop a.text
      rw [h]; simp [AttrSrc.textList]
    have e1 : StrPair.text buf (StrPair.Set q (q + a.name.length) ATTRIBUTE_NAME) = some a.name :=
      StrPair.text_plain h1 (fun x hx => (hname x hx).1)
    have e2 : StrPair.text buf
        (StrPair.Set (q + a.name.length + 2) (q + a.name.length + 2 + a.value.length) ATTRIBUTE_VALUE) =
        some (decodeRef a.value) := by
      rw [StrPair.text_local h2 ATTRIBUTE_VALUE, decodeRef_plain a.value hpl]
      exact text_alone_plain ATTRIBUTE_VALUE a.value (fun c hc => ⟨(hval c hc).1, hpl c hc⟩)
    simp only [AttrSrc.parsedList, List.map_cons, AttrSrc.parsed, e1, e2]
    rw [AttrSrc.parsedList_text buf as (q + a.text.length) tail h3
      (fun b hb => hok b (List.mem_cons_of_mem _ hb))
      (fun b hb => hplain b (List.mem_cons_of_mem _ hb))]

/-- Where the code does decode as the spec asks: in a start tag, behind the
element name, let there be white space, then attributes written `name=QvalueQ`
(each followed by white space, `Q` one of the two quotes, the name starting
with a letter and free of `=`, the value not empty and free of `Q`, `&` and
line ends), then `>` or `/>`.  `ParseAttributes` succeeds without touching
the document, returns the pointer behind the end of the tag, and appends one
attribute per written attribute, in order; read with `GetStr`, the names are
the written names and the values are the decoded values of the spec, whatever
the quote. -/
theorem attributes_parsed_in_order (fuel : Nat) (doc : XMLDocument) (self : XMLElement)
    (p : Nat) (ws0 : List Char) (as : List AttrSrc) (term rest : List Char)
    (hbuf : doc.charBuffer.drop p = ws0 ++ (AttrSrc.textList as ++ (term ++ rest)))
    (hws : ∀ x ∈ ws0, isspace x = true) (hok : ∀ a ∈ as, a.ok = true)
    (hplain : ∀ a ∈ as, ∀ c ∈ a.value, c ≠ '&' ∧ c ≠ CR ∧ c ≠ LF)
    (hterm : term = ">".toList ∨ (term = "/>".toList ∧ self.closing = false))
    (hf : as.length < fuel) :
    ∃ attrs : List XMLAttribute,
      XMLElement.ParseAttributes fuel doc self (some p) =
        some (doc, { self with attributes := self.attributes ++ attrs },
          decide (term = "/>".toList),
          some (p + ws0.length + (AttrSrc.textList as).length + term.length)) ∧
      attrs.map (fun a => (a.name.text doc.charBuffer, a.value.text doc.charBuffer)) =
        as.map (fun a => (some a.name, some (decodeRef a.value))) := by
  refine ⟨AttrSrc.parsedList (p + ws0.length) as, ?_, ?_⟩
  · exact ParseAttributes_loop_of_drop p as fuel doc self p ws0 term rest hf hbuf hws hok hterm
  · exact AttrSrc.parsedList_text doc.charBuffer as (p + ws0.length) (term ++ rest)
      (drop_add_of_drop ws0 hbuf) hok hplain

/-- Claim C9, evaluated at failing inputs: `<a b="1 LF 2"/>` and
`<a b='x&amp;&y'/>` are written as the claim asks and parse with NoError, but
the value of `b` reads `12` where the decoded value of the spec is `1 LF 2`,
and `x&ay` where it is `x&&y`; for `<a b="1" c='2'/>` the attributes are
`b=1` then `c=2`. -/
theorem attribute_value_loses_bytes :
    AttrSrc.ok ⟨"b".toList, '"', "1\n2".toList, []⟩ = true ∧
    (XMLDocument.Parse 6 (some "<a b=\"1\n2\"/>".toList)).map (fun d => (d.result, d.content)) =
      some (NO_ERROR, [Content.Element (some "a".toList)
        [(some "b".toList, some "12".toList)] []]) ∧
    decodeRef "1\n2".toList = "1\n2".toList ∧
    AttrSrc.ok ⟨"b".toList, '\'', "x&amp;&y".toList, []⟩ = true ∧
    (XMLDocument.Parse 6 (some "<a b='x&amp;&y'/>".toList)).map
        (fun d => (d.result, d.content)) =
      some (NO_ERROR, [Content.Element (some "a".toList)
        [(some "b".toList, some "x&ay".toList)] []]) ∧
    decodeRef "x&amp;&y".toList = "x&&y".toList ∧
    (XMLDocument.Parse 6 (some "<a b=\"1\" c='2'/>".toList)).map (fun d => (d.result, d.content)) =
      some (NO_ERROR, [Content.Element (some "a".toList)
        [(some "b".toList, some "1".toList), (some "c".toList, some "2".toList)] []]) :=
  ⟨by decide, by rfl, by decide, by decide, by rfl, by decide, by rfl⟩

/-! ## The return value of `Parse` (claim C20) -/

/-- Claim C20, evaluated at the failing inputs of the claim: for the null
pointer and for the empty string `Parse` returns 1 (`true`) at every fuel,
while the error code stored in the document is NoError and `SetError` was not
called; 1 is not NoError. -/
theorem parse_empty_returns_true (fuel : Nat) :
    (XMLDocument.Parse fuel none).map (fun d => (d.result, d.doc.errorID, d.doc.setErrorCalls)) =
      some (1, NO_ERROR, 0) ∧
    (XMLDocument.Parse fuel (some "".toList)).map
        (fun d => (d.result, d.doc.errorID, d.doc.setErrorCalls)) = some (1, NO_ERROR, 0) ∧
    (1 : Int) ≠ NO_ERROR :=
  ⟨rfl, rfl, by decide⟩

/-! ## A second call of `GetStr` (claim C15) -/

/-- After `GetStr` the span has no NeedsFlush flag, and the pointer returned
is the span's `start`. -/
theorem GetStr_flushed (buf : List Char) (s : StrPair) :
    (StrPair.GetStr buf s).2.1.flags.NEEDS_FLUSH = false ∧
    (StrPair.GetStr buf s).2.2 = (StrPair.GetStr buf s).2.1.start := by
  unfold StrPair.GetStr
  cases hfl : s.flags.NEEDS_FLUSH with
  | false => simp [hfl]
  | true =>
    simp only [if_true]
    cases s.start <;> cases s.stop <;> simp [StrFlags.zero]
    split <;> simp

/-- Claim C15: for every buffer and every span, a second call of `GetStr`,
on the buffer and the span the first call left, returns the same pointer and
leaves buffer and span as they are, so the text read after it is the text
read after the first call; the span `&amp;amp;` reads as `&amp;` after the
first call and after the second. -/
theorem GetStr_idempotent (buf : List Char) (s : StrPair) :
    StrPair.GetStr (StrPair.GetStr buf s).1 (StrPair.GetStr buf s).2.1 = StrPair.GetStr buf s ∧
    StrPair.text (StrPair.GetStr buf s).1 (StrPair.GetStr buf s).2.1 = StrPair.text buf s ∧
    StrPair.text "&amp;amp;<".toList (StrPair.Set 0 9 TEXT_ELEMENT) = some "&amp;".toList ∧
    StrPair.text (StrPair.GetStr "&amp;amp;<".toList (StrPair.Set 0 9 TEXT_ELEMENT)).1
      (StrPair.GetStr "&amp;amp;<".toList (StrPair.Set 0 9 TEXT_ELEMENT)).2.1 =
      some "&amp;".toList := by
  obtain ⟨h1, h2⟩ := GetStr_flushed buf s
  have e : StrPair.GetStr (StrPair.GetStr buf s).1 (StrPair.GetStr buf s).2.1 =
      StrPair.GetStr buf s := by
    generalize StrPair.GetStr buf s = r at h1 h2
    obtain ⟨b1, s1, p1⟩ := r
    simp only at h1 h2
    simp [StrPair.GetStr, h1, h2]
  refine ⟨e, ?_, by decide, by decide⟩
  unfold StrPair.text
  rw [e]

/-! ## The text-scope counter of the streamer (claim C18) -/

/-- Claim C18, evaluated at the failing input of the claim: after open `a`
and open `b`, both text-bearing, the counter is 2; the first close lowers it
to 1, the second close leaves it at 1 where no element is open. -/
theorem text_counter_not_restored :
    (XMLStreamer.init.OpenElement "a".toList true).text.NumPositive = 1 ∧
    ((XMLStreamer.init.OpenElement "a".toList true).OpenElement "b".toList true).text.NumPositive = 2 ∧
    ((XMLStreamer.init.OpenElement "a".toList true).OpenElement
      "b".toList true).CloseElement.text.NumPositive = 1 ∧
    ((XMLStreamer.init.OpenElement "a".toList true).OpenElement
      "b".toList true).CloseElement.CloseElement.text.NumPositive = 1 := by
  decide

/-! ## Bytes from 0x80 on in `PrintString` (claim C16) -/

/-- Claim C16, evaluated at a failing input: the byte 0x80, read as a signed
`char`, is -128, which is below `ENTITY_RANGE`, so `PrintString` reads
`entityFlag` at index -128, outside the table. -/
theorem PrintString_high_byte_indexes_table :
    charInt (Char.ofNat 0x80) = -128 ∧
    charInt (Char.ofNat 0x80) < ENTITY_RANGE ∧
    XMLStreamer.init.PrintString [Char.ofNat 0x80] = none := by
  decide

/-! ## The child loop at a byte `Identify` does not know (claim C13) -/

/-- At a byte that is no white space, not `<` and not alphanumeric `Identify`
makes no node and returns the pointer to that byte. -/
theorem Identify_unknown {b : List Char} {p : Nat} (ws : List Char) {c : Char}
    {r : List Char} (h : b.drop p = ws ++ c :: r) (hws : ∀ x ∈ ws, isspace x = true)
    (hsp : isspace c = false) (hnul : c ≠ NUL) (hlt : c ≠ '<') (hal : IsAlphaNum c = false) :
    Identify b p = (some (p + ws.length), none) := by
  have hs := SkipWhiteSpace_of_drop ws h hws hsp
  have hd := drop_add_of_drop ws h
  unfold Identify
  simp only [hs, peek_of_drop hd, StringEqual, hd]
  have e1 : strncmpEq (c :: r) "<!--".toList 4 = false := by
    have : "<!--".toList = ['<', '!', '-', '-'] := rfl
    rw [this]
    simp [strncmpEq, hlt, hnul]
  have e2 : strncmpEq (c :: r) "<".toList 1 = false := by
    have : "<".toList = ['<'] := rfl
    rw [this]
    simp [strncmpEq, hlt, hnul]
  rw [e1, e2]
  simp [hnul, hal]

/-- Where `Identify` makes no node and returns the pointer it was given, the
child loop takes the same turn again, whatever the fuel. -/
theorem XMLNode.ParseDeep_stuck {d : XMLDocument} {s : NodeBase} {p : Nat}
    (hne : peek d.charBuffer p ≠ NUL) (hid : Identify d.charBuffer p = (some p, none)) :
    ∀ fuel, XMLNode.ParseDeep fuel d s (some p) = none
  | 0 => rfl
  | fuel + 1 => by
    rw [XMLNode.ParseDeep, if_neg hne, hid]
    exact XMLNode.ParseDeep_stuck hne hid fuel

theorem cstrOf_append_cons (v : List Char) (hv : ∀ x ∈ v, x ≠ NUL) (r : List Char) :
    cstrOf (v ++ r) = v ++ cstrOf r := by
  induction v with
  | nil => rfl
  | cons a v ih =>
    have ha := hv a (List.mem_cons_self _ _)
    have e : (a :: v ++ r) = a :: (v ++ r) := rfl
    rw [e, cstrOf, if_neg ha, ih (fun x hx => hv x (List.mem_cons_of_mem _ hx))]
    rfl

theorem isspace_ne_nul {x : Char} (h : isspace x = true) : x ≠ NUL := by
  rintro rfl
  revert h
  decide

/-- Claim C13, evaluated at the failing inputs: on every input whose first
byte behind leading white space is not the null byte, not `<` and not
alphanumeric, the child loop of `XMLNode::ParseDeep` takes the same turn at
that byte again and again, so `Parse` returns at no fuel. -/
theorem parse_does_not_return (ws : List Char) (c : Char) (rest : List Char)
    (hws : ∀ x ∈ ws, isspace x = true) (hsp : isspace c = false) (hnul : c ≠ NUL)
    (hlt : c ≠ '<') (hal : IsAlphaNum c = false) (fuel : Nat) :
    XMLDocument.Parse fuel (some (ws ++ c :: rest)) = none := by
  have hcs : cstrOf (ws ++ c :: rest) = ws ++ c :: cstrOf rest := by
    rw [cstrOf_append_cons ws (fun x hx => isspace_ne_nul (hws x hx)), cstrOf, if_neg hnul]
  unfold XMLDocument.Parse
  simp only [hcs]
  have hne : ws ++ c :: cstrOf rest ≠ [] := by simp
  rw [if_neg hne]
  have hd : (ws ++ c :: cstrOf rest ++ [NUL]).drop 0 = ws ++ c :: (cstrOf rest ++ [NUL]) := by
    simp
  have hd1 := drop_add_of_drop ws hd
  have hid1 := Identify_unknown (b := ws ++ c :: cstrOf rest ++ [NUL]) (p := 0 + ws.length)
    (r := cstrOf rest ++ [NUL]) [] (by rw [List.nil_append]; exact hd1) (by simp) hsp hnul hlt hal
  have hp1 : peek (ws ++ c :: cstrOf rest ++ [NUL]) (0 + ws.length) ≠ NUL := by
    rw [peek_of_drop hd1]; exact hnul
  have hstuck := XMLNode.ParseDeep_stuck
    (d := ⟨ws ++ c :: cstrOf rest ++ [NUL], NO_ERROR, none, none, 0⟩)
    (s := ⟨false, []⟩) hp1 (by simpa using hid1)
  cases fuel with
  | zero => rfl
  | succ f =>
    cases ws with
    | nil =>
      have := hstuck (f + 1)
      simp only [List.length_nil, Nat.add_zero] at this
      simp only [List.nil_append] at this ⊢
      rw [this]
    | cons w ws' =>
      have hid0 := Identify_unknown (w :: ws') hd hws hsp hnul hlt hal
      have hp0 : peek (w :: ws' ++ c :: cstrOf rest ++ [NUL]) 0 ≠ NUL := by
        rw [peek_of_drop (c := w) (r := ws' ++ c :: cstrOf rest ++ [NUL]) (by simp)]
        exact isspace_ne_nul (hws w (List.mem_cons_self _ _))
      rw [XMLNode.ParseDeep]
      simp only
      rw [if_neg hp0, hid0]
      simp only
      rw [hstuck f]

/-- Claim C13 at the input ` -x`, with fuel 1000. -/
theorem parse_does_not_return_witness :
    (∀ x ∈ " ".toList, isspace x = true) ∧ isspace '-' = false ∧ '-' ≠ NUL ∧ '-' ≠ '<' ∧
    IsAlphaNum '-' = false ∧
    XMLDocument.Parse 1000 (some (" ".toList ++ '-' :: "x".toList)) = none :=
  ⟨by decide, by decide, by decide, by decide, by decide,
    parse_does_not_return " ".toList '-' "x".toList (by decide) (by decide) (by decide)
      (by decide) (by decide) 1000⟩

/-! ## The flag `isTextParent` (claim C19) -/

namespace Heap

theorem InsertEndChild_link_fields (h : Heap) (this a : Nat) :
    (InsertEndChild.link h this a).isText = h.isText ∧
    (InsertEndChild.link h this a).isTextParent = h.isTextParent ∧
    (InsertEndChild.link h this a).parent = Function.update h.parent a this := by
  unfold InsertEndChild.link
  split <;> exact ⟨rfl, rfl, rfl⟩

theorem Unlink_fields (h : Heap) (this c : Nat) :
    (h.Unlink this c).isText = h.isText ∧ (h.Unlink this c).isTextParent = h.isTextParent := by
  unfold Unlink
  dsimp only
  constructor <;> (repeat' split) <;> rfl

/-- One call: `isText` is kept, the flag of `this` is set exactly when it was
set or a Text node is inserted, and a node whose parent is `this` afterwards
had it as parent before or is the node inserted. -/
theorem step_flag {this : Nat} (hthis : this ≠ 0) {h h' : Heap} {op : Op}
    (hs : step this h op = some h') :
    h'.isText = h.isText ∧
    (h'.isTextParent this = true ↔
      h.isTextParent this = true ∨ ∃ a, op = Op.InsertEndChild a ∧ h.isText a = true) ∧
    (∀ a, h'.parent a = this → h.parent a = this ∨ op = Op.InsertEndChild a) := by
  cases op with
  | InsertEndChild a =>
    simp only [step] at hs
    split_ifs at hs with hc
    simp only [Option.some.injEq] at hs
    subst hs
    obtain ⟨e1, e2, e3⟩ := InsertEndChild_link_fields h this a
    unfold InsertEndChild
    dsimp only
    rw [e1]
    cases ht : h.isText a with
    | true =>
      simp only [if_true, SetTextParent, e1, e3, Function.update_same, true_iff]
      refine ⟨trivial, Or.inr ⟨a, rfl, ht⟩, ?_⟩
      intro x hx
      by_cases hxa : x = a
      · right; rw [hxa]
      · left; rwa [Function.update_noteq hxa] at hx
    | false =>
      simp only [Bool.false_eq_true, if_false, e1, e2, e3]
      refine ⟨trivial, ?_, ?_⟩
      · constructor
        · exact Or.inl
        · rintro (hh | ⟨x, hx, hxt⟩)
          · exact hh
          · cases hx
            rw [ht] at hxt
            exact Bool.noConfusion hxt
      · intro x hx
        by_cases hxa : x = a
        · right; rw [hxa]
        · left; rwa [Function.update_noteq hxa] at hx
  | Unlink c =>
    simp only [step] at hs
    split_ifs at hs with hc
    simp only [Option.some.injEq] at hs
    subst hs
    obtain ⟨e1, e2⟩ := Unlink_fields h this c
    rw [e1, e2]
    refine ⟨rfl, ?_, ?_⟩
    · constructor
      · exact Or.inl
      · rintro (hh | ⟨x, hx, _⟩)
        · exact hh
        · cases hx
    · intro x hx
      left
      rw [Unlink_parent] at hx
      by_cases hxc : x = c
      · rw [hxc, Function.update_same] at hx
        exact absurd hx.symm hthis
      · rwa [Function.update_noteq hxc] at hx

/-- A sequence of calls: the flag of `this` is set exactly when it was set or
one of the calls inserted a Text node. -/
theorem run_flag {this : Nat} (hthis : this ≠ 0) : ∀ (ops : List Op) (h h' : Heap),
    run this h ops = some h' →
    h'.isText = h.isText ∧
    (h'.isTextParent this = true ↔
      h.isTextParent this = true ∨ ∃ a, Op.InsertEndChild a ∈ ops ∧ h.isText a = true) ∧
    (∀ a, h'.parent a = this → h.parent a = this ∨ Op.InsertEndChild a ∈ ops)
  | [], h, h', hrun => by
    simp only [run, Option.some.injEq] at hrun
    subst hrun
    simp
  | op :: ops, h, h', hrun => by
    simp only [run] at hrun
    cases hs : step this h op with
    | none => rw [hs] at hrun; cases hrun
    | some h1 =>
      rw [hs] at hrun
      obtain ⟨a1, a2, a3⟩ := step_flag hthis hs
      obtain ⟨b1, b2, b3⟩ := run_flag hthis ops h1 h' hrun
      refine ⟨b1.trans a1, ?_, ?_⟩
      · rw [b2, a2, a1]
        constructor
        · rintro ((hh | ⟨x, hx, hxt⟩) | ⟨x, hx, hxt⟩)
          · exact Or.inl hh
          · exact Or.inr ⟨x, by rw [hx]; exact List.mem_cons_self _ _, hxt⟩
          · exact Or.inr ⟨x, List.mem_cons_of_mem _ hx, hxt⟩
        · rintro (hh | ⟨x, hx, hxt⟩)
          · exact Or.inl (Or.inl hh)
          · rcases List.mem_cons.1 hx with e | hm
            · exact Or.inl (Or.inr ⟨x, e.symm, hxt⟩)
            · exact Or.inr ⟨x, hm, hxt⟩
      · intro x hx
        rcases b3 x hx with hp | hm
        · rcases a3 x hp with hp0 | e
          · exact Or.inl hp0
          · exact Or.inr (by rw [e]; exact List.mem_cons_self _ _)
        · exact Or.inr (List.mem_cons_of_mem _ hm)

/-- Claim C19 fails as stated: on node 1 insert the Text node 2 and unlink
it again; node 1 has no children left and its flag is still set. -/
theorem flag_not_cleared_by_unlink :
    ∃ h, run 1 (withText 2) [Op.InsertEndChild 2, Op.Unlink 2] = some h ∧
      IsChildList h 1 [] ∧
      ¬ (h.isTextParent 1 = true ↔ ∃ a ∈ ([] : List Nat), h.isText a = true) := by
  refine ⟨((withText 2).InsertEndChild 1 2).Unlink 1 2, rfl, ?_, ?_⟩
  · refine ⟨List.nodup_nil, by simp, rfl, rfl, trivial, ?_⟩
    intro a ha
    rw [Unlink_parent]
    simp only [List.not_mem_nil, iff_false]
    by_cases h2 : a = 2
    · rw [h2, Function.update_same]; decide
    · rw [Function.update_noteq h2]
      have := (InsertEndChild_link_fields (withText 2) 1 2).2.2
      have e : ((withText 2).InsertEndChild 1 2).parent = Function.update (withText 2).parent 2 1 := by
        unfold InsertEndChild
        dsimp only
        split <;> exact this
      rw [e, Function.update_noteq h2]
      exact fun hh => Nat.zero_ne_one hh
  · simp only [List.not_mem_nil, false_and, exists_false, iff_false, not_not]
    rfl

/-- Claim C19 as amended: on a node `this` that starts with the flag clear
and without children, after every sequence of `InsertEndChild` calls on nodes
without a parent and `Unlink` calls on its own children, `isTextParent` is set
exactly when one of the calls inserted a Text node; so it is set whenever the
child list holds a Text node, and `Unlink` does not clear it. -/
theorem isTextParent_iff_text_inserted (this : Nat) (hthis : this ≠ 0) (h0 : Heap)
    (hflag : h0.isTextParent this = false) (hnone : ∀ a, a ≠ 0 → h0.parent a ≠ this)
    (ops : List Op) (h : Heap) (hrun : run this h0 ops = some h) :
    (h.isTextParent this = true ↔ ∃ a, Op.InsertEndChild a ∈ ops ∧ h.isText a = true) ∧
    ∀ l, IsChildList h this l → (∃ a ∈ l, h.isText a = true) → h.isTextParent this = true := by
  obtain ⟨b1, b2, b3⟩ := run_flag hthis ops h0 h hrun
  have hiff : h.isTextParent this = true ↔
      ∃ a, Op.InsertEndChild a ∈ ops ∧ h.isText a = true := by
    rw [b2, b1, hflag]
    simp
  refine ⟨hiff, ?_⟩
  rintro l hl ⟨a, hal, hat⟩
  rw [hiff]
  have ha0 : a ≠ 0 := hl.2.1 a hal
  have hpa : h.parent a = this := (hl.2.2.2.2.2 a ha0).2 hal
  rcases b3 a hpa with hp | hm
  · exact absurd hp (hnone a ha0)
  · exact ⟨a, hm, hat⟩

/-- Claim C19 as amended at a concrete run: on node 1 insert 3, insert the
Text node 2, unlink 3. -/
theorem isTextParent_iff_text_inserted_witness :
    (1 : Nat) ≠ 0 ∧ (withText 2).isTextParent 1 = false ∧
    (∀ a, a ≠ 0 → (withText 2).parent a ≠ 1) ∧
    run 1 (withText 2) [Op.InsertEndChild 3, Op.InsertEndChild 2, Op.Unlink 3] =
      some ((((withText 2).InsertEndChild 1 3).InsertEndChild 1 2).Unlink 1 3) ∧
    ((((withText 2).InsertEndChild 1 3).InsertEndChild 1 2).Unlink 1 3).isTextParent 1 = true ∧
    (∃ a, Op.InsertEndChild a ∈ [Op.InsertEndChild 3, Op.InsertEndChild 2, Op.Unlink 3] ∧
      ((((withText 2).InsertEndChild 1 3).InsertEndChild 1 2).Unlink 1 3).isText a = true) :=
  have hw := isTextParent_iff_text_inserted 1 (by decide) (withText 2) rfl
    (fun _ _ => Nat.zero_ne_one) [Op.InsertEndChild 3, Op.InsertEndChild 2, Op.Unlink 3] _ rfl
  ⟨by decide, rfl, fun _ _ => Nat.zero_ne_one, rfl, rfl, hw.1.1 rfl⟩

end Heap

/-! ## Printing a parsed tree (claims C11 and C12) -/

/-- One turn of the child loop at a start tag that ends in `/>`: the element
is appended without children and the loop goes on behind the tag. -/
theorem XMLNode.ParseDeep_at_emptyTag {f : Nat} {d : XMLDocument} {s : NodeBase}
    {p : Nat} {ws n ws0 rest : List Char} {l : List AttrSrc}
    (h : d.charBuffer.drop p =
      ws ++ '<' :: (n ++ (ws0 ++ (AttrSrc.textList l ++ ('/' :: '>' :: rest)))))
    (hwsp : ∀ x ∈ ws, isspace x = true)
    (hn : isName n = true) (hws : ∀ x ∈ ws0, isspace x = true) (hsep : l = [] ∨ ws0 ≠ [])
    (hok : ∀ a ∈ l, a.ok = true) (hf : l.length < f) :
    XMLNode.ParseDeep (f + 2) d s (some p) =
      XMLNode.ParseDeep (f + 1) d
        (s.InsertEndChild
          (XMLNode.Element (StrPair.Set (p + ws.length + 1) (p + ws.length + 1 + n.length) StrFlags.zero)
            false (AttrSrc.parsedList (p + ws.length + 1 + n.length + ws0.length) l) false []))
        (some (p + ws.length + 1 + n.length + ws0.length + (AttrSrc.textList l).length + 2)) := by
  have hne : peek d.charBuffer p ≠ NUL := by
    cases ws with
    | nil => rw [peek_of_drop h]; decide
    | cons w ws' =>
      rw [peek_of_drop (c := w) (by simpa using h)]
      have := hwsp w (List.mem_cons_self _ _)
      rintro rfl
      revert this; decide
  obtain ⟨a, as', rfl, ha⟩ := isName_head hn
  have ha1 : a ≠ '!' := by rintro rfl; revert ha; decide
  have hid := Identify_element (c := a) ws (by simpa using h) hwsp ha1
  have hd1 : d.charBuffer.drop (p + ws.length + 1) =
      (a :: as') ++ (ws0 ++ (AttrSrc.textList l ++ (['/', '>'] ++ rest))) :=
    drop_succ_of_drop (drop_add_of_drop ws h)
  have hst := XMLElement.ParseDeep_startTag (f := f) hd1 hn hws hsep hok hf (Or.inr rfl)
  rw [XMLNode.ParseDeep, if_neg hne, hid]
  dsimp only
  rw [XMLElement.init] at hst
  rw [hst]
  simp [XMLElement.toNode, XMLNode.IsClosingElement]

/-- `GetStr` on a span without pending decoding writes the null byte at `end`
and returns `start`. -/
theorem PrintState.GetStr_plain {b : List Char} {s : Nat} {v : List Char} {c : Char}
    {r : List Char} (h : b.drop s = v ++ c :: r) (hv : ∀ x ∈ v, x ≠ NUL) (st : XMLStreamer) :
    PrintState.GetStr ⟨b, st⟩ (StrPair.Set s (s + v.length) StrFlags.zero) =
      some (⟨b.set (s + v.length) NUL, st⟩, ⟨StrFlags.zero, some s, some (s + v.length)⟩, v) := by
  have e : StrPair.GetStr b (StrPair.Set s (s + v.length) StrFlags.zero) =
      (b.set (s + v.length) NUL, ⟨StrFlags.zero, some s, some (s + v.length)⟩, some s) := by
    simp [StrPair.GetStr, StrPair.Set, StrFlags.orFlush, StrFlags.zero, StrFlags.xorFlush,
      StrFlags.nonzero]
  unfold PrintState.GetStr
  rw [e]
  simp only [cstr]
  rw [drop_set_end h, cstrOf_append_nul v r hv]

/-- A fresh streamer that opens and at once closes an element without text
writes `<name/>` and a line feed. -/
theorem OpenElement_CloseElement_fp (n : List Char) :
    (XMLStreamer.init.OpenElement n false).CloseElement.fp =
      "<".toList ++ cstrOf n ++ "/>\n".toList := by
  have ht : ((StringStack.init.Push []).Pop.1).NumPositive = 0 := by decide
  have h0 : StringStack.init.NumPositive = 0 := by decide
  simp [XMLStreamer.OpenElement, XMLStreamer.CloseElement, XMLStreamer.init, XMLStreamer.write,
    XMLStreamer.PrintSpace, ht, h0]

/-- Claim C11 fails as stated: the tree parsed from `<a/>` is printed as
`<a/>` followed by a line feed, which is not `<a/>`; and for the valid
element name `_a`, parsing `<_a/>` returns NoError with an element that has
no name, which `Print` cannot print. -/
theorem self_closing_prints_line_feed :
    ((XMLDocument.Parse 3 (some "<a/>".toList)).bind
        (fun d => XMLDocument.Print d XMLStreamer.init)).map (fun s => s.2.fp) =
      some "<a/>\n".toList ∧
    ¬ (((XMLDocument.Parse 3 (some "<a/>".toList)).bind
        (fun d => XMLDocument.Print d XMLStreamer.init)).map (fun s => s.2.fp) =
      some "<a/>".toList) ∧
    isValidName "_a".toList = true ∧
    (XMLDocument.Parse 3 (some "<_a/>".toList)).map
        (fun d => (d.result, d.doc.setErrorCalls, d.content)) =
      some (NO_ERROR, 0, [Content.Element none [] []]) ∧
    ¬ ((XMLDocument.Parse 3 (some "<_a/>".toList)).map (fun d => d.content) =
      some [Content.Element (some "_a".toList) [] []]) ∧
    ((XMLDocument.Parse 3 (some "<_a/>".toList)).bind
        (fun d => XMLDocument.Print d XMLStreamer.init)).map (fun s => s.2.fp) = none := by
  have e : (XMLDocument.Parse 3 (some "<_a/>".toList)).map (fun d => d.content) =
      some [Content.Element none [] []] := by rfl
  refine ⟨by rfl, by decide, by decide, by rfl, ?_, by rfl⟩
  rw [e]
  intro h
  simp at h

/-- Claim C11 as amended: for every valid element name `n` that does not
start with `_`, parsing `<n/>` returns NoError without a call of `SetError`
and gives exactly one top-level element, named `n`, without attributes and
without children; a fresh streamer prints that tree as `<n/>` followed by a
line feed. -/
theorem self_closing_round_trip (n : List Char) (hnv : isValidName n = true)
    (hnu : n.head? ≠ some '_') (fuel : Nat) (hf : 3 ≤ fuel) :
    ∃ d, XMLDocument.Parse fuel (some ("<".toList ++ n ++ "/>".toList)) = some d ∧
      d.result = NO_ERROR ∧ d.doc.errorID = NO_ERROR ∧ d.doc.setErrorCalls = 0 ∧
      d.base.children =
        [XMLNode.Element (StrPair.Set 1 (1 + n.length) StrFlags.zero) false [] false []] ∧
      d.content = [Content.Element (some n) [] []] ∧
      (XMLDocument.Print d XMLStreamer.init).map (fun r => r.2.fp) =
        some ("<".toList ++ n ++ "/>\n".toList) := by
  have hn : isName n = true := isName_of_valid hnv hnu
  let buf : List Char := '<' :: (n ++ ([] ++ (AttrSrc.textList [] ++ ('/' :: '>' :: [NUL]))))
  have hnn := isName_no_nul hn
  have hcs : cstrOf ("<".toList ++ n ++ "/>".toList) = "<".toList ++ n ++ "/>".toList := by
    apply cstrOf_of_no_nul
    intro x hx
    simp only [List.mem_append, String.toList] at hx
    rcases hx with (hx | hx) | hx
    · simp at hx; subst hx; decide
    · exact hnn x hx
    · simp at hx; rcases hx with rfl | rfl <;> decide
  have hinput : ("<".toList ++ n ++ "/>".toList) ++ [NUL] = buf := by
    simp [buf, AttrSrc.textList]
  let doc : XMLDocument := ⟨buf, NO_ERROR, none, none, 0⟩
  have hd0 : doc.charBuffer.drop 0 =
      [] ++ '<' :: (n ++ ([] ++ (AttrSrc.textList [] ++ ('/' :: '>' :: [NUL])))) := rfl
  have hend : doc.charBuffer.drop (1 + n.length + 2) = [NUL] := by
    have := drop_add_of_drop (b := doc.charBuffer) (p := 0) ('<' :: n ++ ['/', '>'])
      (r := [NUL]) (by simp [doc, buf, AttrSrc.textList])
    rw [← this]; congr 1; simp; omega
  have e0 : XMLNode.ParseDeep 3 doc ⟨false, []⟩ (some 0) =
      some (doc, ⟨false, [XMLNode.Element (StrPair.Set 1 (1 + n.length) StrFlags.zero) false []
          false []]⟩, none) := by
    have := XMLNode.ParseDeep_at_emptyTag (f := 1) (s := ⟨false, []⟩) (l := []) hd0 (by simp) hn
      (by simp) (Or.inl rfl) (by simp) (by decide)
    simp only [List.length_nil, AttrSrc.textList, Nat.add_zero, Nat.zero_add] at this
    rw [this, XMLNode.ParseDeep_end (peek_of_drop hend)]
    simp [NodeBase.InsertEndChild, AttrSrc.parsedList, XMLNode.ToText]
  have hparse : XMLDocument.Parse 3 (some ("<".toList ++ n ++ "/>".toList)) =
      some ⟨⟨false, [XMLNode.Element (StrPair.Set 1 (1 + n.length) StrFlags.zero) false []
          false []]⟩, doc, NO_ERROR⟩ := by
    unfold XMLDocument.Parse
    simp only [hcs]
    rw [if_neg (by simp), hinput]
    have := e0
    simp only [doc] at this
    rw [this]
  have hdn : buf.drop 1 = n ++ '/' :: ('>' :: [NUL]) := by simp [buf, AttrSrc.textList]
  have hn1 : StrPair.text buf (StrPair.Set 1 (1 + n.length) StrFlags.zero) = some n :=
    StrPair.text_plain hdn hnn
  refine ⟨_, XMLDocument.Parse_mono hf hparse, rfl, rfl, rfl, rfl, ?_, ?_⟩
  · simp only [Parsed.content, XMLNode.contentList, XMLNode.content, List.map_nil, hn1]
  · simp only [XMLDocument.Print, XMLNode.PrintList, XMLNode.Print]
    rw [PrintState.GetStr_plain hdn hnn]
    simp only [XMLAttribute.PrintList, XMLNode.PrintList, Option.map_some']
    rw [OpenElement_CloseElement_fp, cstrOf_of_no_nul n hnn]

/-- Claim C11 as amended at the instance of the spec, `<a/>`, with fuel 3. -/
theorem self_closing_round_trip_witness :
    isValidName "a".toList = true ∧ "a".toList.head? ≠ some '_' ∧ 3 ≤ 3 ∧
    ∃ d, XMLDocument.Parse 3 (some ("<".toList ++ "a".toList ++ "/>".toList)) = some d ∧
      d.result = NO_ERROR ∧ d.doc.errorID = NO_ERROR ∧ d.doc.setErrorCalls = 0 ∧
      d.base.children =
        [XMLNode.Element (StrPair.Set 1 (1 + "a".toList.length) StrFlags.zero) false [] false []] ∧
      d.content = [Content.Element (some "a".toList) [] []] ∧
      (XMLDocument.Print d XMLStreamer.init).map (fun r => r.2.fp) =
        some ("<".toList ++ "a".toList ++ "/>\n".toList) :=
  ⟨by decide, by decide, by decide,
    self_closing_round_trip "a".toList (by decide) (by decide) 3 (by decide)⟩

/-! ## Comments (claim C12) -/

/-- Inside a body without `-->` the terminator is not met before the body
ends: the scan of `ParseText` stops at the `-->` behind the body. -/
theorem ParseText_loop_comment : ∀ (body rest : List Char) (p : Nat),
    (∀ x ∈ body, x ≠ NUL) → hasCommentEnd body = false →
    ParseText.loop ['-', '-', '>'] 3 (body ++ ('-' :: '-' :: '>' :: rest)) p =
      (some (p + body.length), p + body.length + 3)
  | [], rest, p, _, _ => by
    simp [ParseText.loop, strncmpEq, NUL]
  | c :: cs, rest, p, hn, he => by
    have hc : c ≠ NUL := hn c (List.mem_cons_self _ _)
    simp only [hasCommentEnd, Bool.or_eq_false_iff] at he
    have ih := ParseText_loop_comment cs rest (p + 1)
      (fun x hx => hn x (List.mem_cons_of_mem _ hx)) he.2
    have hno : (decide (c = ['-', '-', '>'].headD NUL) &&
        strncmpEq (c :: (cs ++ ('-' :: '-' :: '>' :: rest))) ['-', '-', '>'] 3) = false := by
      have h3 := he.1
      by_cases hc1 : c = '-'
      · subst hc1
        cases cs with
        | nil => simp [strncmpEq, NUL]
        | cons x xs =>
          cases xs with
          | nil =>
            by_cases hx : x = '-'
            · subst hx; simp [strncmpEq, NUL]
            · simp [strncmpEq, NUL, hx]
          | cons y ys =>
            by_cases hx : x = '-'
            · subst hx
              by_cases hy : y = '>'
              · subst hy; simp at h3
              · simp [strncmpEq, NUL, hy]
            · simp [strncmpEq, NUL, hx]
      · simp [hc1]
    have e : (c :: cs ++ ('-' :: '-' :: '>' :: rest)) = c :: (cs ++ ('-' :: '-' :: '>' :: rest)) := rfl
    rw [e, ParseText.loop, if_neg hc, hno]
    simp only [Bool.false_eq_true, if_false]
    rw [ih]
    simp only [List.length_cons]
    congr 2 <;> omega


/-- `Identify` at `<!--`: a comment, and the pointer behind the header. -/
theorem Identify_comment {b : List Char} {p : Nat} (ws : List Char) {r : List Char}
    (h : b.drop p = ws ++ '<' :: '!' :: '-' :: '-' :: r) (hws : ∀ x ∈ ws, isspace x = true) :
    Identify b p = (some (p + ws.length + 4), some (XMLNode.Comment StrPair.init)) := by
  have hs := SkipWhiteSpace_of_drop ws h hws (by decide)
  have hd := drop_add_of_drop ws h
  unfold Identify
  simp only [hs, peek_of_drop hd, StringEqual, hd]
  have e1 : strncmpEq ('<' :: '!' :: '-' :: '-' :: r) "<!--".toList 4 = true := by
    have : "<!--".toList = ['<', '!', '-', '-'] := rfl
    rw [this]
    simp [strncmpEq, NUL]
  rw [e1]
  simp [NUL]

/-- One turn of the child loop at a comment whose body holds no `-->`: the
comment is appended with the body as its span and the loop goes on behind
the terminator. -/
theorem XMLNode.ParseDeep_at_comment {f : Nat} {d : XMLDocument} {s : NodeBase} {p : Nat}
    {ws body rest : List Char}
    (h : d.charBuffer.drop p =
      ws ++ '<' :: '!' :: '-' :: '-' :: (body ++ ('-' :: '-' :: '>' :: rest)))
    (hws : ∀ x ∈ ws, isspace x = true) (hn : ∀ x ∈ body, x ≠ NUL)
    (he : hasCommentEnd body = false) :
    XMLNode.ParseDeep (f + 1) d s (some p) =
      XMLNode.ParseDeep f d
        (s.InsertEndChild (XMLNode.Comment
          (StrPair.Set (p + ws.length + 4) (p + ws.length + 4 + body.length) COMMENT)))
        (some (p + ws.length + 4 + body.length + 3)) := by
  have hne : peek d.charBuffer p ≠ NUL := by
    cases ws with
    | nil => rw [peek_of_drop h]; decide
    | cons w ws' =>
      rw [peek_of_drop (c := w) (by simpa using h)]
      exact isspace_ne_nul (hws w (List.mem_cons_self _ _))
  have hid := Identify_comment ws h hws
  have hd4 : d.charBuffer.drop (p + ws.length + 4) = body ++ ('-' :: '-' :: '>' :: rest) := by
    have := drop_add_of_drop (b := d.charBuffer) (p := p) (ws ++ ['<', '!', '-', '-'])
      (r := body ++ ('-' :: '-' :: '>' :: rest)) (by rw [h]; simp)
    rw [← this]; congr 1; simp; omega
  rw [XMLNode.ParseDeep, if_neg hne, hid]
  dsimp only
  have hpt : ParseText d.charBuffer (p + ws.length + 4) StrPair.init "-->".toList COMMENT =
      (StrPair.Set (p + ws.length + 4) (p + ws.length + 4 + body.length) COMMENT,
        p + ws.length + 4 + body.length + 3) := by
    unfold ParseText
    have e : "-->".toList = ['-', '-', '>'] := rfl
    have e3 : (cstrOf ['-', '-', '>']).length = 3 := by decide
    simp only [e, e3, hd4]
    rw [ParseText_loop_comment body rest _ hn he]
  simp only [XMLComment.ParseDeep, hpt]

/-- A fresh streamer writes a comment as `<!--text-->` and a line feed. -/
theorem PushComment_init_fp (v : List Char) :
    (XMLStreamer.init.PushComment v).fp = "<!--".toList ++ cstrOf v ++ "-->\n".toList := by
  simp [XMLStreamer.PushComment, XMLStreamer.init, XMLStreamer.write, XMLStreamer.PrintSpace]

/-- Claim C12 fails as stated: the comment parsed from `<!--hi-->` is printed
as `<!--hi-->` followed by a line feed, which is not `<!--hi-->`. -/
theorem comment_prints_line_feed :
    ((XMLDocument.Parse 2 (some "<!--hi-->".toList)).bind
        (fun d => XMLDocument.Print d XMLStreamer.init)).map (fun s => s.2.fp) =
      some "<!--hi-->\n".toList ∧
    ¬ (((XMLDocument.Parse 2 (some "<!--hi-->".toList)).bind
        (fun d => XMLDocument.Print d XMLStreamer.init)).map (fun s => s.2.fp) =
      some "<!--hi-->".toList) :=
  ⟨by rfl, by decide⟩

/-- Claim C12 as amended: for every comment body without the null byte and
without `-->`, parsing `<!--body-->` returns NoError without a call of
`SetError` and gives exactly one Comment node, whose text is the body byte
for byte; a fresh streamer prints that tree as `<!--body-->` followed by a
line feed. -/
theorem comment_pass_through (body : List Char) (hn : ∀ x ∈ body, x ≠ NUL)
    (he : hasCommentEnd body = false) (fuel : Nat) (hf : 2 ≤ fuel) :
    ∃ d, XMLDocument.Parse fuel (some ("<!--".toList ++ body ++ "-->".toList)) = some d ∧
      d.result = NO_ERROR ∧ d.doc.errorID = NO_ERROR ∧ d.doc.setErrorCalls = 0 ∧
      d.base.children = [XMLNode.Comment (StrPair.Set 4 (4 + body.length) COMMENT)] ∧
      d.content = [Content.Comment (some body)] ∧
      (XMLDocument.Print d XMLStreamer.init).map (fun r => r.2.fp) =
        some ("<!--".toList ++ body ++ "-->\n".toList) := by
  let buf : List Char := '<' :: '!' :: '-' :: '-' :: (body ++ ('-' :: '-' :: '>' :: [NUL]))
  have hcs : cstrOf ("<!--".toList ++ body ++ "-->".toList) =
      "<!--".toList ++ body ++ "-->".toList := by
    apply cstrOf_of_no_nul
    intro x hx
    simp only [List.mem_append, String.toList] at hx
    rcases hx with (hx | hx) | hx
    · simp at hx; rcases hx with rfl | rfl | rfl <;> decide
    · exact hn x hx
    · simp at hx; rcases hx with rfl | rfl <;> decide
  have hinput : ("<!--".toList ++ body ++ "-->".toList) ++ [NUL] = buf := by
    simp [buf]
  let doc : XMLDocument := ⟨buf, NO_ERROR, none, none, 0⟩
  have hd0 : doc.charBuffer.drop 0 =
      [] ++ '<' :: '!' :: '-' :: '-' :: (body ++ ('-' :: '-' :: '>' :: [NUL])) := rfl
  have hend : doc.charBuffer.drop (4 + body.length + 3) = [NUL] := by
    have := drop_add_of_drop (b := doc.charBuffer) (p := 0)
      ('<' :: '!' :: '-' :: '-' :: body ++ ['-', '-', '>']) (r := [NUL]) (by simp [doc, buf])
    rw [← this]; congr 1; simp; omega
  have e0 : XMLNode.ParseDeep 2 doc ⟨false, []⟩ (some 0) =
      some (doc, ⟨false, [XMLNode.Comment (StrPair.Set 4 (4 + body.length) COMMENT)]⟩, none) := by
    have := XMLNode.ParseDeep_at_comment (f := 1) (s := ⟨false, []⟩) hd0 (by simp) hn he
    simp only [List.length_nil, Nat.add_zero, Nat.zero_add] at this
    rw [this, XMLNode.ParseDeep_end (peek_of_drop hend)]
    simp [NodeBase.InsertEndChild, XMLNode.ToText]
  have hparse : XMLDocument.Parse 2 (some ("<!--".toList ++ body ++ "-->".toList)) =
      some ⟨⟨false, [XMLNode.Comment (StrPair.Set 4 (4 + body.length) COMMENT)]⟩, doc,
        NO_ERROR⟩ := by
    unfold XMLDocument.Parse
    simp only [hcs]
    rw [if_neg (by simp), hinput]
    have := e0
    simp only [doc] at this
    rw [this]
  have hdb : buf.drop 4 = body ++ '-' :: ('-' :: '>' :: [NUL]) := by simp [buf]
  have hb1 : StrPair.text buf (StrPair.Set 4 (4 + body.length) COMMENT) = some body :=
    StrPair.text_plain hdb hn
  refine ⟨_, XMLDocument.Parse_mono hf hparse, rfl, rfl, rfl, rfl, ?_, ?_⟩
  · simp only [Parsed.content, XMLNode.contentList, XMLNode.content, hb1]
  · simp only [XMLDocument.Print, XMLNode.PrintList, XMLNode.Print]
    have := PrintState.GetStr_plain hdb hn XMLStreamer.init
    rw [COMMENT, this]
    simp only [XMLNode.PrintList, Option.map_some']
    rw [PushComment_init_fp, cstrOf_of_no_nul body hn]

/-- Claim C12 as amended at the comment of the spec, `<!--hi-->`, with
fuel 2. -/
theorem comment_pass_through_witness :
    (∀ x ∈ "hi".toList, x ≠ NUL) ∧ hasCommentEnd "hi".toList = false ∧ 2 ≤ 2 ∧
    ∃ d, XMLDocument.Parse 2 (some ("<!--".toList ++ "hi".toList ++ "-->".toList)) = some d ∧
      d.result = NO_ERROR ∧ d.doc.errorID = NO_ERROR ∧ d.doc.setErrorCalls = 0 ∧
      d.base.children = [XMLNode.Comment (StrPair.Set 4 (4 + "hi".toList.length) COMMENT)] ∧
      d.content = [Content.Comment (some "hi".toList)] ∧
      (XMLDocument.Print d XMLStreamer.init).map (fun r => r.2.fp) =
        some ("<!--".toList ++ "hi".toList ++ "-->\n".toList) :=
  ⟨by decide, by decide, by decide,
    comment_pass_through "hi".toList (by decide) (by decide) 2 (by decide)⟩

/-! ## Empty attribute values (claim C17) -/

theorem AttrSrc.emptyValue_iff (a : AttrSrc) : a.emptyValue = true ↔
    (∃ c cs, a.name = c :: cs ∧ IsAlpha c = true) ∧ (∀ x ∈ a.name, x ≠ NUL ∧ x ≠ '=') ∧
    a.quote ≠ NUL ∧ a.value = [] ∧ (∀ x ∈ a.ws, isspace x = true) := by
  unfold AttrSrc.emptyValue
  cases hn : a.name with
  | nil => simp
  | cons c cs =>
    simp only [Bool.and_eq_true, List.all_eq_true, decide_eq_true_eq, decide_not,
      Bool.not_eq_true', decide_eq_false_iff_not, List.isEmpty_iff, ne_eq, List.cons.injEq,
      exists_and_left]
    constructor
    · rintro ⟨⟨⟨⟨h1, h2⟩, h3⟩, h4⟩, h5⟩
      exact ⟨⟨c, cs, ⟨rfl, rfl⟩, h1⟩, h2, h3, h4, h5⟩
    · rintro ⟨⟨c', cs', ⟨hc1, _⟩, hc2⟩, h2, h3, h4, h5⟩
      subst hc1
      exact ⟨⟨⟨⟨hc2, h2⟩, h3⟩, h4⟩, h5⟩

theorem AttrSrc.text_no_nul {a : AttrSrc} (ha : a.accepted = true ∨ a.emptyValue = true) :
    ∀ x ∈ a.text, x ≠ NUL := by
  have hkey : (∀ x ∈ a.name, x ≠ NUL) ∧ a.quote ≠ NUL ∧ (∀ x ∈ a.value, x ≠ NUL) ∧
      (∀ x ∈ a.ws, x ≠ NUL) := by
    rcases ha with ha | ha
    · obtain ⟨_, hname, hq, _, hval, hws⟩ := (AttrSrc.accepted_iff a).1 ha
      exact ⟨fun x hx => (hname x hx).1, hq,
        fun x hx => (hval x hx).1, fun x hx => isspace_ne_nul (hws x hx)⟩
    · obtain ⟨_, hname, hq, hval, hws⟩ := (AttrSrc.emptyValue_iff a).1 ha
      exact ⟨fun x hx => (hname x hx).1, hq,
        by rw [hval]; simp, fun x hx => isspace_ne_nul (hws x hx)⟩
  obtain ⟨h1, h2, h3, h4⟩ := hkey
  intro x hx
  simp only [AttrSrc.text, List.mem_append, List.mem_cons] at hx
  rcases hx with (hx | hx | hx | hx) | hx | hx
  · exact h1 x hx
  · rw [hx]; decide
  · rw [hx]; exact h2
  · exact h3 x hx
  · rw [hx]; exact h2
  · exact h4 x hx

theorem getLast?_cons_of_ne_nil {α : Type} (a : α) {l : List α} (h : l ≠ []) :
    (a :: l).getLast? = l.getLast? := by
  cases l with
  | nil => exact absurd rfl h
  | cons b l => exact List.getLast?_cons_cons

theorem GetStr_cursors_ne_nil (fl : StrFlags) (stop : Nat) (fuel p q : Nat) (B : List Char) :
    StrPair.GetStr.cursors fl stop fuel p q B ≠ [] := by
  cases fuel with
  | zero => simp [StrPair.GetStr.cursors]
  | succ f =>
    rw [StrPair.GetStr.cursors]
    split <;> simp

/-- Where `strncmp` finds the first `k` bytes equal to a pattern without null
bytes, none of these `k` bytes is the null byte. -/
theorem strncmpEq_no_nul : ∀ (l pat : List Char) (k : Nat), (∀ x ∈ pat, x ≠ NUL) →
    k ≤ pat.length → strncmpEq l pat k = true → ∀ i, i < k → l.getD i NUL ≠ NUL
  | _, _, 0, _, _, _, i, hi => by omega
  | [], [], k + 1, _, hk, _, _, _ => by simp at hk
  | [], b :: _, k + 1, hpat, _, h, _, _ => by
    simp only [strncmpEq, decide_eq_true_eq] at h
    exact absurd h (hpat b (List.mem_cons_self _ _))
  | a :: _, [], k + 1, _, hk, _, _, _ => by simp at hk
  | a :: as, b :: bs, k + 1, hpat, hk, h, i, hi => by
    have hb : b ≠ NUL := hpat b (List.mem_cons_self _ _)
    by_cases hab : a = b
    · subst hab
      simp only [strncmpEq, if_true, if_neg hb] at h
      cases i with
      | zero => simpa using hb
      | succ j =>
        have := strncmpEq_no_nul as bs k (fun x hx => hpat x (List.mem_cons_of_mem _ hx))
          (by simpa using hk) h j (by omega)
        simpa using this
    · simp [strncmpEq, hab] at h

theorem peek_drop (B : List Char) (s i : Nat) : (B.drop s).getD i NUL = peek B (s + i) := by
  unfold peek
  rw [List.getD_eq_getElem?_getD, List.getD_eq_getElem?_getD, List.getElem?_drop]

/-- An entity the search finds at `p` ends before the null byte at `stop`. -/
theorem findEntity_before_stop {B : List Char} {p stop : Nat} {e : Entity}
    (hfind : StrPair.findEntity B p = some e) (hp : p < stop) (hnul : peek B stop = NUL) :
    p + e.length + 2 ≤ stop := by
  unfold StrPair.findEntity at hfind
  have hmem := List.mem_of_find?_eq_some hfind
  have hprop := List.find?_some hfind
  simp only [Bool.and_eq_true, beq_iff_eq] at hprop
  obtain ⟨hpat, hlen⟩ := entities_patterns e hmem
  have hbytes := strncmpEq_no_nul _ _ _ hpat hlen hprop.1
  by_contra hcon
  by_cases hi : stop - (p + 1) < e.length
  · have := hbytes (stop - (p + 1)) hi
    rw [peek_drop] at this
    have e1 : p + 1 + (stop - (p + 1)) = stop := by omega
    rw [e1] at this
    exact this hnul
  · have e1 : p + e.length + 1 = stop := by omega
    rw [e1, hnul] at hprop
    have := hprop.2
    revert this
    decide

/-- The loop of `GetStr` from a state with `q ≤ p ≤ stop` and the null byte
at `stop`: at every turn and at the exit the write cursor is at most the read
cursor and the read cursor at most `stop`; the loop leaves with the read
cursor on `stop`; the buffer keeps its length and its bytes in front of `q`
and from `stop` on. -/
theorem GetStr_cursors_inv (fl : StrFlags) (stop : Nat) : ∀ (fuel p q : Nat) (B : List Char),
    q ≤ p → p ≤ stop → stop - p ≤ fuel → peek B stop = NUL →
    (∀ pq ∈ StrPair.GetStr.cursors fl stop fuel p q B, q ≤ pq.2 ∧ pq.2 ≤ pq.1 ∧ pq.1 ≤ stop) ∧
    (StrPair.GetStr.cursors fl stop fuel p q B).getLast? =
      some (stop, (StrPair.GetStr.loop fl stop fuel p q B).2) ∧
    (StrPair.GetStr.loop fl stop fuel p q B).1.length = B.length ∧
    (∀ i, i < q ∨ stop ≤ i → peek (StrPair.GetStr.loop fl stop fuel p q B).1 i = peek B i)
  | 0, p, q, B, hqp, hps, hfuel, _ => by
    have e : p = stop := by omega
    subst e
    refine ⟨?_, by simp [StrPair.GetStr.cursors, StrPair.GetStr.loop],
      by simp [StrPair.GetStr.loop], fun _ _ => by simp [StrPair.GetStr.loop]⟩
    intro pq hpq
    simp only [StrPair.GetStr.cursors, List.mem_singleton] at hpq
    subst hpq
    exact ⟨le_refl _, hqp, le_refl _⟩
  | fuel + 1, p, q, B, hqp, hps, hfuel, hnul => by
    by_cases hp : p < stop
    · rw [StrPair.GetStr.loop, StrPair.GetStr.cursors, if_pos hp, if_pos hp]
      have key : ∀ (p' q' : Nat) (B' : List Char), p < p' → p' ≤ stop → q ≤ q' → q' ≤ p' →
          B'.length = B.length → (∀ i, i ≠ q → peek B' i = peek B i) →
          (∀ pq ∈ (p, q) :: StrPair.GetStr.cursors fl stop fuel p' q' B',
            q ≤ pq.2 ∧ pq.2 ≤ pq.1 ∧ pq.1 ≤ stop) ∧
          ((p, q) :: StrPair.GetStr.cursors fl stop fuel p' q' B').getLast? =
            some (stop, (StrPair.GetStr.loop fl stop fuel p' q' B').2) ∧
          (StrPair.GetStr.loop fl stop fuel p' q' B').1.length = B.length ∧
          (∀ i, i < q ∨ stop ≤ i →
            peek (StrPair.GetStr.loop fl stop fuel p' q' B').1 i = peek B i) := by
        intro p' q' B' h1 h2 h3 h4 h5 h6
        have hnul' : peek B' stop = NUL := by rw [h6 stop (by omega)]; exact hnul
        obtain ⟨i1, i2, i3, i4⟩ :=
          GetStr_cursors_inv fl stop fuel p' q' B' h4 h2 (by omega) hnul'
        refine ⟨?_, ?_, by rw [i3, h5], ?_⟩
        · intro pq hpq
          rcases List.mem_cons.1 hpq with e | hm
          · subst e
            exact ⟨le_refl _, hqp, hps⟩
          · have := i1 pq hm
            exact ⟨by omega, this.2.1, this.2.2⟩
        · rw [getLast?_cons_of_ne_nil _ (GetStr_cursors_ne_nil fl stop fuel p' q' B'), i2]
        · intro i hi
          rw [i4 i (by omega), h6 i (by omega)]
      have hset : ∀ x, (B.set q x).length = B.length ∧
          ∀ i, i ≠ q → peek (B.set q x) i = peek B i :=
        fun x => ⟨by simp, fun i hi => peek_set_ne B q i x (Ne.symm hi)⟩
      have hnext : ∀ c, c ≠ NUL → (peek B (p + 1) == c) = true → p + 2 ≤ stop := by
        intro c hc hpk
        have hpk' : peek B (p + 1) = c := by simpa using hpk
        by_contra hcon
        have : p + 1 = stop := by omega
        rw [this, hnul] at hpk'
        exact hc hpk'.symm
      cases hc1 : (fl.NEEDS_NEWLINE_NORMALIZATION && peek B p == CR) with
      | true =>
        cases hc2 : (peek B (p + 1) == LF) with
        | true =>
          simp only [eq_self_iff_true, if_true]
          exact key (p + 2) q _ (by omega) (hnext LF (by decide) hc2) (le_refl _) (by omega)
            (hset LF).1 (hset LF).2
        | false =>
          simp only [eq_self_iff_true, if_true, Bool.false_eq_true, if_false]
          exact key (p + 1) q _ (by omega) (by omega) (le_refl _) (by omega)
            (hset LF).1 (hset LF).2
      | false =>
        cases hc3 : (fl.NEEDS_NEWLINE_NORMALIZATION && peek B p == LF) with
        | true =>
          cases hc4 : (peek B (p + 1) == CR) with
          | true =>
            simp only [eq_self_iff_true, if_true, Bool.false_eq_true, if_false]
            exact key (p + 2) q _ (by omega) (hnext CR (by decide) hc4) (le_refl _) (by omega)
              (hset LF).1 (hset LF).2
          | false =>
            simp only [eq_self_iff_true, if_true, Bool.false_eq_true, if_false]
            exact key (p + 1) q _ (by omega) (by omega) (le_refl _) (by omega)
              (hset LF).1 (hset LF).2
        | false =>
          cases hc5 : (fl.NEEDS_ENTITY_PROCESSING && peek B p == '&') with
          | true =>
            simp only [eq_self_iff_true, if_true, Bool.false_eq_true, if_false]
            cases hfind : StrPair.findEntity B p with
            | none =>
              dsimp only
              exact key (p + 1) (q + 1) B (by omega) (by omega) (by omega) (by omega) rfl
                (fun _ _ => rfl)
            | some e =>
              dsimp only
              have hb := findEntity_before_stop hfind hp hnul
              exact key (p + e.length + 2) (q + 1) _ (by omega) hb (by omega) (by omega)
                (hset e.value).1 (hset e.value).2
          | false =>
            simp only [Bool.false_eq_true, if_false]
            exact key (p + 1) (q + 1) _ (by omega) (by omega) (by omega) (by omega)
              (hset (peek B p)).1 (hset (peek B p)).2
    · have e : p = stop := by omega
      subst e
      rw [StrPair.GetStr.loop, StrPair.GetStr.cursors, if_neg hp, if_neg hp]
      refine ⟨?_, rfl, rfl, fun _ _ => rfl⟩
      intro pq hpq
      simp only [List.mem_singleton] at hpq
      subst hpq
      exact ⟨le_refl _, hqp, le_refl _⟩

theorem peek_set_self_nul (X : List Char) (i : Nat) : peek (X.set i NUL) i = NUL := by
  by_cases h : i < X.length
  · unfold peek
    rw [List.getD_eq_getElem?_getD, List.getElem?_set_self (by simpa using h)]
    rfl
  · exact peek_eq_nul_of_le _ _ (by simp; omega)

/-- A C string ends at its first null byte at the latest. -/
theorem cstrOf_length_le : ∀ (l : List Char) (j : Nat), l.getD j NUL = NUL →
    (cstrOf l).length ≤ j
  | [], _, _ => by simp [cstrOf]
  | c :: cs, j, h => by
    rw [cstrOf]
    by_cases hc : c = NUL
    · rw [if_pos hc]; simp
    · rw [if_neg hc]
      cases j with
      | zero => exact absurd (by simpa using h) hc
      | succ k =>
        have := cstrOf_length_le cs k (by simpa using h)
        simp only [List.length_cons]
        omega

/-- Behind the bytes of a C string stands the null byte (or the end of the
list, which reads as the null byte). -/
theorem getD_cstrOf_length : ∀ (l : List Char), l.getD (cstrOf l).length NUL = NUL
  | [] => rfl
  | c :: cs => by
    rw [cstrOf]
    by_cases hc : c = NUL
    · rw [if_pos hc]; simpa using hc
    · rw [if_neg hc]
      simpa using getD_cstrOf_length cs

/-- Claim C14: for every buffer, every span with `start ≤ end` and every
combination of pending flags, at the head of every turn of the rewrite loop
of `GetStr` and at its exit the write cursor is at least `start` and at most
the read cursor, and the read cursor is at most `end`; the loop leaves with
the read cursor on `end`; the text read afterwards has at most `end - start`
bytes and its terminating null byte stands inside `[start, end]`; the buffer
keeps its length and every byte outside `[start, end]`. -/
theorem GetStr_never_grows (buf : List Char) (start stop : Nat) (flags : StrFlags)
    (h : start ≤ stop) :
    (∀ pq ∈ StrPair.GetStr.cursors flags.orFlush.xorFlush stop (stop - start) start start
        (buf.set stop NUL), start ≤ pq.2 ∧ pq.2 ≤ pq.1 ∧ pq.1 ≤ stop) ∧
    (StrPair.GetStr.cursors flags.orFlush.xorFlush stop (stop - start) start start
        (buf.set stop NUL)).getLast? =
      some (stop, (StrPair.GetStr.loop flags.orFlush.xorFlush stop (stop - start) start start
        (buf.set stop NUL)).2) ∧
    (∃ t, StrPair.text buf (StrPair.Set start stop flags) = some t ∧
      t.length ≤ stop - start ∧
      peek (StrPair.GetStr buf (StrPair.Set start stop flags)).1 (start + t.length) = NUL) ∧
    (StrPair.GetStr buf (StrPair.Set start stop flags)).1.length = buf.length ∧
    ∀ i, i < start ∨ stop < i →
      peek (StrPair.GetStr buf (StrPair.Set start stop flags)).1 i = peek buf i := by
  obtain ⟨i1, i2, i3, i4⟩ := GetStr_cursors_inv flags.orFlush.xorFlush stop (stop - start) start
    start (buf.set stop NUL) (le_refl _) h (le_refl _) (peek_set_self_nul buf stop)
  have hlast := List.mem_of_getLast?_eq_some i2
  have hr := i1 _ hlast
  simp only at hr
  refine ⟨i1, i2, ?_⟩
  rw [StrPair.text_Set, StrPair.GetStr_Set]
  generalize StrPair.GetStr.loop flags.orFlush.xorFlush stop (stop - start) start start
    (buf.set stop NUL) = r at i3 i4 hr
  -- the buffer after the call
  have hR : ∃ k, start ≤ k ∧ k ≤ stop ∧
      peek (if flags.orFlush.xorFlush.nonzero then r.1.set r.2 NUL else buf.set stop NUL) k = NUL ∧
      (if flags.orFlush.xorFlush.nonzero then r.1.set r.2 NUL else buf.set stop NUL).length =
        buf.length ∧
      ∀ i, i < start ∨ stop < i →
        peek (if flags.orFlush.xorFlush.nonzero then r.1.set r.2 NUL else buf.set stop NUL) i =
          peek buf i := by
    cases flags.orFlush.xorFlush.nonzero with
    | true =>
      simp only [if_true]
      refine ⟨r.2, hr.1, hr.2.1, peek_set_self_nul _ _, by simpa using i3, ?_⟩
      intro i hi
      rw [peek_set_ne _ _ _ _ (by omega), i4 i (by omega), peek_set_ne _ _ _ _ (by omega)]
    | false =>
      simp only [Bool.false_eq_true, if_false]
      refine ⟨stop, h, le_refl _, peek_set_self_nul _ _, by simp, ?_⟩
      intro i hi
      rw [peek_set_ne _ _ _ _ (by omega)]
  obtain ⟨k, hk1, hk2, hk3, hlen, hout⟩ := hR
  generalize (if flags.orFlush.xorFlush.nonzero then r.1.set r.2 NUL else buf.set stop NUL) = R
    at hk3 hlen hout
  refine ⟨⟨_, rfl, ?_, ?_⟩, hlen, hout⟩
  · have e : (R.drop start).getD (k - start) NUL = NUL := by
      rw [peek_drop]
      have : start + (k - start) = k := by omega
      rw [this, hk3]
    have := cstrOf_length_le _ _ e
    unfold cstr
    omega
  · unfold cstr
    rw [← peek_drop]
    exact getD_cstrOf_length _

/-- Claim C14 at the text span `a&lt;b` followed by CR, LF and `c`, in a
buffer that goes on behind it. -/
theorem GetStr_never_grows_witness :
    0 ≤ 9 ∧
    (∀ pq ∈ StrPair.GetStr.cursors TEXT_ELEMENT.orFlush.xorFlush 9 (9 - 0) 0 0
        ("a&lt;b\r\nc</a>".toList.set 9 NUL), 0 ≤ pq.2 ∧ pq.2 ≤ pq.1 ∧ pq.1 ≤ 9) ∧
    (StrPair.GetStr.cursors TEXT_ELEMENT.orFlush.xorFlush 9 (9 - 0) 0 0
        ("a&lt;b\r\nc</a>".toList.set 9 NUL)).getLast? =
      some (9, (StrPair.GetStr.loop TEXT_ELEMENT.orFlush.xorFlush 9 (9 - 0) 0 0
        ("a&lt;b\r\nc</a>".toList.set 9 NUL)).2) ∧
    (∃ t, StrPair.text "a&lt;b\r\nc</a>".toList (StrPair.Set 0 9 TEXT_ELEMENT) = some t ∧
      t.length ≤ 9 - 0 ∧
      peek (StrPair.GetStr "a&lt;b\r\nc</a>".toList (StrPair.Set 0 9 TEXT_ELEMENT)).1
        (0 + t.length) = NUL) ∧
    (StrPair.GetStr "a&lt;b\r\nc</a>".toList (StrPair.Set 0 9 TEXT_ELEMENT)).1.length =
      "a&lt;b\r\nc</a>".toList.length ∧
    ∀ i, i < 0 ∨ 9 < i →
      peek (StrPair.GetStr "a&lt;b\r\nc</a>".toList (StrPair.Set 0 9 TEXT_ELEMENT)).1 i =
        peek "a&lt;b\r\nc</a>".toList i :=
  ⟨by decide, GetStr_never_grows "a&lt;b\r\nc</a>".toList 0 9 TEXT_ELEMENT (by decide)⟩

end tinyxml2
